import Mathlib

/-!
N-Queens / N-Rooks decision-diagram specifications (TdZdd `ddqueens`).

A shallow embedding of `NQueenZddBase` (namespace `NQueen`) and
`ColoredNQueenZddBase` (namespace `ColoredNQueen`) of
`apps/ddqueens/NQueenZdd.hpp`, together with proofs about their
state-transition functions `getRoot` and `getChild`.

Conventions of the embedding.

* `Bitmap` is `uint32_t`; a bitmap is a natural number and every operation that
  could leave the 32-bit range is reduced explicitly.
* The state (`Bitmap* bitmap`, an array whose size was fixed by `setArraySize`)
  is a list of bitmaps.  Every array access is checked against the length.
* A call yields `none` when the C++ execution has no defined result: an array
  index out of range, a shift by an amount outside `0..31`, a level whose
  decrement leaves the range of levels, or a failing `assert`.  Otherwise it
  yields `some (state, code)` with the state left in the buffer and the
  returned `int`.
* Levels handed to `getChild` are positive `int`s; they are natural numbers
  here and level `0` (for which `level - 1` is negative) has no defined result.
-/

namespace NQueen

/-- The state array `Bitmap* bitmap`. -/
abbrev State := List Nat

/-- The all-ones 32-bit word `Bitmap(-1)`. -/
def allOnes : Nat := 4294967295

/-- The source's `bit(j)`, that is `Bitmap(1) << j`; defined for `j < 32` only. -/
def bit (j : Nat) : Option Nat :=
  if j < 32 then some (1 <<< j) else none

/-- The 32-bit complement `~x`. -/
def bnot (x : Nat) : Nat := allOnes ^^^ x

/-- The update `x &= ~bit(j)`. -/
def clearBit (x j : Nat) : Option Nat :=
  (bit j).map fun m => x &&& bnot m

/-- The test `x & bit(j)` read as a condition. -/
def hasBit (x j : Nat) : Option Bool :=
  (bit j).map fun m => (x &&& m) != 0

/-- The count `__builtin_popcount(x)` of a 32-bit word. -/
def popcount (x : Nat) : Nat :=
  ((List.range 32).filter fun k => x.testBit k).length

/-- The elimination applied to the bitmap of row `ii` when a piece stands on
`(i, j)`: column `j` is cleared and, unless `rookOnly`, the two diagonal columns
`j - d` and `j + d` with `d = i - ii`, when they are on the board. -/
def elimRow (rookOnly : Bool) (n i j ii : Nat) (x : Nat) : Option Nat := do
  let x ← clearBit x j
  if rookOnly then pure x else
  let d := i - ii
  let x ← if d ≤ j then clearBit x (j - d) else pure x
  if j + d < n then clearBit x (j + d) else pure x

/-- The configuration fixed by a constructor of `NQueenZddBase<S, rookOnly>`. -/
structure Spec where
  /-- The template argument `rookOnly`. -/
  rookOnly : Bool
  /-- The board size `n`. -/
  n : Nat
  /-- The member `topLevel`. -/
  topLevel : Nat
  /-- The member `takeTop`. -/
  takeTop : Bool
deriving DecidableEq, Repr

/-- The constructor `NQueenZddBase(int n)`. -/
def Spec.unrestricted (rookOnly : Bool) (n : Nat) : Spec :=
  { rookOnly := rookOnly, n := n, topLevel := n * n, takeTop := false }

/-- The constructor `NQueenZddBase(int n, int firstCol)`. -/
def Spec.restricted (rookOnly : Bool) (n firstCol : Nat) : Spec :=
  { rookOnly := rookOnly, n := n, topLevel := n * n - firstCol, takeTop := true }

/-- The full row mask `~(Bitmap(-1) << n)`; the shift is defined for `n < 32` only. -/
def fullMask (n : Nat) : Option Nat :=
  if n < 32 then some (bnot ((allOnes <<< n) % 4294967296)) else none

/-- The loop `for (i = 0; i < n; ++i) bitmap[i] = s` of `getRoot`, from index `i`
with `k` iterations left. -/
def fillRows (s : Nat) : Nat → Nat → State → Option State
  | 0, _, bm => some bm
  | k + 1, i, bm => if i < bm.length then fillRows s k (i + 1) (bm.set i s) else none

/-- The member function `NQueenZddBase::getRoot`. -/
def getRoot (c : Spec) (bitmap : State) : Option (State × Nat) := do
  let s ← fullMask c.n
  let bm ← fillRows s c.n 0 bitmap
  pure (bm, c.topLevel)

/-- The elimination loop of the place branch, `for (ii = i - 1; ii >= 0; --ii)`,
with `k = ii + 1` as the recursion argument.  The second component is `none`
when the loop left through `return 0` and the accumulated `total` otherwise. -/
def placeLoop (c : Spec) (i j : Nat) : Nat → State → Nat → Option (State × Option Nat)
  | 0, bm, total => some (bm, some total)
  | ii + 1, bm, total => do
    let x ← bm[ii]?
    let y ← elimRow c.rookOnly c.n i j ii x
    let bm := bm.set ii y
    if y = 0 then pure (bm, none) else placeLoop c i j ii bm (total ||| y)

/-- The trial loop of the scan, on copies `bm` of the rows: `none` inside when
`takable` became false, the accumulated `total` otherwise. -/
def trialLoop (c : Spec) (i j : Nat) : Nat → State → Nat → Option (Option Nat)
  | 0, _, total => some (some total)
  | ii + 1, bm, total => do
    let x ← bm[ii]?
    let y ← elimRow c.rookOnly c.n i j ii x
    if y = 0 then pure none else trialLoop c i j ii bm (total ||| y)

/-- The condition under which the scan leaves its loop at cell `(i, j)`: the bit
is set, the trial found every row above non-empty and the bound holds. -/
def takable (c : Spec) (i j : Nat) (bm : State) : Option Bool := do
  let x ← bm[i]?
  let t ← hasBit x j
  if t then
    match ← trialLoop c i j i bm 0 with
    | some total => pure (decide (i ≤ popcount total))
    | none => pure false
  else pure false

/-- The skip-ahead scan `while (true) { --level; ... }`.  The argument is the
level before the decrement; a decrement to `0` makes `level - 1` negative and
the indices computed from it fall outside the array or the shift range. -/
def scan (c : Spec) : Nat → State → Option (State × Int)
  | 0, _ => none
  | level + 1, bm =>
    if level = 0 then none else
    let i := (level - 1) / c.n
    let j := (level - 1) % c.n
    do
      let stop ← takable c i j bm
      if stop then pure (bm, (level : Int)) else
      let x ← bm[i]?
      let y ← clearBit x j
      let bm := bm.set i y
      if y = 0 then pure (bm, 0) else scan c level bm

/-- The member function `NQueenZddBase::getChild`; `b` is the condition `b != 0`.
For `n = 0`, which the constructors exclude, the decoding divides by zero. -/
def getChild (c : Spec) (bitmap : State) (level : Nat) (b : Bool) : Option (State × Int) :=
  if level = 0 ∨ c.n = 0 then none else
  let i := (level - 1) / c.n
  let j := (level - 1) % c.n
  if b then do
    let x ← bitmap[i]?
    let t ← hasBit x j
    if !t then pure (bitmap, 0) else
    let (bm, r) ← placeLoop c i j i bitmap 0
    match r with
    | none => pure (bm, 0)
    | some total =>
      if i = 0 then pure (bm, -1) else
      if popcount total < i then pure (bm, 0) else
      if i < bm.length then scan c (i * c.n + 1) (bm.set i 0) else none
  else do
    if c.takeTop ∧ level = c.topLevel then pure (bitmap, 0) else
    let x ← bitmap[i]?
    let y ← clearBit x j
    let bm := bitmap.set i y
    if y = 0 then pure (bm, 0) else
    if j < 1 then none else scan c level bm

/-- The cell `(row, column)` decoded from a level. -/
def cellOf (n level : Nat) : Nat × Nat := ((level - 1) / n, (level - 1) % n)

/-- Following a sequence of branch choices from `(bitmap, level)`: the result is
the list of cells at which the place branch was chosen when the last call of
`getChild` returns `-1`, and `none` when the sequence ends too early, continues
after a terminal, or meets the terminal `0` or an undefined call. -/
def follow (c : Spec) : State → Nat → List Bool → Option (List (Nat × Nat))
  | _, _, [] => none
  | bm, level, b :: bs =>
    match getChild c bm level b with
    | none => none
    | some (bm1, r) =>
      let cell := if b then [cellOf c.n level] else []
      if r = -1 then (if bs = [] then some cell else none)
      else if r ≤ 0 then none
      else (follow c bm1 r.toNat bs).map fun cells => cell ++ cells

/-- All accepted branch sequences below `(bitmap, level)`, explored to the given
depth; `none` when the depth did not suffice or a call was undefined. -/
def acceptedPaths (c : Spec) : Nat → State → Nat → Option (List (List Bool))
  | 0, _, _ => none
  | fuel + 1, bm, level =>
    let branch (b : Bool) : Option (List (List Bool)) :=
      match getChild c bm level b with
      | none => none
      | some (bm1, r) =>
        if r = -1 then some [[b]]
        else if r ≤ 0 then some []
        else (acceptedPaths c fuel bm1 r.toNat).map fun ps => ps.map fun p => b :: p
    do
      let p0 ← branch false
      let p1 ← branch true
      pure (p0 ++ p1)

/-- All accepted branch sequences from the root of the diagram. -/
def rootPaths (c : Spec) : Option (List (List Bool)) := do
  let (bm, level) ← getRoot c (List.replicate c.n 0)
  acceptedPaths c (level + 1) bm level

/-- Whether a branch sequence from the root is accepted, that is ends exactly
with `getChild` returning `-1`.  `getRoot` overwrites the whole buffer, so the
buffer it is given does not matter. -/
def accepts (c : Spec) (bs : List Bool) : Bool :=
  match getRoot c (List.replicate c.n 0) with
  | none => false
  | some (bm, level) => (follow c bm level bs).isSome

/-- The pairs `(state, level)` reachable from `getRoot` by following the levels
returned by `getChild`. -/
inductive Reach (c : Spec) : State → Nat → Prop
  | root (buf bm : State) (level : Nat) :
      buf.length = c.n → getRoot c buf = some (bm, level) → Reach c bm level
  | step (bm bm1 : State) (level : Nat) (b : Bool) (r : Int) :
      Reach c bm level → getChild c bm level b = some (bm1, r) → 1 ≤ r →
      Reach c bm1 r.toNat

/-! ### Auxiliary notions used in the statements and proofs -/

/-- Row `p` of a state (`0` outside the array). -/
def row (s : State) (p : Nat) : Nat := s.getD p 0

/-- The value of `x & ~bit(j)` when the shift is defined. -/
def clearBitP (x j : Nat) : Nat := x &&& bnot (1 <<< j)

/-- The value of `elimRow` when its shifts are defined. -/
def elimRowP (rookOnly : Bool) (n i j ii : Nat) (x : Nat) : Nat :=
  let x := clearBitP x j
  if rookOnly then x else
  let d := i - ii
  let x := if d ≤ j then clearBitP x (j - d) else x
  if j + d < n then clearBitP x (j + d) else x

/-- Column `q` of row `ii` is removed by a piece on `(i, j)`. -/
def attacks (rookOnly : Bool) (n i j ii q : Nat) : Bool :=
  decide (q = j) || (!rookOnly &&
    ((decide (i - ii ≤ j) && decide (q = j - (i - ii))) ||
     (decide (j + (i - ii) < n) && decide (q = j + (i - ii)))))

/-- The result of `trialLoop` when its accesses are defined. -/
def trialP (c : Spec) (i j : Nat) : Nat → State → Nat → Option Nat
  | 0, _, total => some total
  | ii + 1, bm, total =>
    let y := elimRowP c.rookOnly c.n i j ii (row bm ii)
    if y = 0 then none else trialP c i j ii bm (total ||| y)

/-- The result of `placeLoop` when its accesses are defined. -/
def placeP (c : Spec) (i j : Nat) : Nat → State → Nat → State × Option Nat
  | 0, bm, total => (bm, some total)
  | ii + 1, bm, total =>
    let y := elimRowP c.rookOnly c.n i j ii (row bm ii)
    if y = 0 then (bm.set ii y, none) else placeP c i j ii (bm.set ii y) (total ||| y)

/-- The result of `takable` when its accesses are defined. -/
def takableP (c : Spec) (i j : Nat) (bm : State) : Bool :=
  (row bm i).testBit j &&
    match trialP c i j i bm 0 with
    | some total => decide (i ≤ popcount total)
    | none => false

/-- Monotone elimination: same length and no bit of `s1` outside `s`. -/
def Sub (s1 s : State) : Prop :=
  s1.length = s.length ∧ ∀ p q, (row s1 p).testBit q = true → (row s p).testBit q = true

/-- The state in which the place branch at `(i, j)` starts its scan: the rows
above eliminated, row `i` reset. -/
def afterPlace (c : Spec) (i j : Nat) (s : State) : State :=
  (placeP c i j i s 0).1.set i 0

/-- The configurations the two constructors can produce with `1 ≤ n ≤ 31`: the
top level lies in the last row, and equals `n * n` unless `takeTop`. -/
def Spec.Valid (c : Spec) : Prop :=
  1 ≤ c.n ∧ c.n ≤ 31 ∧ c.n * (c.n - 1) < c.topLevel ∧ c.topLevel ≤ c.n * c.n ∧
    (c.takeTop = false → c.topLevel = c.n * c.n)

/-- The invariant of the pairs `(state, level)` met along a path from the root:
the array has `n` rows with bits below `n` only, the rows after the row `i` of
the level are resolved, row `i` has the bit of the level set and, except at the
restricted top level, no bit above it, and the rows before `i` are non-empty. -/
def Inv (c : Spec) (s : State) (L : Nat) : Prop :=
  s.length = c.n ∧ 1 ≤ L ∧ L ≤ c.n * c.n ∧
  (∀ p q, (row s p).testBit q = true → q < c.n) ∧
  (∀ p, (L - 1) / c.n < p → row s p = 0) ∧
  (row s ((L - 1) / c.n)).testBit ((L - 1) % c.n) = true ∧
  ((c.takeTop = true ∧ L = c.topLevel) ∨
    ∀ q, (row s ((L - 1) / c.n)).testBit q = true → q ≤ (L - 1) % c.n) ∧
  (∀ p, p < (L - 1) / c.n → row s p ≠ 0)

/-- The bitwise union of the rows `0 .. i-1`, the value accumulated in `total`. -/
def unionRows (s : State) : Nat → Nat
  | 0 => 0
  | k + 1 => unionRows s k ||| row s k

/-- The rows `0 .. i-1` can be given pairwise distinct columns, each one a set
bit of the bitmap of its row. -/
def Assignable (s : State) (i : Nat) : Prop :=
  ∃ f : Nat → Nat, (∀ p, p < i → (row s p).testBit (f p) = true) ∧
    ∀ p1 p2, p1 < i → p2 < i → p1 ≠ p2 → f p1 ≠ f p2

/-- The accepted branch sequences from the root are exactly `k` in number: they
are the members of a duplicate-free list of length `k`. -/
def PathCount (c : Spec) (k : Nat) : Prop :=
  ∃ l : List (List Bool), l.Nodup ∧ l.length = k ∧ ∀ bs, bs ∈ l ↔ accepts c bs = true

/-- The accepted branch sequences that start with the choices `pre` are exactly
`k` in number. -/
def PathsWith (c : Spec) (pre : List Bool) (k : Nat) : Prop :=
  ∃ l : List (List Bool), l.Nodup ∧ l.length = k ∧
    ∀ bs, bs ∈ l ↔ (accepts c bs = true ∧ pre <+: bs)

/-- All accepted branch sequences from `(bitmap, level)` that start with the
choices `pre`: the choices are followed and the part of the tree below them is
explored by `acceptedPaths`. -/
def pathsBelow (c : Spec) (fuel : Nat) : State → Nat → List Bool → Option (List (List Bool))
  | bm, level, [] => acceptedPaths c fuel bm level
  | bm, level, b :: bs =>
    match getChild c bm level b with
    | none => none
    | some (bm1, r) =>
      if r = -1 then some (if bs = [] then [[b]] else [])
      else if r ≤ 0 then some []
      else (pathsBelow c fuel bm1 r.toNat bs).map fun ps => ps.map fun p => b :: p

/-- The 8-queens instance `NQueenZdd(8)`. -/
abbrev queens8 : Spec := Spec.unrestricted false 8

/-- All accepted branch sequences from the root that start with `pre`. -/
def pathsWith (c : Spec) (fuel : Nat) (pre : List Bool) : Option (List (List Bool)) := do
  let (bm, level) ← getRoot c (List.replicate c.n 0)
  pathsBelow c fuel bm level pre

/-- The place branch of `getChild` up to the start of its scan: `Sum.inl` is a
return before the scan (of `0` or of `-1`, with the state left in the buffer),
`Sum.inr` is the state with which the scan starts, after the reset of row `i`. -/
def placeHead (c : Spec) (i j : Nat) (bitmap : State) : Option (Sum (State × Int) State) := do
  let x ← bitmap[i]?
  let t ← hasBit x j
  if !t then pure (Sum.inl (bitmap, 0)) else
  let (bm, r) ← placeLoop c i j i bitmap 0
  match r with
  | none => pure (Sum.inl (bm, 0))
  | some total =>
    if i = 0 then pure (Sum.inl (bm, -1)) else
    if popcount total < i then pure (Sum.inl (bm, 0)) else
    if i < bm.length then pure (Sum.inr (bm.set i 0)) else none

/-- The place branch of `getChild` continued from the result of `placeHead`:
an early return is the result, otherwise the scan starts at level `i * n + 1`. -/
def placeTail (c : Spec) (i : Nat) : Sum (State × Int) State → Option (State × Int)
  | Sum.inl v => some v
  | Sum.inr bm => scan c (i * c.n + 1) bm

end NQueen

namespace ColoredNQueen

open NQueen

/-- The configuration fixed by the constructor of
`ColoredNQueenZddBase<S, rookOnly>`: the template argument and the board size. -/
structure Spec where
  /-- The template argument `rookOnly`. -/
  rookOnly : Bool
  /-- The board size `n`. -/
  n : Nat
deriving DecidableEq, Repr

/-- The member `m`, the number of bitmaps `n * n`. -/
def Spec.m (c : Spec) : Nat := c.n * c.n

/-- The member `topLevel`, `n * n * n`. -/
def Spec.topLevel (c : Spec) : Nat := c.n * c.n * c.n

/-- The first loop of `getRoot`, `for (i = m - 1; i >= m - n; --i)
bitmap[i] = bit(i - m + n)`, with `k` iterations left: the next index is
`m - n + (k - 1)`. -/
def seedRows (c : Spec) : Nat → State → Option State
  | 0, bm => some bm
  | k + 1, bm => do
    let v ← bit k
    if c.m - c.n + k < bm.length then seedRows c k (bm.set (c.m - c.n + k) v) else none

/-- The second loop of `getRoot`, `for (i = m - n - 1; i >= 0; --i) bitmap[i] = s`,
with `k = i + 1` iterations left. -/
def fillDown (s : Nat) : Nat → State → Option State
  | 0, bm => some bm
  | i + 1, bm => if i < bm.length then fillDown s i (bm.set i s) else none

/-- The member function `ColoredNQueenZddBase::getRoot`. -/
def getRoot (c : Spec) (bitmap : State) : Option (State × Nat) := do
  let s ← fullMask c.n
  let bm ← seedRows c c.n bitmap
  let bm ← fillDown s (c.m - c.n) bm
  pure (bm, c.topLevel)

/-- The elimination loop of the place branch over the rows `ii < i` of colour
`k`, with `ii + 1` as the recursion argument; the second component is `none`
when the loop left through `return 0`. -/
def placeLoop (c : Spec) (i j k : Nat) : Nat → State → Nat → Option (State × Option Nat)
  | 0, bm, total => some (bm, some total)
  | ii + 1, bm, total => do
    let x ← bm[ii * c.n + k]?
    let y ← elimRow c.rookOnly c.n i j ii x
    let bm := bm.set (ii * c.n + k) y
    if y = 0 then pure (bm, none) else placeLoop c i j k ii bm (total ||| y)

/-- The loop `for (ikk = ik - 1; ikk >= i * n; --ikk) bitmap[ikk] &= ~bit(j)` over
the colours below `k` in row `i`, with `kk + 1` as the recursion argument. -/
def clearSiblings (c : Spec) (i j : Nat) : Nat → State → Option State
  | 0, bm => some bm
  | kk + 1, bm => do
    let x ← bm[i * c.n + kk]?
    let y ← clearBit x j
    clearSiblings c i j kk (bm.set (i * c.n + kk) y)

/-- The trial loop of the scan on copies of the rows `ii < i` of colour `k`. -/
def trialLoop (c : Spec) (i j k : Nat) : Nat → State → Nat → Option (Option Nat)
  | 0, _, total => some (some total)
  | ii + 1, bm, total => do
    let x ← bm[ii * c.n + k]?
    let y ← elimRow c.rookOnly c.n i j ii x
    if y = 0 then pure none else trialLoop c i j k ii bm (total ||| y)

/-- The condition under which the scan leaves its loop at `(i, j, k)`. -/
def takable (c : Spec) (i j k : Nat) (bm : State) : Option Bool := do
  let x ← bm[i * c.n + k]?
  let t ← hasBit x j
  if t then
    match ← trialLoop c i j k i bm 0 with
    | some total => pure (decide (i ≤ popcount total))
    | none => pure false
  else pure false

/-- The scan `while (true) { --level; ... }` of the coloured variant; the
argument is the level before the decrement.  A level is decoded with
`k = level - 1`, `i = k / m`, `k %= m`, `j = k / n`, `k %= n`. -/
def scan (c : Spec) : Nat → State → Option (State × Int)
  | 0, _ => none
  | level + 1, bm =>
    if level = 0 ∨ c.n = 0 then none else
    let i := (level - 1) / c.m
    let j := (level - 1) % c.m / c.n
    let k := (level - 1) % c.m % c.n
    do
      let stop ← takable c i j k bm
      if stop then pure (bm, (level : Int)) else
      let x ← bm[i * c.n + k]?
      let y ← clearBit x j
      let bm := bm.set (i * c.n + k) y
      if y = 0 then pure (bm, 0) else scan c level bm

/-- The member function `ColoredNQueenZddBase::getChild`; `b` is the condition
`b != 0`.  For `n = 0` the decoding divides by zero. -/
def getChild (c : Spec) (bitmap : State) (level : Nat) (b : Bool) : Option (State × Int) :=
  if level = 0 ∨ c.n = 0 then none else
  let i := (level - 1) / c.m
  let j := (level - 1) % c.m / c.n
  let k := (level - 1) % c.m % c.n
  if b then do
    let x ← bitmap[i * c.n + k]?
    let t ← hasBit x j
    if !t then pure (bitmap, 0) else
    let (bm, r) ← placeLoop c i j k i bitmap 0
    match r with
    | none => pure (bm, 0)
    | some total =>
      if popcount total < i then pure (bm, 0) else
      if i = 0 ∧ j = 0 then pure (bm, -1) else
      do
        let v ← bit (c.n - 1)
        if i * c.n + k < bm.length then
          let bm ← clearSiblings c i j k (bm.set (i * c.n + k) v)
          scan c level bm
        else none
  else do
    let x ← bitmap[i * c.n + k]?
    let y ← clearBit x j
    let bm := bitmap.set (i * c.n + k) y
    if y = 0 then pure (bm, 0) else
    if j < 1 then none else scan c level bm

/-- The pairs `(state, level)` reachable from the coloured `getRoot` by following
the levels returned by the coloured `getChild`. -/
inductive Reach (c : Spec) : State → Nat → Prop
  | root (buf bm : State) (level : Nat) :
      buf.length = c.m → getRoot c buf = some (bm, level) → Reach c bm level
  | step (bm bm1 : State) (level : Nat) (b : Bool) (r : Int) :
      Reach c bm level → getChild c bm level b = some (bm1, r) → 1 ≤ r →
      Reach c bm1 r.toNat

/-- The invariant behind the sibling loop: at the cell `(i, j, k)` of the level,
when a colour `k2 > k` of row `i` still offers column `j`, no colour `k1 ≤ k`
of row `i` offers it. -/
def Passed (c : Spec) (s : State) (L : Nat) : Prop :=
  ∀ k1 k2, k1 ≤ (L - 1) % c.m % c.n → (L - 1) % c.m % c.n < k2 → k2 < c.n →
    (row s ((L - 1) / c.m * c.n + k2)).testBit ((L - 1) % c.m / c.n) = true →
    (row s ((L - 1) / c.m * c.n + k1)).testBit ((L - 1) % c.m / c.n) = false

end ColoredNQueen

namespace NQueen

/-! ### Bit-level facts -/

theorem testBit_allOnes (k : Nat) : allOnes.testBit k = decide (k < 32) := by
  have h : allOnes = 2 ^ 32 - 1 := by decide
  rw [h, Nat.testBit_two_pow_sub_one]

theorem testBit_clearBitP (x j k : Nat) (hj : j < 32) :
    (clearBitP x j).testBit k = (x.testBit k && (decide (k < 32) && !decide (k = j))) := by
  unfold clearBitP bnot
  rw [Nat.testBit_and, Nat.testBit_xor, testBit_allOnes, Nat.one_shiftLeft, Nat.testBit_two_pow]
  have h : decide (j = k) = decide (k = j) := by
    by_cases h2 : j = k
    · subst h2; simp
    · have h3 : ¬ k = j := fun e => h2 e.symm
      simp [h2, h3]
  rw [h]
  by_cases h1 : k < 32
  · cases x.testBit k <;> cases decide (k = j) <;> simp [h1]
  · have h2 : ¬ k = j := by omega
    simp [h1, h2]

theorem clearBit_eq (x j : Nat) (hj : j < 32) : clearBit x j = some (clearBitP x j) := by
  simp [clearBit, bit, hj, clearBitP]

theorem hasBit_eq (x j : Nat) (hj : j < 32) : hasBit x j = some (x.testBit j) := by
  simp only [hasBit, bit, hj, if_true, Option.map_some']
  congr 1
  rw [Nat.one_shiftLeft, Nat.and_two_pow]
  cases h : x.testBit j <;> simp [Bool.toNat]

theorem elimRow_eq (rk : Bool) (n i j ii x : Nat) (hj : j < n) (hn : n ≤ 32) :
    elimRow rk n i j ii x = some (elimRowP rk n i j ii x) := by
  unfold elimRow elimRowP
  have h1 : j < 32 := by omega
  simp only [clearBit_eq _ _ h1, Option.bind_eq_bind, Option.some_bind, Option.pure_def]
  cases rk
  · by_cases hd : i - ii ≤ j <;> by_cases he : j + (i - ii) < n <;>
      simp [hd, he, clearBit_eq _ _ (show j - (i - ii) < 32 by omega)] <;>
      rw [clearBit_eq _ _ (by omega)]
  · simp

theorem testBit_elimRowP (rk : Bool) (n i j ii x k : Nat) (hj : j < n) (hn : n ≤ 32) :
    (elimRowP rk n i j ii x).testBit k =
      (x.testBit k && (decide (k < 32) && !attacks rk n i j ii k)) := by
  unfold elimRowP attacks
  have h1 : j < 32 := by omega
  cases rk
  · by_cases hd : i - ii ≤ j <;> by_cases he : j + (i - ii) < n <;>
      simp only [hd, he, if_true, if_false, Bool.false_eq_true, decide_True,
        decide_False, Bool.true_and, Bool.false_and, Bool.or_false, Bool.not_false]
    · rw [testBit_clearBitP _ _ _ (by omega), testBit_clearBitP _ _ _ (by omega),
        testBit_clearBitP _ _ _ h1]
      cases x.testBit k <;> cases decide (k < 32) <;> cases decide (k = j) <;>
      cases decide (k = j - (i - ii)) <;> cases decide (k = j + (i - ii)) <;> rfl
    · rw [testBit_clearBitP _ _ _ (by omega), testBit_clearBitP _ _ _ h1]
      cases x.testBit k <;> cases decide (k < 32) <;> cases decide (k = j) <;>
      cases decide (k = j - (i - ii)) <;> rfl
    · rw [testBit_clearBitP _ _ _ (by omega), testBit_clearBitP _ _ _ h1]
      cases x.testBit k <;> cases decide (k < 32) <;> cases decide (k = j) <;>
      cases decide (k = j + (i - ii)) <;> rfl
    · rw [testBit_clearBitP _ _ _ h1]
  · simp [testBit_clearBitP _ _ _ h1]

theorem testBit_clearBitP_imp (x j k : Nat) (h : (clearBitP x j).testBit k = true) :
    x.testBit k = true := by
  unfold clearBitP at h
  rw [Nat.testBit_and] at h
  exact (Bool.and_eq_true _ _ ▸ h).1

theorem testBit_elimRowP_imp (rk : Bool) (n i j ii x k : Nat)
    (h : (elimRowP rk n i j ii x).testBit k = true) : x.testBit k = true := by
  unfold elimRowP at h
  cases rk
  · simp only [Bool.false_eq_true, if_false] at h
    split at h <;> split at h
    · exact testBit_clearBitP_imp _ _ _ (testBit_clearBitP_imp _ _ _ (testBit_clearBitP_imp _ _ _ h))
    · exact testBit_clearBitP_imp _ _ _ (testBit_clearBitP_imp _ _ _ h)
    · exact testBit_clearBitP_imp _ _ _ (testBit_clearBitP_imp _ _ _ h)
    · exact testBit_clearBitP_imp _ _ _ h
  · simp only [if_true] at h
    exact testBit_clearBitP_imp _ _ _ h

/-! ### Rows of a state -/

theorem getElem?_eq_row (s : State) (p : Nat) (h : p < s.length) : s[p]? = some (row s p) := by
  simp [row, List.getD_eq_getElem?_getD, List.getElem?_eq_getElem h]

theorem row_of_length_le (s : State) (p : Nat) (h : s.length ≤ p) : row s p = 0 := by
  simp [row, List.getD_eq_getElem?_getD, List.getElem?_eq_none h]

theorem row_set_self (s : State) (i y : Nat) (h : i < s.length) : row (s.set i y) i = y := by
  simp [row, List.getD_eq_getElem?_getD, List.getElem?_set, h]

theorem row_set_ne (s : State) (i y p : Nat) (h : p ≠ i) : row (s.set i y) p = row s p := by
  have h1 : ¬ i = p := fun e => h e.symm
  simp [row, List.getD_eq_getElem?_getD, List.getElem?_set, h1]

theorem Sub.refl (s : State) : Sub s s := ⟨rfl, fun _ _ h => h⟩

theorem Sub.trans {s1 s2 s3 : State} (h1 : Sub s1 s2) (h2 : Sub s2 s3) : Sub s1 s3 :=
  ⟨h1.1.trans h2.1, fun p q h => h2.2 p q (h1.2 p q h)⟩

theorem Sub.set (s : State) (i y : Nat)
    (h : ∀ q, y.testBit q = true → (row s i).testBit q = true) : Sub (s.set i y) s := by
  refine ⟨by simp, fun p q hq => ?_⟩
  by_cases hp : p = i
  · subst hp
    by_cases hl : p < s.length
    · rw [row_set_self _ _ _ hl] at hq
      exact h q hq
    · rw [row_of_length_le _ _ (by simpa using hl)] at hq
      simp at hq
  · rwa [row_set_ne _ _ _ _ hp] at hq

/-! ### The loops agree with their pure descriptions -/

theorem trialLoop_eq (c : Spec) (i j : Nat) (hj : j < c.n) (hn : c.n ≤ 32) :
    ∀ (k : Nat) (s : State) (t : Nat), k ≤ s.length →
      trialLoop c i j k s t = some (trialP c i j k s t) := by
  intro k
  induction k with
  | zero => intro s t _; rfl
  | succ k ih =>
    intro s t hk
    simp only [trialLoop, trialP, getElem?_eq_row s k (by omega), elimRow_eq _ _ _ _ _ _ hj hn,
      Option.bind_eq_bind, Option.some_bind, Option.pure_def]
    split
    · rfl
    · exact ih s _ (by omega)

theorem placeLoop_eq (c : Spec) (i j : Nat) (hj : j < c.n) (hn : c.n ≤ 32) :
    ∀ (k : Nat) (s : State) (t : Nat), k ≤ s.length →
      placeLoop c i j k s t = some (placeP c i j k s t) := by
  intro k
  induction k with
  | zero => intro s t _; rfl
  | succ k ih =>
    intro s t hk
    simp only [placeLoop, placeP, getElem?_eq_row s k (by omega), elimRow_eq _ _ _ _ _ _ hj hn,
      Option.bind_eq_bind, Option.some_bind, Option.pure_def]
    split
    · rfl
    · exact ih _ _ (by simp; omega)

theorem takable_eq (c : Spec) (i j : Nat) (s : State) (hi : i < s.length) (hj : j < c.n)
    (hn : c.n ≤ 32) : takable c i j s = some (takableP c i j s) := by
  simp only [takable, takableP, getElem?_eq_row s i hi, hasBit_eq _ _ (show j < 32 by omega),
    trialLoop_eq c i j hj hn i s 0 (by omega), Option.bind_eq_bind, Option.some_bind,
    Option.pure_def]
  cases (row s i).testBit j
  · simp
  · cases trialP c i j i s 0 <;> simp

theorem scan_succ (c : Spec) (L : Nat) (s : State) (hL : 1 ≤ L)
    (hi : (L - 1) / c.n < s.length) (hn1 : 1 ≤ c.n) (hn : c.n ≤ 32) :
    scan c (L + 1) s =
      if takableP c ((L - 1) / c.n) ((L - 1) % c.n) s = true then some (s, (L : Int))
      else if clearBitP (row s ((L - 1) / c.n)) ((L - 1) % c.n) = 0 then
        some (s.set ((L - 1) / c.n) (clearBitP (row s ((L - 1) / c.n)) ((L - 1) % c.n)), 0)
      else scan c L (s.set ((L - 1) / c.n) (clearBitP (row s ((L - 1) / c.n)) ((L - 1) % c.n))) := by
  have hj : (L - 1) % c.n < c.n := Nat.mod_lt _ (by omega)
  have hL0 : ¬ L = 0 := by omega
  simp only [scan, hL0, if_false, takable_eq c _ _ s hi hj hn, getElem?_eq_row s _ hi,
    clearBit_eq _ _ (show (L - 1) % c.n < 32 by omega), Option.bind_eq_bind, Option.some_bind,
    Option.pure_def]

/-! ### The trial and the elimination loop -/

theorem trialP_set_ge (c : Spec) (i j : Nat) :
    ∀ (k : Nat) (s : State) (t p y : Nat), k ≤ p →
      trialP c i j k (s.set p y) t = trialP c i j k s t := by
  intro k
  induction k with
  | zero => intro s t p y _; rfl
  | succ k ih =>
    intro s t p y hk
    simp only [trialP, row_set_ne s p y k (by omega)]
    split
    · rfl
    · exact ih s _ p y (by omega)

theorem trialP_congr (c : Spec) (i j : Nat) :
    ∀ (k : Nat) (s s1 : State) (t : Nat), (∀ p, p < k → row s1 p = row s p) →
      trialP c i j k s1 t = trialP c i j k s t := by
  intro k
  induction k with
  | zero => intro s s1 t _; rfl
  | succ k ih =>
    intro s s1 t h
    simp only [trialP, h k (by omega)]
    split
    · rfl
    · exact ih s s1 _ (fun p hp => h p (by omega))

theorem trialP_some (c : Spec) (i j : Nat) :
    ∀ (k : Nat) (s : State) (t t1 : Nat), trialP c i j k s t = some t1 →
      (∀ p, p < k → elimRowP c.rookOnly c.n i j p (row s p) ≠ 0) ∧
      ∀ q, t1.testBit q = true ↔
        (t.testBit q = true ∨
          ∃ p, p < k ∧ (elimRowP c.rookOnly c.n i j p (row s p)).testBit q = true) := by
  intro k
  induction k with
  | zero =>
    intro s t t1 h
    simp only [trialP, Option.some.injEq] at h
    subst h
    exact ⟨fun p hp => absurd hp (by omega), fun q => ⟨fun h => Or.inl h, fun h => by
      rcases h with h | ⟨p, hp, _⟩
      · exact h
      · omega⟩⟩
  | succ k ih =>
    intro s t t1 h
    simp only [trialP] at h
    split at h
    · exact absurd h (by simp)
    · rename_i hy
      obtain ⟨h1, h2⟩ := ih s _ t1 h
      refine ⟨fun p hp => ?_, fun q => ?_⟩
      · by_cases hpk : p = k
        · subst hpk; exact hy
        · exact h1 p (by omega)
      · rw [h2 q, Nat.testBit_or, Bool.or_eq_true]
        constructor
        · rintro ((hq | hq) | ⟨p, hp, hq⟩)
          · exact Or.inl hq
          · exact Or.inr ⟨k, by omega, hq⟩
          · exact Or.inr ⟨p, by omega, hq⟩
        · rintro (hq | ⟨p, hp, hq⟩)
          · exact Or.inl (Or.inl hq)
          · by_cases hpk : p = k
            · subst hpk; exact Or.inl (Or.inr hq)
            · exact Or.inr ⟨p, by omega, hq⟩

theorem trialP_isSome (c : Spec) (i j : Nat) :
    ∀ (k : Nat) (s : State) (t : Nat),
      (∀ p, p < k → elimRowP c.rookOnly c.n i j p (row s p) ≠ 0) →
      ∃ t1, trialP c i j k s t = some t1 := by
  intro k
  induction k with
  | zero => intro s t _; exact ⟨t, rfl⟩
  | succ k ih =>
    intro s t h
    simp only [trialP, h k (by omega), if_false]
    exact ih s _ (fun p hp => h p (by omega))

theorem placeP_snd (c : Spec) (i j : Nat) :
    ∀ (k : Nat) (s : State) (t : Nat), (placeP c i j k s t).2 = trialP c i j k s t := by
  intro k
  induction k with
  | zero => intro s t; rfl
  | succ k ih =>
    intro s t
    simp only [placeP, trialP]
    split
    · rfl
    · rw [ih, trialP_set_ge c i j k s _ k _ (Nat.le_refl k)]

theorem placeP_length (c : Spec) (i j : Nat) :
    ∀ (k : Nat) (s : State) (t : Nat), (placeP c i j k s t).1.length = s.length := by
  intro k
  induction k with
  | zero => intro s t; rfl
  | succ k ih =>
    intro s t
    simp only [placeP]
    split
    · simp
    · rw [ih]; simp

theorem placeP_row_ge (c : Spec) (i j : Nat) :
    ∀ (k : Nat) (s : State) (t p : Nat), k ≤ p → row (placeP c i j k s t).1 p = row s p := by
  intro k
  induction k with
  | zero => intro s t p _; rfl
  | succ k ih =>
    intro s t p hp
    simp only [placeP]
    split
    · exact row_set_ne _ _ _ _ (by omega)
    · rw [ih _ _ p (by omega)]
      exact row_set_ne _ _ _ _ (by omega)

theorem placeP_sub (c : Spec) (i j : Nat) :
    ∀ (k : Nat) (s : State) (t : Nat), Sub (placeP c i j k s t).1 s := by
  intro k
  induction k with
  | zero => intro s t; exact Sub.refl s
  | succ k ih =>
    intro s t
    have hs : Sub (s.set k (elimRowP c.rookOnly c.n i j k (row s k))) s :=
      Sub.set s k _ (fun q hq => testBit_elimRowP_imp _ _ _ _ _ _ _ hq)
    simp only [placeP]
    split
    · exact hs
    · exact (ih _ _).trans hs

theorem placeP_row_lt (c : Spec) (i j : Nat) :
    ∀ (k : Nat) (s : State) (t t1 : Nat), k ≤ s.length → trialP c i j k s t = some t1 →
      ∀ p, p < k → row (placeP c i j k s t).1 p = elimRowP c.rookOnly c.n i j p (row s p) := by
  intro k
  induction k with
  | zero => intro s t t1 _ _ p hp; omega
  | succ k ih =>
    intro s t t1 hk h p hp
    simp only [trialP] at h
    simp only [placeP]
    split at h
    · exact absurd h (by simp)
    · rename_i hy
      simp only [hy, if_false]
      by_cases hpk : p = k
      · subst hpk
        rw [placeP_row_ge c i j p _ _ p (Nat.le_refl p), row_set_self _ _ _ (by omega)]
      · rw [ih _ _ t1 (by simp; omega) (by rwa [trialP_set_ge c i j k s _ k _ (Nat.le_refl k)])
          p (by omega), row_set_ne _ _ _ _ hpk]

/-! ### Defined results are the pure results, for arbitrary arguments -/

theorem clearBit_some {x j y : Nat} (h : clearBit x j = some y) :
    y = clearBitP x j ∧ j < 32 := by
  unfold clearBit bit at h
  by_cases hj : j < 32
  · simp only [hj, if_true, Option.map_some', Option.some.injEq] at h
    exact ⟨h.symm, hj⟩
  · simp [hj] at h

theorem hasBit_some {x j : Nat} {t : Bool} (h : hasBit x j = some t) :
    t = x.testBit j ∧ j < 32 := by
  by_cases hj : j < 32
  · rw [hasBit_eq _ _ hj, Option.some.injEq] at h
    exact ⟨h.symm, hj⟩
  · simp [hasBit, bit, hj] at h

theorem getElem?_some_row {s : State} {p x : Nat} (h : s[p]? = some x) :
    x = row s p ∧ p < s.length := by
  have hp : p < s.length := by
    by_contra hc
    rw [List.getElem?_eq_none (by omega)] at h
    exact absurd h (by simp)
  rw [getElem?_eq_row s p hp, Option.some.injEq] at h
  exact ⟨h.symm, hp⟩

theorem elimRow_some {rk : Bool} {n i j ii x y : Nat} (h : elimRow rk n i j ii x = some y) :
    y = elimRowP rk n i j ii x := by
  unfold elimRow at h
  unfold elimRowP
  simp only [Option.bind_eq_bind, Option.bind_eq_some, Option.pure_def] at h
  obtain ⟨x1, h1, h⟩ := h
  obtain ⟨rfl, _⟩ := clearBit_some h1
  cases rk
  · simp only [Bool.false_eq_true, if_false] at h ⊢
    by_cases hd : i - ii ≤ j
    · simp only [hd, if_true, Option.bind_eq_some] at h ⊢
      obtain ⟨x2, h2, h⟩ := h
      obtain ⟨rfl, _⟩ := clearBit_some h2
      by_cases he : j + (i - ii) < n
      · simp only [he, if_true] at h ⊢
        exact (clearBit_some h).1
      · simp only [he, if_false] at h ⊢
        simpa using h.symm
    · simp only [hd, if_false, Option.some_bind] at h ⊢
      by_cases he : j + (i - ii) < n
      · simp only [he, if_true] at h ⊢
        exact (clearBit_some h).1
      · simp only [he, if_false] at h ⊢
        simpa using h.symm
  · simpa using h.symm

theorem placeLoop_some (c : Spec) (i j : Nat) :
    ∀ (k : Nat) (s : State) (t : Nat) (v : State × Option Nat),
      placeLoop c i j k s t = some v → v = placeP c i j k s t := by
  intro k
  induction k with
  | zero =>
    intro s t v h
    simpa [placeLoop, placeP] using h.symm
  | succ k ih =>
    intro s t v h
    simp only [placeLoop, Option.bind_eq_bind, Option.bind_eq_some, Option.pure_def] at h
    obtain ⟨x, hx, y, hy, h⟩ := h
    obtain ⟨rfl, _⟩ := getElem?_some_row hx
    have ey := elimRow_some hy
    subst ey
    simp only [placeP]
    split
    · rename_i h0
      simpa [h0] using h.symm
    · rename_i h0
      simp only [h0, if_false] at h
      exact ih _ _ _ h

theorem trialLoop_some (c : Spec) (i j : Nat) :
    ∀ (k : Nat) (s : State) (t : Nat) (v : Option Nat),
      trialLoop c i j k s t = some v → v = trialP c i j k s t := by
  intro k
  induction k with
  | zero =>
    intro s t v h
    simpa [trialLoop, trialP] using h.symm
  | succ k ih =>
    intro s t v h
    simp only [trialLoop, Option.bind_eq_bind, Option.bind_eq_some, Option.pure_def] at h
    obtain ⟨x, hx, y, hy, h⟩ := h
    obtain ⟨rfl, _⟩ := getElem?_some_row hx
    have ey := elimRow_some hy
    subst ey
    simp only [trialP]
    split
    · rename_i h0
      simpa [h0] using h.symm
    · rename_i h0
      simp only [h0, if_false] at h
      exact ih _ _ _ h

theorem takable_some {c : Spec} {i j : Nat} {s : State} {v : Bool}
    (h : takable c i j s = some v) : v = takableP c i j s ∧ i < s.length ∧ j < 32 := by
  simp only [takable, Option.bind_eq_bind, Option.bind_eq_some, Option.pure_def] at h
  obtain ⟨x, hx, t, ht, h⟩ := h
  obtain ⟨rfl, hi⟩ := getElem?_some_row hx
  obtain ⟨rfl, hj⟩ := hasBit_some ht
  refine ⟨?_, hi, hj⟩
  unfold takableP
  cases hb : (row s i).testBit j
  · simpa [hb] using h.symm
  · simp only [hb, if_true, Option.bind_eq_some] at h
    obtain ⟨r, hr, h⟩ := h
    have er := trialLoop_some c i j i s 0 r hr
    rw [← er]
    cases r <;> simpa using h.symm

theorem scan_some_succ {c : Spec} {L : Nat} {s : State} {v : State × Int}
    (h : scan c (L + 1) s = some v) :
    1 ≤ L ∧ (L - 1) / c.n < s.length ∧ (L - 1) % c.n < 32 ∧
      if takableP c ((L - 1) / c.n) ((L - 1) % c.n) s = true then v = (s, (L : Int))
      else if clearBitP (row s ((L - 1) / c.n)) ((L - 1) % c.n) = 0 then
        v = (s.set ((L - 1) / c.n) (clearBitP (row s ((L - 1) / c.n)) ((L - 1) % c.n)), 0)
      else scan c L (s.set ((L - 1) / c.n)
        (clearBitP (row s ((L - 1) / c.n)) ((L - 1) % c.n))) = some v := by
  unfold scan at h
  by_cases hL : L = 0
  · simp [hL] at h
  · simp only [hL, if_false, Option.bind_eq_bind, Option.bind_eq_some, Option.pure_def] at h
    obtain ⟨t, ht, h⟩ := h
    obtain ⟨rfl, hi, hj⟩ := takable_some ht
    refine ⟨by omega, hi, hj, ?_⟩
    split
    · rename_i h1
      simpa [h1] using h.symm
    · rename_i h1
      simp only [h1, Bool.false_eq_true, if_false, Option.bind_eq_some] at h
      obtain ⟨x, hx, y, hy, h⟩ := h
      obtain ⟨rfl, _⟩ := getElem?_some_row hx
      obtain ⟨rfl, _⟩ := clearBit_some hy
      split
      · rename_i h0
        simpa [h0] using h.symm
      · rename_i h0
        simpa [h0] using h

theorem takableP_testBit {c : Spec} {i j : Nat} {s : State} (h : takableP c i j s = true) :
    (row s i).testBit j = true := by
  unfold takableP at h
  exact (Bool.and_eq_true _ _ ▸ h).1

theorem scan_sub (c : Spec) :
    ∀ (L : Nat) (s s1 : State) (r : Int), scan c L s = some (s1, r) →
      Sub s1 s ∧ 0 ≤ r ∧ r < L ∧
        (1 ≤ r → takableP c ((r.toNat - 1) / c.n) ((r.toNat - 1) % c.n) s1 = true) := by
  intro L
  induction L with
  | zero => intro s s1 r h; simp [scan] at h
  | succ L ih =>
    intro s s1 r h
    obtain ⟨hL, _, _, h⟩ := scan_some_succ h
    have hs : Sub (s.set ((L - 1) / c.n) (clearBitP (row s ((L - 1) / c.n)) ((L - 1) % c.n))) s :=
      Sub.set s _ _ (fun q hq => testBit_clearBitP_imp _ _ _ hq)
    split at h
    · rename_i ht
      simp only [Prod.mk.injEq] at h
      obtain ⟨rfl, rfl⟩ := h
      refine ⟨Sub.refl _, by omega, by omega, fun _ => ?_⟩
      simpa using ht
    · split at h
      · simp only [Prod.mk.injEq] at h
        obtain ⟨rfl, rfl⟩ := h
        exact ⟨hs, by omega, by omega, fun h1 => absurd h1 (by omega)⟩
      · obtain ⟨h1, h2, h3, h4⟩ := ih _ _ _ h
        exact ⟨h1.trans hs, h2, by omega, h4⟩

/-! ### The two branches of `getChild` -/

theorem getChild_place_some {c : Spec} {s : State} {L : Nat} {v : State × Int}
    (h : getChild c s L true = some v) :
    1 ≤ L ∧ (L - 1) / c.n < s.length ∧ (L - 1) % c.n < 32 ∧
      if (row s ((L - 1) / c.n)).testBit ((L - 1) % c.n) = false then v = (s, 0)
      else match trialP c ((L - 1) / c.n) ((L - 1) % c.n) ((L - 1) / c.n) s 0 with
        | none => v = ((placeP c ((L - 1) / c.n) ((L - 1) % c.n) ((L - 1) / c.n) s 0).1, 0)
        | some total =>
          if (L - 1) / c.n = 0 then
            v = ((placeP c ((L - 1) / c.n) ((L - 1) % c.n) ((L - 1) / c.n) s 0).1, -1)
          else if popcount total < (L - 1) / c.n then
            v = ((placeP c ((L - 1) / c.n) ((L - 1) % c.n) ((L - 1) / c.n) s 0).1, 0)
          else scan c ((L - 1) / c.n * c.n + 1)
            ((placeP c ((L - 1) / c.n) ((L - 1) % c.n) ((L - 1) / c.n) s 0).1.set
              ((L - 1) / c.n) 0) = some v := by
  unfold getChild at h
  by_cases hL : L = 0 ∨ c.n = 0
  · simp [hL] at h
  · simp only [hL, if_false, if_true, Option.bind_eq_bind, Option.bind_eq_some,
      Option.pure_def] at h
    obtain ⟨x, hx, t, ht, h⟩ := h
    obtain ⟨rfl, hi⟩ := getElem?_some_row hx
    obtain ⟨rfl, hj⟩ := hasBit_some ht
    refine ⟨by omega, hi, hj, ?_⟩
    split
    · rename_i hb
      simpa [hb] using h.symm
    · rename_i hb
      simp only [hb, Bool.not_false, if_true] at h
      have hb1 : (row s ((L - 1) / c.n)).testBit ((L - 1) % c.n) = true := by
        simpa using hb
      simp only [hb1, Bool.not_true, Bool.false_eq_true, if_false, Option.bind_eq_some] at h
      obtain ⟨w, hw, h⟩ := h
      have ew := placeLoop_some c _ _ _ _ _ _ hw
      subst ew
      rw [← placeP_snd]
      cases hr : (placeP c ((L - 1) / c.n) ((L - 1) % c.n) ((L - 1) / c.n) s 0).2 with
      | none =>
        simp only [hr] at h
        simpa using h.symm
      | some total =>
        simp only [hr, placeP_length] at h
        dsimp only
        by_cases h0 : (L - 1) / c.n = 0
        · rw [if_pos h0] at h ⊢
          simpa using h.symm
        · rw [if_neg h0] at h ⊢
          by_cases h1 : popcount total < (L - 1) / c.n
          · rw [if_pos h1] at h ⊢
            simpa using h.symm
          · rw [if_neg h1] at h ⊢
            rwa [if_pos hi] at h

theorem getChild_skip_some {c : Spec} {s : State} {L : Nat} {v : State × Int}
    (h : getChild c s L false = some v) :
    1 ≤ L ∧
      if c.takeTop = true ∧ L = c.topLevel then v = (s, 0)
      else (L - 1) / c.n < s.length ∧ (L - 1) % c.n < 32 ∧
        if clearBitP (row s ((L - 1) / c.n)) ((L - 1) % c.n) = 0 then
          v = (s.set ((L - 1) / c.n) (clearBitP (row s ((L - 1) / c.n)) ((L - 1) % c.n)), 0)
        else 1 ≤ (L - 1) % c.n ∧ scan c L (s.set ((L - 1) / c.n)
          (clearBitP (row s ((L - 1) / c.n)) ((L - 1) % c.n))) = some v := by
  unfold getChild at h
  by_cases hL : L = 0 ∨ c.n = 0
  · simp [hL] at h
  · simp only [hL, if_false, Bool.false_eq_true, Option.bind_eq_bind, Option.pure_def] at h
    refine ⟨by omega, ?_⟩
    split
    · rename_i ht
      simpa [ht] using h.symm
    · rename_i ht
      simp only [ht, if_false, Option.bind_eq_some] at h
      obtain ⟨x, hx, y, hy, h⟩ := h
      obtain ⟨rfl, hi⟩ := getElem?_some_row hx
      obtain ⟨rfl, hj⟩ := clearBit_some hy
      refine ⟨hi, hj, ?_⟩
      split
      · rename_i h0
        simpa [h0] using h.symm
      · rename_i h0
        simp only [h0, if_false] at h
        by_cases hj1 : (L - 1) % c.n < 1
        · simp [hj1] at h
        · simp only [hj1, if_false] at h
          exact ⟨by omega, h⟩

theorem getChild_sub {c : Spec} {s s1 : State} {L : Nat} {b : Bool} {r : Int}
    (h : getChild c s L b = some (s1, r)) : Sub s1 s := by
  cases b
  · obtain ⟨_, h⟩ := getChild_skip_some h
    split at h
    · simp only [Prod.mk.injEq] at h
      rw [h.1]; exact Sub.refl s
    · obtain ⟨_, _, h⟩ := h
      have hs : Sub (s.set ((L - 1) / c.n) (clearBitP (row s ((L - 1) / c.n)) ((L - 1) % c.n))) s :=
        Sub.set s _ _ (fun q hq => testBit_clearBitP_imp _ _ _ hq)
      split at h
      · simp only [Prod.mk.injEq] at h
        rw [h.1]; exact hs
      · exact (scan_sub c _ _ _ _ h.2).1.trans hs
  · obtain ⟨_, _, _, h⟩ := getChild_place_some h
    have hp := placeP_sub c ((L - 1) / c.n) ((L - 1) % c.n) ((L - 1) / c.n) s 0
    split at h
    · simp only [Prod.mk.injEq] at h
      rw [h.1]; exact Sub.refl s
    · split at h
      · simp only [Prod.mk.injEq] at h
        rw [h.1]; exact hp
      · split at h
        · simp only [Prod.mk.injEq] at h
          rw [h.1]; exact hp
        · split at h
          · simp only [Prod.mk.injEq] at h
            rw [h.1]; exact hp
          · refine ((scan_sub c _ _ _ _ h).1.trans (Sub.set _ _ _ ?_)).trans hp
            intro q hq
            simp at hq

/-! ### The scan inside one row -/

theorem decode_div (n i q : Nat) (hq : q < n) : (i * n + q) / n = i := by
  rw [Nat.mul_comm, Nat.mul_add_div (by omega), Nat.div_eq_of_lt hq, Nat.add_zero]

theorem decode_mod (n i q : Nat) (hq : q < n) : (i * n + q) % n = q := by
  rw [Nat.mul_comm, Nat.mul_add_mod, Nat.mod_eq_of_lt hq]

theorem takableP_congr (c : Spec) (i j : Nat) (s s1 : State)
    (h1 : ∀ p, p < i → row s1 p = row s p)
    (h2 : (row s1 i).testBit j = (row s i).testBit j) :
    takableP c i j s1 = takableP c i j s := by
  unfold takableP
  rw [h2, trialP_congr c i j i s s1 0 h1]

theorem takableP_false_of_testBit (c : Spec) (i j : Nat) (s : State)
    (h : (row s i).testBit j = false) : takableP c i j s = false := by
  unfold takableP
  rw [h, Bool.false_and]

theorem scan_row (c : Spec) (hn1 : 1 ≤ c.n) (hn : c.n ≤ 32) (i : Nat) :
    ∀ (c0 : Nat) (s : State), c0 ≤ c.n → i < s.length → row s i ≠ 0 →
      (∀ q, (row s i).testBit q = true → q < c0) →
      ∃ s1 r, scan c (i * c.n + c0 + 1) s = some (s1, r) ∧ s1.length = s.length ∧
        (∀ p, p ≠ i → row s1 p = row s p) ∧
        ((r = 0 ∧ row s1 i = 0 ∧ ∀ q, q < c0 → takableP c i q s = false) ∨
         (∃ j1, j1 < c0 ∧ r = ((i * c.n + j1 + 1 : Nat) : Int) ∧ takableP c i j1 s = true ∧
            (∀ q, j1 < q → q < c0 → takableP c i q s = false) ∧
            ∀ q, (row s1 i).testBit q = ((row s i).testBit q && decide (q ≤ j1)))) := by
  intro c0
  induction c0 with
  | zero =>
    intro s _ _ h0 hb
    obtain ⟨q, hq⟩ := Nat.ne_zero_implies_bit_true h0
    exact absurd (hb q hq) (by omega)
  | succ c0 ih =>
    intro s hc hi h0 hb
    have hd : (i * c.n + c0 + 1 - 1) / c.n = i := by
      rw [Nat.add_sub_cancel]; exact decode_div _ _ _ (by omega)
    have hm : (i * c.n + c0 + 1 - 1) % c.n = c0 := by
      rw [Nat.add_sub_cancel]; exact decode_mod _ _ _ (by omega)
    have hsc := scan_succ c (i * c.n + c0 + 1) s (by omega) (by rw [hd]; exact hi) hn1 hn
    rw [hd, hm] at hsc
    have hc32 : c0 < 32 := by omega
    have hy : ∀ q, (clearBitP (row s i) c0).testBit q =
        ((row s i).testBit q && (decide (q < 32) && !decide (q = c0))) :=
      fun q => testBit_clearBitP _ _ _ hc32
    by_cases ht : takableP c i c0 s = true
    · rw [if_pos ht] at hsc
      refine ⟨s, _, hsc, rfl, fun _ _ => rfl, Or.inr ⟨c0, by omega, rfl, ht,
        fun q h1 h2 => absurd h1 (by omega), fun q => ?_⟩⟩
      cases hq : (row s i).testBit q
      · rfl
      · have := hb q hq
        simp only [Bool.true_and]
        exact (decide_eq_true (by omega)).symm
    · rw [if_neg ht] at hsc
      have ht0 : takableP c i c0 s = false := by simpa using ht
      by_cases hz : clearBitP (row s i) c0 = 0
      · rw [if_pos hz] at hsc
        refine ⟨_, _, hsc, by simp, fun p hp => row_set_ne _ _ _ _ hp, Or.inl ⟨rfl, ?_, ?_⟩⟩
        · rw [row_set_self _ _ _ hi, hz]
        · intro q hq
          by_cases hqc : q = c0
          · rw [hqc]; exact ht0
          · apply takableP_false_of_testBit
            have h1 := hy q
            rw [hz, Nat.zero_testBit] at h1
            have h2 : decide (q < 32) = true := decide_eq_true (by omega)
            have h3 : decide (q = c0) = false := decide_eq_false hqc
            rw [h2, h3] at h1
            simpa using h1.symm
      · rw [if_neg hz] at hsc
        have hb2 : ∀ q, (row (s.set i (clearBitP (row s i) c0)) i).testBit q = true → q < c0 := by
          intro q hq
          rw [row_set_self _ _ _ hi, hy q] at hq
          simp only [Bool.and_eq_true, decide_eq_true_eq, Bool.not_eq_true',
            decide_eq_false_iff_not] at hq
          have := hb q hq.1
          omega
        obtain ⟨s1, r, hs1, hl, hrow, hres⟩ := ih (s.set i (clearBitP (row s i) c0)) (by omega)
          (by simpa using hi) (by rw [row_set_self _ _ _ hi]; exact hz) hb2
        have hcg : ∀ q, q < c0 →
            takableP c i q (s.set i (clearBitP (row s i) c0)) = takableP c i q s := by
          intro q hq
          apply takableP_congr
          · intro p hp
            exact row_set_ne _ _ _ _ (by omega)
          · rw [row_set_self _ _ _ hi, hy q]
            have h2 : decide (q < 32) = true := decide_eq_true (by omega)
            have h3 : decide (q = c0) = false := decide_eq_false (by omega)
            rw [h2, h3]; simp
        refine ⟨s1, r, hsc.trans hs1, by rw [hl]; simp, fun p hp => ?_, ?_⟩
        · rw [hrow p hp, row_set_ne _ _ _ _ hp]
        · rcases hres with ⟨hr, hr0, hall⟩ | ⟨j1, hj1, hr, htk, hall, hbits⟩
          · refine Or.inl ⟨hr, hr0, fun q hq => ?_⟩
            by_cases hqc : q = c0
            · rw [hqc]; exact ht0
            · rw [← hcg q (by omega)]; exact hall q (by omega)
          · refine Or.inr ⟨j1, by omega, hr, by rw [← hcg j1 hj1]; exact htk, fun q h1 h2 => ?_,
              fun q => ?_⟩
            · by_cases hqc : q = c0
              · rw [hqc]; exact ht0
              · rw [← hcg q (by omega)]; exact hall q h1 (by omega)
            · rw [hbits q, row_set_self _ _ _ hi, hy q]
              by_cases hq : q ≤ j1
              · have h2 : decide (q < 32) = true := decide_eq_true (by omega)
                have h3 : decide (q = c0) = false := decide_eq_false (by omega)
                rw [h2, h3]; simp
              · have h4 : decide (q ≤ j1) = false := decide_eq_false hq
                rw [h4]; simp

/-! ### One call of `getChild` on a state satisfying the invariant -/

theorem Inv.row_lt {c : Spec} {s : State} {L : Nat} (h : Inv c s L) :
    (L - 1) / c.n < c.n := by
  obtain ⟨_, h1, h2, _⟩ := h
  apply Nat.div_lt_of_lt_mul
  omega

theorem skip_step (c : Spec) (hv : c.Valid) (s : State) (L : Nat) (hI : Inv c s L) :
    ∃ s1 r, getChild c s L false = some (s1, r) ∧ s1.length = s.length ∧
      (∀ p, p ≠ (L - 1) / c.n → row s1 p = row s p) ∧
      ((r = 0 ∧ ((c.takeTop = true ∧ L = c.topLevel) ∨
          ∀ q, q < (L - 1) % c.n → takableP c ((L - 1) / c.n) q s = false)) ∨
       (∃ j1, j1 < (L - 1) % c.n ∧ r = (((L - 1) / c.n * c.n + j1 + 1 : Nat) : Int) ∧
          takableP c ((L - 1) / c.n) j1 s = true ∧
          (∀ q, j1 < q → q < (L - 1) % c.n → takableP c ((L - 1) / c.n) q s = false) ∧
          ∀ q, (row s1 ((L - 1) / c.n)).testBit q =
            ((row s ((L - 1) / c.n)).testBit q && decide (q ≤ j1)))) := by
  obtain ⟨hn1, hn, _, _, _⟩ := hv
  have hil := hI.row_lt
  obtain ⟨hlen, hL1, hLn, hbits, hzero, hbit, htop, hne⟩ := hI
  have hj : (L - 1) % c.n < c.n := Nat.mod_lt _ (by omega)
  have hL0 : ¬ (L = 0 ∨ c.n = 0) := by omega
  have hi : (L - 1) / c.n < s.length := by omega
  have hg : getChild c s L false =
      if c.takeTop = true ∧ L = c.topLevel then some (s, 0)
      else if clearBitP (row s ((L - 1) / c.n)) ((L - 1) % c.n) = 0 then
        some (s.set ((L - 1) / c.n) (clearBitP (row s ((L - 1) / c.n)) ((L - 1) % c.n)), 0)
      else if (L - 1) % c.n < 1 then none
      else scan c L (s.set ((L - 1) / c.n)
        (clearBitP (row s ((L - 1) / c.n)) ((L - 1) % c.n))) := by
    simp only [getChild, hL0, if_false, Bool.false_eq_true, getElem?_eq_row s _ hi,
      clearBit_eq _ _ (show (L - 1) % c.n < 32 by omega), Option.bind_eq_bind, Option.some_bind,
      Option.pure_def]
  rw [hg]
  by_cases ht : c.takeTop = true ∧ L = c.topLevel
  · rw [if_pos ht]
    exact ⟨s, 0, rfl, rfl, fun _ _ => rfl, Or.inl ⟨rfl, Or.inl ht⟩⟩
  · rw [if_neg ht]
    have hup : ∀ q, (row s ((L - 1) / c.n)).testBit q = true → q ≤ (L - 1) % c.n := by
      rcases htop with h | h
      · exact absurd h ht
      · exact h
    have hy : ∀ q, (clearBitP (row s ((L - 1) / c.n)) ((L - 1) % c.n)).testBit q =
        ((row s ((L - 1) / c.n)).testBit q && (decide (q < 32) && !decide (q = (L - 1) % c.n))) :=
      fun q => testBit_clearBitP _ _ _ (by omega)
    have hylt : ∀ q, (clearBitP (row s ((L - 1) / c.n)) ((L - 1) % c.n)).testBit q = true →
        q < (L - 1) % c.n := by
      intro q hq
      rw [hy q] at hq
      simp only [Bool.and_eq_true, decide_eq_true_eq, Bool.not_eq_true',
        decide_eq_false_iff_not] at hq
      have := hup q hq.1
      omega
    have hcg : ∀ q, q < (L - 1) % c.n →
        takableP c ((L - 1) / c.n) q (s.set ((L - 1) / c.n)
          (clearBitP (row s ((L - 1) / c.n)) ((L - 1) % c.n))) =
        takableP c ((L - 1) / c.n) q s := by
      intro q hq
      apply takableP_congr
      · intro p hp
        exact row_set_ne _ _ _ _ (by omega)
      · rw [row_set_self _ _ _ hi, hy q]
        have h2 : decide (q < 32) = true := decide_eq_true (by omega)
        have h3 : decide (q = (L - 1) % c.n) = false := decide_eq_false (by omega)
        rw [h2, h3]; simp
    by_cases hz : clearBitP (row s ((L - 1) / c.n)) ((L - 1) % c.n) = 0
    · rw [if_pos hz]
      refine ⟨_, 0, rfl, by simp, fun p hp => row_set_ne _ _ _ _ hp, Or.inl ⟨rfl, Or.inr ?_⟩⟩
      intro q hq
      apply takableP_false_of_testBit
      have h1 := hy q
      rw [hz, Nat.zero_testBit] at h1
      have h2 : decide (q < 32) = true := decide_eq_true (by omega)
      have h3 : decide (q = (L - 1) % c.n) = false := decide_eq_false (by omega)
      rw [h2, h3] at h1
      simpa using h1.symm
    · rw [if_neg hz]
      obtain ⟨q0, hq0⟩ := Nat.ne_zero_implies_bit_true hz
      have hj1 : ¬ (L - 1) % c.n < 1 := by
        have := hylt q0 hq0
        omega
      rw [if_neg hj1]
      have hLe : L = (L - 1) / c.n * c.n + (L - 1) % c.n + 1 := by
        have := Nat.div_add_mod (L - 1) c.n
        rw [Nat.mul_comm] at this
        omega
      obtain ⟨s1, r, hs1, hl, hrow, hres⟩ := scan_row c hn1 (by omega) ((L - 1) / c.n)
        ((L - 1) % c.n) (s.set ((L - 1) / c.n) (clearBitP (row s ((L - 1) / c.n)) ((L - 1) % c.n)))
        (by omega) (by simpa using hi) (by rw [row_set_self _ _ _ hi]; exact hz)
        (by intro q hq; rw [row_set_self _ _ _ hi] at hq; exact hylt q hq)
      rw [← hLe] at hs1
      refine ⟨s1, r, hs1, by rw [hl]; simp, fun p hp => ?_, ?_⟩
      · rw [hrow p hp, row_set_ne _ _ _ _ hp]
      · rcases hres with ⟨hr, _, hall⟩ | ⟨j1, hj1, hr, htk, hall, hb⟩
        · exact Or.inl ⟨hr, Or.inr fun q hq => by rw [← hcg q hq]; exact hall q hq⟩
        · refine Or.inr ⟨j1, hj1, hr, by rw [← hcg j1 hj1]; exact htk,
            fun q h1 h2 => by rw [← hcg q h2]; exact hall q h1 h2, fun q => ?_⟩
          rw [hb q, row_set_self _ _ _ hi, hy q]
          by_cases hq : q ≤ j1
          · have h2 : decide (q < 32) = true := decide_eq_true (by omega)
            have h3 : decide (q = (L - 1) % c.n) = false := decide_eq_false (by omega)
            rw [h2, h3]; simp
          · have h4 : decide (q ≤ j1) = false := decide_eq_false hq
            rw [h4]; simp

theorem afterPlace_length (c : Spec) (i j : Nat) (s : State) :
    (afterPlace c i j s).length = s.length := by
  simp [afterPlace, placeP_length]

theorem afterPlace_row_lt (c : Spec) (i j : Nat) (s : State) (t : Nat) (hi : i ≤ s.length)
    (ht : trialP c i j i s 0 = some t) (p : Nat) (hp : p < i) :
    row (afterPlace c i j s) p = elimRowP c.rookOnly c.n i j p (row s p) := by
  unfold afterPlace
  rw [row_set_ne _ _ _ _ (by omega), placeP_row_lt c i j i s 0 t hi ht p hp]

theorem afterPlace_row_self (c : Spec) (i j : Nat) (s : State) (hi : i < s.length) :
    row (afterPlace c i j s) i = 0 := by
  unfold afterPlace
  rw [row_set_self _ _ _ (by rw [placeP_length]; exact hi)]

theorem afterPlace_row_gt (c : Spec) (i j : Nat) (s : State) (p : Nat) (hp : i < p) :
    row (afterPlace c i j s) p = row s p := by
  unfold afterPlace
  rw [row_set_ne _ _ _ _ (by omega), placeP_row_ge c i j i s 0 p (by omega)]

theorem afterPlace_sub (c : Spec) (i j : Nat) (s : State) : Sub (afterPlace c i j s) s := by
  unfold afterPlace
  refine (Sub.set _ _ _ ?_).trans (placeP_sub c i j i s 0)
  intro q hq
  simp at hq

theorem place_step (c : Spec) (hv : c.Valid) (s : State) (L : Nat) (hI : Inv c s L) :
    ∃ s1 r, getChild c s L true = some (s1, r) ∧
      ((r = 0 ∧
          (trialP c ((L - 1) / c.n) ((L - 1) % c.n) ((L - 1) / c.n) s 0 = none ∨
           (∃ t, trialP c ((L - 1) / c.n) ((L - 1) % c.n) ((L - 1) / c.n) s 0 = some t ∧
              popcount t < (L - 1) / c.n) ∨
           (∃ t, trialP c ((L - 1) / c.n) ((L - 1) % c.n) ((L - 1) / c.n) s 0 = some t ∧
              1 ≤ (L - 1) / c.n ∧ ∀ q, q < c.n →
                takableP c ((L - 1) / c.n - 1) q
                  (afterPlace c ((L - 1) / c.n) ((L - 1) % c.n) s) = false))) ∨
       (r = -1 ∧ (L - 1) / c.n = 0 ∧ s1 = s) ∨
       (∃ t j1, trialP c ((L - 1) / c.n) ((L - 1) % c.n) ((L - 1) / c.n) s 0 = some t ∧
          (L - 1) / c.n ≤ popcount t ∧ 1 ≤ (L - 1) / c.n ∧ j1 < c.n ∧
          r = ((((L - 1) / c.n - 1) * c.n + j1 + 1 : Nat) : Int) ∧
          s1.length = s.length ∧
          (∀ p, p ≠ (L - 1) / c.n - 1 →
            row s1 p = row (afterPlace c ((L - 1) / c.n) ((L - 1) % c.n) s) p) ∧
          takableP c ((L - 1) / c.n - 1) j1
            (afterPlace c ((L - 1) / c.n) ((L - 1) % c.n) s) = true ∧
          (∀ q, j1 < q → q < c.n → takableP c ((L - 1) / c.n - 1) q
            (afterPlace c ((L - 1) / c.n) ((L - 1) % c.n) s) = false) ∧
          ∀ q, (row s1 ((L - 1) / c.n - 1)).testBit q =
            ((row (afterPlace c ((L - 1) / c.n) ((L - 1) % c.n) s)
              ((L - 1) / c.n - 1)).testBit q && decide (q ≤ j1)))) := by
  obtain ⟨hn1, hn, _, _, _⟩ := hv
  have hil := hI.row_lt
  obtain ⟨hlen, hL1, hLn, hbits, hzero, hbit, htop, hne⟩ := hI
  have hj : (L - 1) % c.n < c.n := Nat.mod_lt _ (by omega)
  have hL0 : ¬ (L = 0 ∨ c.n = 0) := by omega
  have hi : (L - 1) / c.n < s.length := by omega
  generalize hie : (L - 1) / c.n = i at *
  generalize hje : (L - 1) % c.n = j at *
  have hg : getChild c s L true =
      match trialP c i j i s 0 with
      | none => some ((placeP c i j i s 0).1, 0)
      | some total =>
        if i = 0 then some ((placeP c i j i s 0).1, -1)
        else if popcount total < i then some ((placeP c i j i s 0).1, 0)
        else scan c (i * c.n + 1) (afterPlace c i j s) := by
    simp only [getChild, hL0, if_false, if_true, getElem?_eq_row s _ hi, hie, hje,
      hasBit_eq _ _ (show j < 32 by omega), hbit, Bool.not_true, Bool.false_eq_true,
      placeLoop_eq c i j hj (by omega) i s 0 (by omega), Option.bind_eq_bind, Option.some_bind,
      Option.pure_def, placeP_length, hi, afterPlace]
    rw [← placeP_snd]
  rw [hg]
  cases ht : trialP c i j i s 0 with
  | none => exact ⟨_, 0, rfl, Or.inl ⟨rfl, Or.inl rfl⟩⟩
  | some t =>
    dsimp only
    by_cases h0 : i = 0
    · rw [if_pos h0]
      refine ⟨_, -1, rfl, Or.inr (Or.inl ⟨rfl, h0, ?_⟩)⟩
      subst h0
      rfl
    · rw [if_neg h0]
      by_cases hp : popcount t < i
      · rw [if_pos hp]
        exact ⟨_, 0, rfl, Or.inl ⟨rfl, Or.inr (Or.inl ⟨t, rfl, hp⟩)⟩⟩
      · rw [if_neg hp]
        have hrow1 : row (afterPlace c i j s) (i - 1) =
            elimRowP c.rookOnly c.n i j (i - 1) (row s (i - 1)) :=
          afterPlace_row_lt c i j s t (by omega) ht (i - 1) (by omega)
        have hnz := (trialP_some c i j i s 0 t ht).1 (i - 1) (by omega)
        obtain ⟨s1, r, hs1, hl, hrow, hres⟩ := scan_row c hn1 (by omega) (i - 1) c.n
          (afterPlace c i j s) (Nat.le_refl _) (by rw [afterPlace_length]; omega)
          (by rw [hrow1]; exact hnz)
          (fun q hq => hbits (i - 1) q ((afterPlace_sub c i j s).2 _ _ hq))
        have hlv : (i - 1) * c.n + c.n + 1 = i * c.n + 1 := by
          have : (i - 1) * c.n + c.n = (i - 1 + 1) * c.n := by ring
          rw [this, Nat.sub_add_cancel (by omega)]
        rw [hlv] at hs1
        refine ⟨s1, r, hs1, ?_⟩
        rcases hres with ⟨hr, _, hall⟩ | ⟨j1, hj1, hr, htk, hall, hb⟩
        · exact Or.inl ⟨hr, Or.inr (Or.inr ⟨t, rfl, by omega, hall⟩)⟩
        · exact Or.inr (Or.inr ⟨t, j1, rfl, by omega, by omega, hj1, hr,
            by rw [hl, afterPlace_length], hrow, htk, hall, hb⟩)

/-! ### The invariant is preserved -/

theorem Inv.level_eq {c : Spec} {s : State} {L : Nat} (h : Inv c s L) :
    L = (L - 1) / c.n * c.n + (L - 1) % c.n + 1 := by
  have h1 := h.2.1
  have := Nat.div_add_mod (L - 1) c.n
  rw [Nat.mul_comm] at this
  omega

theorem skip_inv (c : Spec) (hv : c.Valid) (s s1 : State) (L j1 : Nat) (hI : Inv c s L)
    (hj1 : j1 < (L - 1) % c.n) (hl : s1.length = s.length)
    (hrow : ∀ p, p ≠ (L - 1) / c.n → row s1 p = row s p)
    (htk : takableP c ((L - 1) / c.n) j1 s = true)
    (hb : ∀ q, (row s1 ((L - 1) / c.n)).testBit q =
      ((row s ((L - 1) / c.n)).testBit q && decide (q ≤ j1))) :
    Inv c s1 ((L - 1) / c.n * c.n + j1 + 1) := by
  obtain ⟨hn1, hn, _, _, _⟩ := hv
  have hle := hI.level_eq
  obtain ⟨hlen, hL1, hLn, hbits, hzero, hbit, htop, hne⟩ := hI
  have hj : (L - 1) % c.n < c.n := Nat.mod_lt _ (by omega)
  have hd : ((L - 1) / c.n * c.n + j1 + 1 - 1) / c.n = (L - 1) / c.n := by
    rw [Nat.add_sub_cancel]; exact decode_div _ _ _ (by omega)
  have hm : ((L - 1) / c.n * c.n + j1 + 1 - 1) % c.n = j1 := by
    rw [Nat.add_sub_cancel]; exact decode_mod _ _ _ (by omega)
  refine ⟨by omega, by omega, by omega, fun p q hq => ?_, ?_, ?_, Or.inr ?_, ?_⟩
  · by_cases hp : p = (L - 1) / c.n
    · subst hp
      rw [hb q] at hq
      exact hbits _ q (Bool.and_eq_true _ _ ▸ hq).1
    · rw [hrow p hp] at hq
      exact hbits p q hq
  · rw [hd]
    intro p hp
    rw [hrow p (by omega)]
    exact hzero p hp
  · rw [hd, hm, hb j1, takableP_testBit htk]
    simp
  · rw [hd, hm]
    intro q hq
    rw [hb q] at hq
    exact of_decide_eq_true (Bool.and_eq_true _ _ ▸ hq).2
  · rw [hd]
    intro p hp
    rw [hrow p (by omega)]
    exact hne p hp

theorem place_inv (c : Spec) (hv : c.Valid) (s s1 : State) (L t j1 : Nat) (hI : Inv c s L)
    (ht : trialP c ((L - 1) / c.n) ((L - 1) % c.n) ((L - 1) / c.n) s 0 = some t)
    (hi1 : 1 ≤ (L - 1) / c.n) (hj1 : j1 < c.n) (hl : s1.length = s.length)
    (hrow : ∀ p, p ≠ (L - 1) / c.n - 1 →
      row s1 p = row (afterPlace c ((L - 1) / c.n) ((L - 1) % c.n) s) p)
    (htk : takableP c ((L - 1) / c.n - 1) j1
      (afterPlace c ((L - 1) / c.n) ((L - 1) % c.n) s) = true)
    (hb : ∀ q, (row s1 ((L - 1) / c.n - 1)).testBit q =
      ((row (afterPlace c ((L - 1) / c.n) ((L - 1) % c.n) s)
        ((L - 1) / c.n - 1)).testBit q && decide (q ≤ j1))) :
    Inv c s1 (((L - 1) / c.n - 1) * c.n + j1 + 1) := by
  obtain ⟨hn1, hn, _, _, _⟩ := hv
  have hle := hI.level_eq
  have hil := hI.row_lt
  obtain ⟨hlen, hL1, hLn, hbits, hzero, hbit, htop, hne⟩ := hI
  generalize hie : (L - 1) / c.n = i at *
  generalize hje : (L - 1) % c.n = j at *
  have hd : ((i - 1) * c.n + j1 + 1 - 1) / c.n = i - 1 := by
    rw [Nat.add_sub_cancel]; exact decode_div _ _ _ hj1
  have hm : ((i - 1) * c.n + j1 + 1 - 1) % c.n = j1 := by
    rw [Nat.add_sub_cancel]; exact decode_mod _ _ _ hj1
  have hsub := afterPlace_sub c i j s
  have hmul : (i - 1) * c.n + c.n = i * c.n := by
    have : (i - 1) * c.n + c.n = (i - 1 + 1) * c.n := by ring
    rw [this, Nat.sub_add_cancel hi1]
  have hmul2 : i * c.n ≤ (c.n - 1) * c.n := Nat.mul_le_mul_right _ (by omega)
  have hmul3 : (c.n - 1) * c.n + c.n = c.n * c.n := by
    have : (c.n - 1) * c.n + c.n = (c.n - 1 + 1) * c.n := by ring
    rw [this, Nat.sub_add_cancel hn1]
  refine ⟨by omega, by omega, by omega, fun p q hq => ?_, ?_, ?_, Or.inr ?_, ?_⟩
  · by_cases hp : p = i - 1
    · subst hp
      rw [hb q] at hq
      exact hbits _ q (hsub.2 _ _ (Bool.and_eq_true _ _ ▸ hq).1)
    · rw [hrow p hp] at hq
      exact hbits p q (hsub.2 _ _ hq)
  · rw [hd]
    intro p hp
    rw [hrow p (by omega)]
    by_cases hpi : p = i
    · rw [hpi]; exact afterPlace_row_self c i j s (by omega)
    · rw [afterPlace_row_gt c i j s p (by omega)]
      exact hzero p (by omega)
  · rw [hd, hm, hb j1, takableP_testBit htk]
    simp
  · rw [hd, hm]
    intro q hq
    rw [hb q] at hq
    exact of_decide_eq_true (Bool.and_eq_true _ _ ▸ hq).2
  · rw [hd]
    intro p hp
    rw [hrow p (by omega), afterPlace_row_lt c i j s t (by omega) ht p (by omega)]
    exact (trialP_some c i j i s 0 t ht).1 p (by omega)

theorem step_inv (c : Spec) (hv : c.Valid) (s : State) (L : Nat) (hI : Inv c s L) (b : Bool) :
    ∃ s1 r, getChild c s L b = some (s1, r) ∧
      (r = 0 ∨ (r = -1 ∧ b = true ∧ (L - 1) / c.n = 0) ∨
       (1 ≤ r ∧ r < L ∧ Inv c s1 r.toNat ∧ (b = true → 1 ≤ (L - 1) / c.n) ∧
        (r.toNat - 1) / c.n = if b = true then (L - 1) / c.n - 1 else (L - 1) / c.n)) := by
  have hle := hI.level_eq
  have hn1 := hv.1
  have hj : (L - 1) % c.n < c.n := Nat.mod_lt _ (by omega)
  cases b
  · obtain ⟨s1, r, hg, hl, hrow, hres⟩ := skip_step c hv s L hI
    refine ⟨s1, r, hg, ?_⟩
    rcases hres with ⟨hr, _⟩ | ⟨j1, hj1, hr, htk, _, hb⟩
    · exact Or.inl hr
    · refine Or.inr (Or.inr ?_)
      have hinv := skip_inv c hv s s1 L j1 hI hj1 hl hrow htk hb
      subst hr
      rw [Int.toNat_ofNat]
      refine ⟨by omega, by omega, hinv, by simp, ?_⟩
      rw [Nat.add_sub_cancel]
      simpa using decode_div _ _ _ (by omega)
  · obtain ⟨s1, r, hg, hres⟩ := place_step c hv s L hI
    refine ⟨s1, r, hg, ?_⟩
    rcases hres with ⟨hr, _⟩ | ⟨hr, h0, _⟩ | ⟨t, j1, ht, _, hi1, hj1, hr, hl, hrow, htk, _, hb⟩
    · exact Or.inl hr
    · exact Or.inr (Or.inl ⟨hr, rfl, h0⟩)
    · refine Or.inr (Or.inr ?_)
      have hinv := place_inv c hv s s1 L t j1 hI ht hi1 hj1 hl hrow htk hb
      have hmul : ((L - 1) / c.n - 1) * c.n + c.n = (L - 1) / c.n * c.n := by
        have : ((L - 1) / c.n - 1) * c.n + c.n = ((L - 1) / c.n - 1 + 1) * c.n := by ring
        rw [this, Nat.sub_add_cancel hi1]
      subst hr
      rw [Int.toNat_ofNat]
      refine ⟨by omega, by omega, hinv, fun _ => hi1, ?_⟩
      rw [Nat.add_sub_cancel]
      simpa using decode_div _ _ _ hj1

/-! ### The root -/

theorem fullMask_eq (n : Nat) (hn : n < 32) :
    ∃ m, fullMask n = some m ∧ ∀ q, m.testBit q = decide (q < n) := by
  refine ⟨bnot ((allOnes <<< n) % 4294967296), by simp only [fullMask, hn, if_true],
    fun q => ?_⟩
  have h32 : (4294967296 : Nat) = 2 ^ 32 := by norm_num
  unfold bnot
  rw [Nat.testBit_xor, testBit_allOnes, h32, Nat.testBit_mod_two_pow, Nat.testBit_shiftLeft,
    testBit_allOnes]
  by_cases h1 : q < 32 <;> by_cases h2 : q < n <;> by_cases h3 : q ≥ n <;>
    by_cases h4 : q - n < 32 <;> simp [h1, h2, h3, h4] <;> omega

theorem fillRows_spec (m : Nat) :
    ∀ (k i : Nat) (bm : State), i + k ≤ bm.length →
      ∃ bm1, fillRows m k i bm = some bm1 ∧ bm1.length = bm.length ∧
        ∀ p, row bm1 p = if i ≤ p ∧ p < i + k then m else row bm p := by
  intro k
  induction k with
  | zero =>
    intro i bm _
    refine ⟨bm, rfl, rfl, fun p => ?_⟩
    rw [if_neg (by omega)]
  | succ k ih =>
    intro i bm h
    obtain ⟨bm1, h1, h2, h3⟩ := ih (i + 1) (bm.set i m) (by simp; omega)
    refine ⟨bm1, ?_, by rw [h2]; simp, fun p => ?_⟩
    · simp only [fillRows, show i < bm.length by omega, if_true]
      exact h1
    · rw [h3 p]
      by_cases hp : p = i
      · subst hp
        rw [if_neg (by omega), if_pos (by omega), row_set_self _ _ _ (by omega)]
      · rw [row_set_ne _ _ _ _ hp]
        by_cases hq : i + 1 ≤ p ∧ p < i + 1 + k
        · rw [if_pos hq, if_pos (by omega)]
        · rw [if_neg hq, if_neg (by omega)]

theorem getRoot_spec (c : Spec) (hn : c.n < 32) (buf : State) (hb : buf.length = c.n) :
    ∃ bm, getRoot c buf = some (bm, c.topLevel) ∧ bm.length = c.n ∧
      ∀ p q, (row bm p).testBit q = (decide (p < c.n) && decide (q < c.n)) := by
  obtain ⟨m, hm, hmb⟩ := fullMask_eq c.n hn
  obtain ⟨bm, h1, h2, h3⟩ := fillRows_spec m c.n 0 buf (by omega)
  refine ⟨bm, ?_, by omega, fun p q => ?_⟩
  · simp only [getRoot, hm, h1, Option.bind_eq_bind, Option.some_bind, Option.pure_def]
  · rw [h3 p]
    by_cases hp : p < c.n
    · rw [if_pos (by omega), hmb q]
      simp [hp]
    · rw [if_neg (by omega), row_of_length_le _ _ (by omega)]
      simp [hp]

theorem top_decode (c : Spec) (hv : c.Valid) :
    (c.topLevel - 1) / c.n = c.n - 1 ∧ (c.topLevel - 1) % c.n < c.n ∧
      (c.takeTop = false → (c.topLevel - 1) % c.n = c.n - 1) := by
  obtain ⟨hn1, hn, h1, h2, h3⟩ := hv
  have hmul : (c.n - 1) * c.n + c.n = c.n * c.n := by
    have : (c.n - 1) * c.n + c.n = (c.n - 1 + 1) * c.n := by ring
    rw [this, Nat.sub_add_cancel hn1]
  have hcomm : c.n * (c.n - 1) = (c.n - 1) * c.n := Nat.mul_comm _ _
  have he : c.topLevel - 1 = (c.n - 1) * c.n + (c.topLevel - 1 - (c.n - 1) * c.n) := by omega
  refine ⟨?_, Nat.mod_lt _ (by omega), fun ht => ?_⟩
  · rw [he]; exact decode_div _ _ _ (by omega)
  · rw [he, decode_mod _ _ _ (by omega), h3 ht]
    omega

theorem root_inv (c : Spec) (hv : c.Valid) (buf bm : State) (L : Nat)
    (hb : buf.length = c.n) (h : getRoot c buf = some (bm, L)) : Inv c bm L := by
  obtain ⟨hd, hm, htop⟩ := top_decode c hv
  obtain ⟨hn1, hn, h1, h2, h3⟩ := hv
  obtain ⟨bm1, hg, hl, hbits⟩ := getRoot_spec c (by omega) buf hb
  rw [hg] at h
  simp only [Option.some.injEq, Prod.mk.injEq] at h
  obtain ⟨rfl, rfl⟩ := h
  refine ⟨hl, by omega, h2, fun p q hq => ?_, fun p hp => ?_, ?_, ?_, fun p hp => ?_⟩
  · rw [hbits p q] at hq
    simp only [Bool.and_eq_true, decide_eq_true_eq] at hq
    exact hq.2
  · rw [hd] at hp
    exact row_of_length_le _ _ (by omega)
  · rw [hbits, hd]
    simp only [Bool.and_eq_true, decide_eq_true_eq]
    exact ⟨by omega, hm⟩
  · cases ht : c.takeTop
    · refine Or.inr fun q hq => ?_
      rw [hbits] at hq
      simp only [Bool.and_eq_true, decide_eq_true_eq] at hq
      rw [htop ht]
      omega
    · exact Or.inl ⟨rfl, rfl⟩
  · intro h0
    have := hbits p 0
    rw [h0, Nat.zero_testBit] at this
    rw [hd] at hp
    simp only [Bool.false_eq, Bool.and_eq_false_iff, decide_eq_false_iff_not] at this
    omega

theorem Reach.inv {c : Spec} (hv : c.Valid) {s : State} {L : Nat} (h : Reach c s L) :
    Inv c s L := by
  induction h with
  | root buf bm level hb hg => exact root_inv c hv buf bm level hb hg
  | step bm bm1 level b r _ hg hr ih =>
    obtain ⟨s1, r1, hg1, hres⟩ := step_inv c hv bm level ih b
    rw [hg] at hg1
    simp only [Option.some.injEq, Prod.mk.injEq] at hg1
    obtain ⟨rfl, rfl⟩ := hg1
    rcases hres with h0 | ⟨h0, _⟩ | ⟨_, _, hinv, _⟩
    · omega
    · omega
    · exact hinv

theorem valid_unrestricted (rk : Bool) (n : Nat) (h1 : 1 ≤ n) (h2 : n ≤ 31) :
    (Spec.unrestricted rk n).Valid := by
  refine ⟨h1, h2, ?_, Nat.le_refl _, fun _ => rfl⟩
  show n * (n - 1) < n * n
  exact Nat.mul_lt_mul_of_pos_left (by omega) (by omega)

theorem valid_restricted (rk : Bool) (n f : Nat) (h1 : 1 ≤ n) (h2 : n ≤ 31) (hf : f < n) :
    (Spec.restricted rk n f).Valid := by
  refine ⟨h1, h2, ?_, Nat.sub_le _ _, fun h => absurd h (by simp [Spec.restricted])⟩
  show n * (n - 1) < n * n - f
  have : n * (n - 1) + n = n * n := by
    have : n * (n - 1) + n = n * (n - 1 + 1) := by ring
    rw [this, Nat.sub_add_cancel h1]
  omega

/-! ### Claims on single calls -/

/-- C6 (monotonicity, plain variant): whenever a call of `getChild` has a result,
in either mode and on either branch and whatever the returned code, the state
keeps its length and every bit that is `0` in a row of the input state is `0`
in the same row of the output state. -/
theorem getChild_monotone (c : Spec) (s s1 : State) (L : Nat) (b : Bool) (r : Int)
    (h : getChild c s L b = some (s1, r)) :
    s1.length = s.length ∧
      ∀ p q, (row s p).testBit q = false → (row s1 p).testBit q = false := by
  have hs := getChild_sub h
  refine ⟨hs.1, fun p q hq => ?_⟩
  cases h1 : (row s1 p).testBit q
  · rfl
  · rw [hs.2 p q h1] at hq
    exact absurd hq (by simp)

/-- Instance of C6: the place branch at the root of the 4-queens diagram. -/
theorem getChild_monotone_witness :
    getChild (Spec.unrestricted false 4) [15, 15, 15, 15] 16 true = some ([6, 5, 1, 0], 9) ∧
      ([6, 5, 1, 0] : State).length = ([15, 15, 15, 15] : State).length ∧
      ∀ p q, (row [15, 15, 15, 15] p).testBit q = false →
        (row [6, 5, 1, 0] p).testBit q = false :=
  ⟨by decide, getChild_monotone (Spec.unrestricted false 4) [15, 15, 15, 15] [6, 5, 1, 0] 16
    true 9 (by decide)⟩

/-- C8 (skip-ahead correctness, plain variant): whenever `getChild` returns a
non-terminal level `r ≥ 1`, the bit of the cell decoded from `r` is set in the
state left by the call. -/
theorem getChild_level_available (c : Spec) (s s1 : State) (L : Nat) (b : Bool) (r : Int)
    (h : getChild c s L b = some (s1, r)) (hr : 1 ≤ r) :
    (row s1 ((r.toNat - 1) / c.n)).testBit ((r.toNat - 1) % c.n) = true := by
  have key : ∀ (L0 : Nat) (s0 : State), scan c L0 s0 = some (s1, r) →
      (row s1 ((r.toNat - 1) / c.n)).testBit ((r.toNat - 1) % c.n) = true :=
    fun L0 s0 h0 => takableP_testBit ((scan_sub c L0 s0 s1 r h0).2.2.2 hr)
  cases b
  · obtain ⟨_, h⟩ := getChild_skip_some h
    split at h
    · simp only [Prod.mk.injEq] at h
      omega
    · obtain ⟨_, _, h⟩ := h
      split at h
      · simp only [Prod.mk.injEq] at h
        omega
      · exact key _ _ h.2
  · obtain ⟨_, _, _, h⟩ := getChild_place_some h
    split at h
    · simp only [Prod.mk.injEq] at h
      omega
    · split at h
      · simp only [Prod.mk.injEq] at h
        omega
      · split at h
        · simp only [Prod.mk.injEq] at h
          omega
        · split at h
          · simp only [Prod.mk.injEq] at h
            omega
          · exact key _ _ h

/-- Instance of C8: the skip branch at the root of the 4-queens diagram returns
level 15, whose cell is row 3, column 2. -/
theorem getChild_level_available_witness :
    getChild (Spec.unrestricted false 4) [15, 15, 15, 15] 16 false =
        some ([15, 15, 15, 7], 15) ∧
      (row [15, 15, 15, 7] (((15 : Int).toNat - 1) / 4)).testBit
        (((15 : Int).toNat - 1) % 4) = true :=
  ⟨by decide, getChild_level_available (Spec.unrestricted false 4) [15, 15, 15, 15]
    [15, 15, 15, 7] 16 false 15 (by decide) (by decide)⟩

/-- C10 (the level strictly decreases and the call terminates, plain variant,
either constructor, `1 ≤ n ≤ 31`): at every pair `(state, level)` reachable from
`getRoot` and for each branch, `getChild` has a defined result (every array
index and shift amount is in range and the scan stops), and it returns `0`,
`-1` or a level `r` with `1 ≤ r < level`; such an `r` lies in the row of
`level` on the skip branch and in the row before it on the place branch. -/
theorem getChild_terminates_decreasing (rk : Bool) (n : Nat) (hn1 : 1 ≤ n) (hn : n ≤ 31)
    (c : Spec)
    (hc : c = Spec.unrestricted rk n ∨ ∃ f, f < n ∧ c = Spec.restricted rk n f)
    (s : State) (L : Nat) (hR : Reach c s L) (b : Bool) :
    ∃ s1 r, getChild c s L b = some (s1, r) ∧
      (r = 0 ∨ r = -1 ∨
        (1 ≤ r ∧ r < L ∧
          if b = true then (r.toNat - 1) / n + 1 = (L - 1) / n
          else (r.toNat - 1) / n = (L - 1) / n)) := by
  have hv : c.Valid := by
    rcases hc with rfl | ⟨f, hf, rfl⟩
    · exact valid_unrestricted rk n hn1 hn
    · exact valid_restricted rk n f hn1 hn hf
  have hcn : c.n = n := by
    rcases hc with rfl | ⟨f, hf, rfl⟩ <;> rfl
  obtain ⟨s1, r, hg, hres⟩ := step_inv c hv s L (hR.inv hv) b
  refine ⟨s1, r, hg, ?_⟩
  rcases hres with h0 | ⟨h0, _⟩ | ⟨h1, h2, _, h3, h4⟩
  · exact Or.inl h0
  · exact Or.inr (Or.inl h0)
  · refine Or.inr (Or.inr ⟨h1, h2, ?_⟩)
    rw [hcn] at h3 h4
    cases b
    · simpa using h4
    · have := h3 rfl
      simp only [if_true] at h4 ⊢
      omega

/-- Instance of C10: the place branch at the root of the 4-queens diagram. -/
theorem getChild_terminates_decreasing_witness :
    Reach (Spec.unrestricted false 4) [15, 15, 15, 15] 16 ∧
      ∃ s1 r, getChild (Spec.unrestricted false 4) [15, 15, 15, 15] 16 true = some (s1, r) ∧
        (r = 0 ∨ r = -1 ∨
          (1 ≤ r ∧ r < (16 : Nat) ∧
            if true = true then (r.toNat - 1) / 4 + 1 = (16 - 1) / 4
            else (r.toNat - 1) / 4 = (16 - 1) / 4)) :=
  ⟨Reach.root [0, 0, 0, 0] _ _ rfl (by decide),
   getChild_terminates_decreasing false 4 (by decide) (by decide) (Spec.unrestricted false 4)
    (Or.inl rfl) [15, 15, 15, 15] 16 (Reach.root [0, 0, 0, 0] _ _ rfl (by decide)) true⟩

/-! ### The feasibility bound -/

theorem popcount_ge (t i : Nat) (f : Nat → Nat)
    (h1 : ∀ p, p < i → f p < 32 ∧ t.testBit (f p) = true)
    (h2 : ∀ p1 p2, p1 < i → p2 < i → p1 ≠ p2 → f p1 ≠ f p2) : i ≤ popcount t := by
  have hnd : ((List.range i).map f).Nodup := by
    refine List.Nodup.map_on ?_ (List.nodup_range i)
    intro x hx y hy hxy
    by_contra hne
    exact h2 x y (List.mem_range.1 hx) (List.mem_range.1 hy) hne hxy
  have hsub : (List.range i).map f ⊆ (List.range 32).filter fun k => t.testBit k := by
    intro x hx
    obtain ⟨p, hp, rfl⟩ := List.mem_map.1 hx
    have := h1 p (List.mem_range.1 hp)
    exact List.mem_filter.2 ⟨List.mem_range.2 this.1, this.2⟩
  have := (List.subperm_of_subset hnd hsub).length_le
  simpa [popcount] using this

theorem testBit_unionRows (s : State) (q : Nat) :
    ∀ i, (unionRows s i).testBit q = true ↔ ∃ p, p < i ∧ (row s p).testBit q = true := by
  intro i
  induction i with
  | zero => simp [unionRows]
  | succ i ih =>
    simp only [unionRows, Nat.testBit_or, Bool.or_eq_true, ih]
    constructor
    · rintro (⟨p, hp, h⟩ | h)
      · exact ⟨p, by omega, h⟩
      · exact ⟨i, by omega, h⟩
    · rintro ⟨p, hp, h⟩
      by_cases hpi : p = i
      · subst hpi; exact Or.inr h
      · exact Or.inl ⟨p, by omega, h⟩

theorem testBit_lt_32 (x q : Nat) (hx : x < 2 ^ 32) (h : x.testBit q = true) : q < 32 := by
  by_contra hq
  have h1 : x < 2 ^ q := lt_of_lt_of_le hx (Nat.pow_le_pow_right (by omega) (by omega))
  rw [Nat.testBit_lt_two_pow h1] at h
  exact absurd h (by simp)

theorem elimRow_lt (rk : Bool) (n i j ii x y : Nat) (h : elimRow rk n i j ii x = some y)
    (q : Nat) (hq : y.testBit q = true) : q < 32 := by
  have hy := elimRow_some h
  unfold elimRow at h
  simp only [Option.bind_eq_bind, Option.bind_eq_some, Option.pure_def] at h
  obtain ⟨x1, h1, _⟩ := h
  obtain ⟨_, hj⟩ := clearBit_some h1
  have hsub : ∀ k, y.testBit k = true → (clearBitP x j).testBit k = true := by
    intro k hk
    rw [hy] at hk
    unfold elimRowP at hk
    cases rk
    · simp only [Bool.false_eq_true, if_false] at hk
      split at hk <;> split at hk
      · exact testBit_clearBitP_imp _ _ _ (testBit_clearBitP_imp _ _ _ hk)
      · exact testBit_clearBitP_imp _ _ _ hk
      · exact testBit_clearBitP_imp _ _ _ hk
      · exact hk
    · simpa using hk
  have := hsub q hq
  rw [testBit_clearBitP _ _ _ hj] at this
  simp only [Bool.and_eq_true, decide_eq_true_eq] at this
  exact this.2.1

theorem trialLoop_total (c : Spec) (i j : Nat) :
    ∀ (k : Nat) (s : State) (t0 t : Nat), trialLoop c i j k s t0 = some (some t) →
      ∀ q, t.testBit q = true → t0.testBit q = true ∨ q < 32 := by
  intro k
  induction k with
  | zero =>
    intro s t0 t h q hq
    simp only [trialLoop, Option.some.injEq] at h
    subst h
    exact Or.inl hq
  | succ k ih =>
    intro s t0 t h q hq
    simp only [trialLoop, Option.bind_eq_bind, Option.bind_eq_some, Option.pure_def] at h
    obtain ⟨x, _, y, hy, h⟩ := h
    split at h
    · simp at h
    · rcases ih s _ t h q hq with h1 | h1
      · rw [Nat.testBit_or, Bool.or_eq_true] at h1
        rcases h1 with h1 | h1
        · exact Or.inl h1
        · exact Or.inr (elimRow_lt _ _ _ _ _ _ _ hy q h1)
      · exact Or.inr h1

theorem placeLoop_total (c : Spec) (i j : Nat) :
    ∀ (k : Nat) (s s1 : State) (t0 t : Nat), placeLoop c i j k s t0 = some (s1, some t) →
      ∀ q, t.testBit q = true → t0.testBit q = true ∨ q < 32 := by
  intro k
  induction k with
  | zero =>
    intro s s1 t0 t h q hq
    simp only [placeLoop, Option.some.injEq, Prod.mk.injEq] at h
    obtain ⟨_, rfl⟩ := h
    exact Or.inl hq
  | succ k ih =>
    intro s s1 t0 t h q hq
    simp only [placeLoop, Option.bind_eq_bind, Option.bind_eq_some, Option.pure_def] at h
    obtain ⟨x, _, y, hy, h⟩ := h
    split at h
    · simp at h
    · rcases ih _ s1 _ t h q hq with h1 | h1
      · rw [Nat.testBit_or, Bool.or_eq_true] at h1
        rcases h1 with h1 | h1
        · exact Or.inl h1
        · exact Or.inr (elimRow_lt _ _ _ _ _ _ _ hy q h1)
      · exact Or.inr h1

theorem trialLoop_length (c : Spec) (i j k : Nat) (s : State) (t0 : Nat) (v : Option Nat)
    (h : trialLoop c i j k s t0 = some v) : k ≤ s.length := by
  cases k with
  | zero => omega
  | succ k =>
    simp only [trialLoop, Option.bind_eq_bind, Option.bind_eq_some] at h
    obtain ⟨x, hx, _⟩ := h
    have := (getElem?_some_row hx).2
    omega

theorem placeLoop_length (c : Spec) (i j k : Nat) (s : State) (t0 : Nat)
    (v : State × Option Nat) (h : placeLoop c i j k s t0 = some v) : k ≤ s.length := by
  cases k with
  | zero => omega
  | succ k =>
    simp only [placeLoop, Option.bind_eq_bind, Option.bind_eq_some] at h
    obtain ⟨x, hx, _⟩ := h
    have := (getElem?_some_row hx).2
    omega

theorem not_assignable_of_popcount (s : State) (i t : Nat)
    (ht : ∀ q, (∃ p, p < i ∧ (row s p).testBit q = true) → t.testBit q = true ∧ q < 32)
    (hp : popcount t < i) : ¬ Assignable s i := by
  rintro ⟨f, hf1, hf2⟩
  have := popcount_ge t i f (fun p hp1 => (ht (f p) ⟨p, hp1, hf1 p hp1⟩).symm) hf2
  omega

/-- C9 (bound soundness): for every state of 32-bit rows and every row index
`i`, if the number of set bits in the union of the rows `0 .. i-1` is less than
`i`, then these rows cannot be given pairwise distinct columns that are set in
their bitmaps.  The two uses of the bound in `getChild` are instances: the
`total` of the elimination loop of the place branch is the union of the
updated rows, and the `total` of the trial of the scan is the union of the
trial copies, which are the rows the elimination loop would leave. -/
theorem bound_sound :
    (∀ (s : State) (i : Nat), (∀ p, p < i → row s p < 2 ^ 32) →
      popcount (unionRows s i) < i → ¬ Assignable s i) ∧
    (∀ (c : Spec) (i j : Nat) (s s1 : State) (t : Nat),
      placeLoop c i j i s 0 = some (s1, some t) →
      t = unionRows s1 i ∧ (popcount t < i → ¬ Assignable s1 i)) ∧
    (∀ (c : Spec) (i j : Nat) (s : State) (t : Nat),
      trialLoop c i j i s 0 = some (some t) →
      t = unionRows (placeP c i j i s 0).1 i ∧
        (popcount t < i → ¬ Assignable (placeP c i j i s 0).1 i)) := by
  have main : ∀ (c : Spec) (i j : Nat) (s : State) (t : Nat), i ≤ s.length →
      trialP c i j i s 0 = some t → (∀ q, t.testBit q = true → q < 32) →
      t = unionRows (placeP c i j i s 0).1 i ∧
        (popcount t < i → ¬ Assignable (placeP c i j i s 0).1 i) := by
    intro c i j s t hi ht h32
    have hb := (trialP_some c i j i s 0 t ht).2
    have hrow := placeP_row_lt c i j i s 0 t hi ht
    have hbits : ∀ q, t.testBit q = true ↔
        ∃ p, p < i ∧ (row (placeP c i j i s 0).1 p).testBit q = true := by
      intro q
      rw [hb q]
      constructor
      · rintro (h0 | ⟨p, hp, h1⟩)
        · simp at h0
        · exact ⟨p, hp, by rw [hrow p hp]; exact h1⟩
      · rintro ⟨p, hp, h1⟩
        exact Or.inr ⟨p, hp, by rw [← hrow p hp]; exact h1⟩
    refine ⟨?_, fun hp => not_assignable_of_popcount _ i t (fun q hq => ?_) hp⟩
    · apply Nat.eq_of_testBit_eq
      intro q
      rw [Bool.eq_iff_iff, hbits q, testBit_unionRows]
    · have h1 := (hbits q).2 hq
      exact ⟨h1, h32 q h1⟩
  refine ⟨fun s i h32 hp => ?_, fun c i j s s1 t h => ?_, fun c i j s t h => ?_⟩
  · refine not_assignable_of_popcount s i _ (fun q hq => ?_) hp
    refine ⟨(testBit_unionRows s q i).2 hq, ?_⟩
    obtain ⟨p, hp1, hq1⟩ := hq
    exact testBit_lt_32 _ q (h32 p hp1) hq1
  · have hv := placeLoop_some c i j i s 0 _ h
    have h1 : s1 = (placeP c i j i s 0).1 := by rw [← hv]
    have h2 : trialP c i j i s 0 = some t := by rw [← placeP_snd, ← hv]
    rw [h1]
    refine main c i j s t (placeLoop_length c i j i s 0 _ h) h2 (fun q hq => ?_)
    rcases placeLoop_total c i j i s s1 0 t h q hq with h3 | h3
    · simp at h3
    · exact h3
  · refine main c i j s t (trialLoop_length c i j i s 0 _ h)
      (trialLoop_some c i j i s 0 _ h).symm (fun q hq => ?_)
    rcases trialLoop_total c i j i s 0 t h q hq with h3 | h3
    · simp at h3
    · exact h3

/-- Instance of C9: two rows that both offer column 0 only are rejected by the
bound, as a state, after the elimination loop of the place branch and in the
trial of the scan. -/
theorem bound_sound_witness :
    (popcount (unionRows [1, 1] 2) < 2 ∧ ¬ Assignable [1, 1] 2) ∧
    (placeLoop (Spec.unrestricted true 3) 2 2 2 [1, 1, 4] 0 = some ([1, 1, 4], some 1) ∧
      popcount 1 < 2 ∧ ¬ Assignable [1, 1, 4] 2) ∧
    (trialLoop (Spec.unrestricted true 3) 2 2 2 [1, 1, 4] 0 = some (some 1) ∧
      ¬ Assignable (placeP (Spec.unrestricted true 3) 2 2 2 [1, 1, 4] 0).1 2) :=
  ⟨⟨by decide, bound_sound.1 [1, 1] 2
      (fun p hp => by
        have h : p = 0 ∨ p = 1 := by omega
        rcases h with rfl | rfl <;> decide)
      (by decide)⟩,
   ⟨by decide, by decide,
    (bound_sound.2.1 (Spec.unrestricted true 3) 2 2 [1, 1, 4] [1, 1, 4] 1 (by decide)).2
      (by decide)⟩,
   ⟨by decide,
    (bound_sound.2.2 (Spec.unrestricted true 3) 2 2 [1, 1, 4] 1 (by decide)).2 (by decide)⟩⟩

/-! ### Counting accepted branch sequences -/

theorem acceptedPaths_spec (c : Spec) :
    ∀ (fuel : Nat) (s : State) (L : Nat) (l : List (List Bool)),
      acceptedPaths c fuel s L = some l →
      l.Nodup ∧ ∀ bs, bs ∈ l ↔ (follow c s L bs).isSome = true := by
  intro fuel
  induction fuel with
  | zero => intro s L l h; simp [acceptedPaths] at h
  | succ fuel ih =>
    intro s L l h
    have hbr : ∀ (b : Bool) (pb : List (List Bool)),
        (match getChild c s L b with
          | none => none
          | some (bm1, r) =>
            if r = -1 then some [[b]]
            else if r ≤ 0 then some []
            else (acceptedPaths c fuel bm1 r.toNat).map fun ps => ps.map fun p => b :: p)
          = some pb →
        pb.Nodup ∧ (∀ p, p ∈ pb → ∃ t, p = b :: t) ∧
          ∀ t, b :: t ∈ pb ↔ (follow c s L (b :: t)).isSome = true := by
      intro b pb hb
      cases hg : getChild c s L b with
      | none => simp [hg] at hb
      | some v =>
        obtain ⟨s1, r⟩ := v
        simp only [hg] at hb
        simp only [follow, hg]
        by_cases h1 : r = -1
        · simp only [h1, if_true, Option.some.injEq] at hb ⊢
          subst hb
          refine ⟨by simp, fun p hp => ⟨[], by simpa using hp⟩, fun t => ?_⟩
          by_cases ht : t = []
          · simp [ht]
          · simp [ht]
        · simp only [h1, if_false] at hb ⊢
          by_cases h2 : r ≤ 0
          · simp only [h2, if_true, Option.some.injEq] at hb ⊢
            subst hb
            exact ⟨by simp, fun p hp => absurd hp (by simp), fun t => by simp⟩
          · simp only [h2, if_false, Option.map_eq_some'] at hb ⊢
            obtain ⟨ps, hps, rfl⟩ := hb
            obtain ⟨hnd, hmem⟩ := ih s1 r.toNat ps hps
            refine ⟨?_, fun p hp => ?_, fun t => ?_⟩
            · exact hnd.map (fun x y hxy => by simpa using hxy)
            · obtain ⟨t, _, rfl⟩ := List.mem_map.1 hp
              exact ⟨t, rfl⟩
            · rw [Option.isSome_map']
              rw [← hmem t]
              constructor
              · intro hp
                obtain ⟨t1, ht1, he⟩ := List.mem_map.1 hp
                simp only [List.cons.injEq, true_and] at he
                rwa [← he]
              · intro hp
                exact List.mem_map.2 ⟨t, hp, rfl⟩
    simp only [acceptedPaths, Option.bind_eq_bind, Option.bind_eq_some, Option.pure_def,
      Option.some.injEq] at h
    obtain ⟨p0, h0, p1, h1, rfl⟩ := h
    obtain ⟨hn0, hs0, hm0⟩ := hbr false p0 h0
    obtain ⟨hn1, hs1, hm1⟩ := hbr true p1 h1
    refine ⟨List.Nodup.append hn0 hn1 ?_, fun bs => ?_⟩
    · intro p hp0 hp1
      obtain ⟨t0, e0⟩ := hs0 p hp0
      obtain ⟨t1, e1⟩ := hs1 p hp1
      rw [e0] at e1
      simp at e1
    · rw [List.mem_append]
      cases bs with
      | nil =>
        simp only [follow, Option.isSome_none, Bool.false_eq_true, iff_false, not_or]
        exact ⟨fun hp => by obtain ⟨t, e⟩ := hs0 _ hp; simp at e,
          fun hp => by obtain ⟨t, e⟩ := hs1 _ hp; simp at e⟩
      | cons b t =>
        cases b
        · rw [← hm0 t]
          constructor
          · rintro (hp | hp)
            · exact hp
            · obtain ⟨t1, e⟩ := hs1 _ hp
              simp at e
          · exact Or.inl
        · rw [← hm1 t]
          constructor
          · rintro (hp | hp)
            · obtain ⟨t1, e⟩ := hs0 _ hp
              simp at e
            · exact hp
          · exact Or.inr

theorem pathCount_of_rootPaths (c : Spec) (k : Nat)
    (h : (rootPaths c).map List.length = some k) : PathCount c k := by
  obtain ⟨l, hl, hk⟩ := Option.map_eq_some'.1 h
  simp only [rootPaths, Option.bind_eq_bind, Option.bind_eq_some] at hl
  obtain ⟨⟨bm, level⟩, hr, hp⟩ := hl
  obtain ⟨hnd, hmem⟩ := acceptedPaths_spec c _ bm level l hp
  refine ⟨l, hnd, hk, fun bs => ?_⟩
  rw [hmem bs]
  simp only [accepts, hr]

theorem pathsBelow_spec (c : Spec) (fuel : Nat) :
    ∀ (pre : List Bool) (s : State) (L : Nat) (l : List (List Bool)),
      pathsBelow c fuel s L pre = some l →
      l.Nodup ∧ ∀ bs, bs ∈ l ↔ ((follow c s L bs).isSome = true ∧ pre <+: bs) := by
  intro pre
  induction pre with
  | nil =>
    intro s L l h
    obtain ⟨h1, h2⟩ := acceptedPaths_spec c fuel s L l h
    exact ⟨h1, fun bs => by rw [h2 bs]; simp⟩
  | cons b pre ih =>
    intro s L l h
    simp only [pathsBelow] at h
    cases hg : getChild c s L b with
    | none => simp [hg] at h
    | some v =>
      obtain ⟨s1, r⟩ := v
      simp only [hg] at h
      have hfol : ∀ t, follow c s L (b :: t) =
          if r = -1 then (if t = [] then some (if b = true then [cellOf c.n L] else []) else none)
          else if r ≤ 0 then none
          else (follow c s1 r.toNat t).map fun cells =>
            (if b = true then [cellOf c.n L] else []) ++ cells := by
        intro t
        simp only [follow, hg]
      have hpre : ∀ bs, b :: pre <+: bs ↔ ∃ t, bs = b :: t ∧ pre <+: t := by
        intro bs
        cases bs with
        | nil => simp
        | cons a t =>
          rw [List.cons_prefix_cons]
          constructor
          · rintro ⟨rfl, h1⟩
            exact ⟨t, rfl, h1⟩
          · rintro ⟨t1, h1, h2⟩
            simp only [List.cons.injEq] at h1
            obtain ⟨rfl, rfl⟩ := h1
            exact ⟨rfl, h2⟩
      by_cases h1 : r = -1
      · simp only [h1, if_true, Option.some.injEq] at h
        subst h
        refine ⟨by split <;> simp, fun bs => ?_⟩
        rw [hpre bs]
        constructor
        · intro hb
          by_cases hp : pre = []
          · simp only [hp, if_true, List.mem_singleton] at hb
            subst hb
            exact ⟨by rw [hfol]; simp [h1], [], rfl, by simp [hp]⟩
          · simp [hp] at hb
        · rintro ⟨hf, t, rfl, ht⟩
          rw [hfol] at hf
          simp only [h1, if_true] at hf
          by_cases ht0 : t = []
          · subst ht0
            have hp : pre = [] := by simpa using ht
            simp [hp]
          · simp [ht0] at hf
      · simp only [h1, if_false] at h
        by_cases h2 : r ≤ 0
        · simp only [h2, if_true, Option.some.injEq] at h
          subst h
          refine ⟨by simp, fun bs => ?_⟩
          rw [hpre bs]
          constructor
          · intro hb; simp at hb
          · rintro ⟨hf, t, rfl, _⟩
            rw [hfol] at hf
            simp [h1, h2] at hf
        · simp only [h2, if_false, Option.map_eq_some'] at h
          obtain ⟨ps, hps, rfl⟩ := h
          obtain ⟨hnd, hmem⟩ := ih s1 r.toNat ps hps
          refine ⟨hnd.map (fun x y hxy => by simpa using hxy), fun bs => ?_⟩
          rw [hpre bs]
          constructor
          · intro hb
            obtain ⟨t, ht, rfl⟩ := List.mem_map.1 hb
            obtain ⟨hf, hp⟩ := (hmem t).1 ht
            refine ⟨?_, t, rfl, hp⟩
            rw [hfol]
            simp only [h1, h2, if_false, Option.isSome_map']
            exact hf
          · rintro ⟨hf, t, rfl, ht⟩
            rw [hfol] at hf
            simp only [h1, h2, if_false, Option.isSome_map'] at hf
            exact List.mem_map.2 ⟨t, (hmem t).2 ⟨hf, ht⟩, rfl⟩

theorem pathsWith_leaf (c : Spec) (fuel : Nat) (pre : List Bool) (k : Nat)
    (h : (pathsWith c fuel pre).map List.length = some k) : PathsWith c pre k := by
  obtain ⟨l, hl, hk⟩ := Option.map_eq_some'.1 h
  simp only [pathsWith, Option.bind_eq_bind, Option.bind_eq_some] at hl
  obtain ⟨⟨bm, level⟩, hr, hp⟩ := hl
  obtain ⟨hnd, hmem⟩ := pathsBelow_spec c fuel pre bm level l hp
  refine ⟨l, hnd, hk, fun bs => ?_⟩
  rw [hmem bs]
  simp only [accepts, hr]

theorem follow_prefix_none (c : Spec) :
    ∀ (pre : List Bool) (s : State) (L : Nat) (b : Bool) (t : List Bool),
      (follow c s L (pre ++ b :: t)).isSome = true → follow c s L pre = none := by
  intro pre
  induction pre with
  | nil => intro s L b t _; rfl
  | cons a pre ih =>
    intro s L b t h
    simp only [List.cons_append, follow] at h ⊢
    cases hg : getChild c s L a with
    | none => rfl
    | some v =>
      obtain ⟨s1, r⟩ := v
      simp only [hg] at h ⊢
      by_cases h1 : r = -1
      · simp [h1] at h
      · simp only [h1, if_false] at h ⊢
        by_cases h2 : r ≤ 0
        · simp [h2] at h
        · simp only [h2, if_false, Option.isSome_map'] at h ⊢
          rw [ih s1 r.toNat b t h]
          rfl

theorem PathsWith.split (c : Spec) (pre : List Bool) (k0 k1 : Nat)
    (h0 : PathsWith c (pre ++ [false]) k0) (h1 : PathsWith c (pre ++ [true]) k1)
    (hk : 0 < k0 + k1) : PathsWith c pre (k0 + k1) := by
  obtain ⟨l0, hn0, hl0, hm0⟩ := h0
  obtain ⟨l1, hn1, hl1, hm1⟩ := h1
  have hext : ∀ (b : Bool) (bs : List Bool), pre ++ [b] <+: bs → pre <+: bs :=
    fun b bs h => (List.prefix_append pre [b]).trans h
  have hnot : accepts c pre = false := by
    have hex : ∃ bs b, accepts c bs = true ∧ pre ++ [b] <+: bs := by
      cases l0 with
      | cons x _ => exact ⟨x, false, (hm0 x).1 (by simp)⟩
      | nil =>
        cases l1 with
        | cons x _ => exact ⟨x, true, (hm1 x).1 (by simp)⟩
        | nil => simp at hl0 hl1; omega
    obtain ⟨bs, b, ha, t, rfl⟩ := hex
    unfold accepts at ha ⊢
    cases hr : getRoot c (List.replicate c.n 0) with
    | none => rfl
    | some v =>
      obtain ⟨bm, level⟩ := v
      simp only [hr] at ha ⊢
      rw [List.append_assoc, List.singleton_append] at ha
      rw [follow_prefix_none c pre bm level b t ha]
      rfl
  refine ⟨l0 ++ l1, List.Nodup.append hn0 hn1 ?_, by simp [hl0, hl1], fun bs => ?_⟩
  · intro x hx0 hx1
    obtain ⟨_, t0, e0⟩ := (hm0 x).1 hx0
    obtain ⟨_, t1, e1⟩ := (hm1 x).1 hx1
    rw [← e1, List.append_assoc, List.append_assoc] at e0
    have := List.append_cancel_left e0
    simp at this
  · rw [List.mem_append, hm0 bs, hm1 bs]
    constructor
    · rintro (⟨ha, hp⟩ | ⟨ha, hp⟩)
      · exact ⟨ha, hext _ _ hp⟩
      · exact ⟨ha, hext _ _ hp⟩
    · rintro ⟨ha, t, rfl⟩
      cases t with
      | nil =>
        rw [List.append_nil, hnot] at ha
        exact absurd ha (by simp)
      | cons b t =>
        have hp : pre ++ [b] <+: pre ++ b :: t :=
          ⟨t, by rw [List.append_assoc, List.singleton_append]⟩
        cases b
        · exact Or.inl ⟨ha, hp⟩
        · exact Or.inr ⟨ha, hp⟩

theorem PathsWith.root {c : Spec} {k : Nat} (h : PathsWith c [] k) : PathCount c k := by
  obtain ⟨l, hn, hl, hm⟩ := h
  exact ⟨l, hn, hl, fun bs => by rw [hm bs]; simp⟩

/-! ### Following branch sequences -/

theorem follow_cons_level (c : Spec) (s s1 : State) (L x : Nat) (b : Bool) (bs : List Bool)
    (hg : getChild c s L b = some (s1, ((x : Nat) : Int))) (hx : 1 ≤ x) :
    follow c s L (b :: bs) =
      (follow c s1 x bs).map fun cells => (if b = true then [cellOf c.n L] else []) ++ cells := by
  have h1 : ¬ ((x : Nat) : Int) = -1 := by omega
  have h2 : ¬ ((x : Nat) : Int) ≤ 0 := by omega
  simp only [follow, hg, h1, h2, if_false, Int.toNat_ofNat]

theorem follow_cons_zero (c : Spec) (s s1 : State) (L : Nat) (b : Bool) (bs : List Bool)
    (hg : getChild c s L b = some (s1, 0)) : follow c s L (b :: bs) = none := by
  simp [follow, hg]

theorem follow_cons_done (c : Spec) (s s1 : State) (L : Nat) (b : Bool) (bs : List Bool)
    (hg : getChild c s L b = some (s1, -1)) :
    follow c s L (b :: bs) =
      if bs = [] then some (if b = true then [cellOf c.n L] else []) else none := by
  simp [follow, hg]

theorem range_succ_reverse (i : Nat) :
    (List.range (i + 1)).reverse = i :: (List.range i).reverse := by
  rw [List.range_succ, List.reverse_append]
  rfl

theorem follow_sound (c : Spec) (hv : c.Valid) :
    ∀ (bs : List Bool) (s : State) (L : Nat) (cells : List (Nat × Nat)),
      Inv c s L → follow c s L bs = some cells →
      cells.map Prod.fst = (List.range ((L - 1) / c.n + 1)).reverse ∧
      (∀ cell, cell ∈ cells → cell.2 < c.n ∧ (row s cell.1).testBit cell.2 = true) ∧
      cells.Pairwise (fun a b =>
        b.1 < a.1 ∧ attacks c.rookOnly c.n a.1 a.2 b.1 b.2 = false) := by
  intro bs
  induction bs with
  | nil => intro s L cells _ h; simp [follow] at h
  | cons b bs ih =>
    intro s L cells hI h
    have hn1 := hv.1
    have hn := hv.2.1
    have hj : (L - 1) % c.n < c.n := Nat.mod_lt _ (by omega)
    have hil := hI.row_lt
    cases b
    · obtain ⟨s1, r, hg, hl, hrow, hres⟩ := skip_step c hv s L hI
      rcases hres with ⟨hr, _⟩ | ⟨j1, hj1, hr, htk, _, hb⟩
      · subst hr
        rw [follow_cons_zero c s s1 L false bs hg] at h
        exact absurd h (by simp)
      · subst hr
        rw [follow_cons_level c s s1 L _ false bs hg (by omega)] at h
        simp only [Bool.false_eq_true, if_false, List.nil_append, Option.map_eq_some'] at h
        obtain ⟨cells1, h1, rfl⟩ := h
        have hinv := skip_inv c hv s s1 L j1 hI hj1 hl hrow htk hb
        obtain ⟨e1, e2, e3⟩ := ih s1 _ cells1 hinv h1
        have hd : ((L - 1) / c.n * c.n + j1 + 1 - 1) / c.n = (L - 1) / c.n := by
          rw [Nat.add_sub_cancel]; exact decode_div _ _ _ (by omega)
        rw [hd] at e1
        refine ⟨e1, fun cell hc => ?_, e3⟩
        obtain ⟨h2, h3⟩ := e2 cell hc
        refine ⟨h2, ?_⟩
        by_cases hp : cell.1 = (L - 1) / c.n
        · rw [hp, hb] at h3
          rw [hp]
          exact (Bool.and_eq_true _ _ ▸ h3).1
        · rwa [hrow _ hp] at h3
    · obtain ⟨s1, r, hg, hres⟩ := place_step c hv s L hI
      rcases hres with ⟨hr, _⟩ | ⟨hr, h0, _⟩ |
        ⟨t, j1, ht, _, hi1, hj1, hr, hl, hrow, htk, _, hb⟩
      · subst hr
        rw [follow_cons_zero c s s1 L true bs hg] at h
        exact absurd h (by simp)
      · subst hr
        rw [follow_cons_done c s s1 L true bs hg] at h
        by_cases hbs : bs = []
        · simp only [hbs, if_true, Option.some.injEq] at h
          subst h
          refine ⟨by simp [cellOf, h0]; rfl, fun cell hc => ?_, by simp⟩
          simp only [List.mem_singleton] at hc
          subst hc
          exact ⟨hj, hI.2.2.2.2.2.1⟩
        · simp [hbs] at h
      · subst hr
        rw [follow_cons_level c s s1 L _ true bs hg (by omega)] at h
        simp only [if_true, List.singleton_append, Option.map_eq_some'] at h
        obtain ⟨cells1, h1, rfl⟩ := h
        have hinv := place_inv c hv s s1 L t j1 hI ht hi1 hj1 hl hrow htk hb
        obtain ⟨e1, e2, e3⟩ := ih s1 _ cells1 hinv h1
        have hd : (((L - 1) / c.n - 1) * c.n + j1 + 1 - 1) / c.n = (L - 1) / c.n - 1 := by
          rw [Nat.add_sub_cancel]; exact decode_div _ _ _ hj1
        rw [hd, Nat.sub_add_cancel hi1] at e1
        have hlen := hI.1
        have hcell : ∀ cell, cell ∈ cells1 → cell.1 < (L - 1) / c.n ∧ cell.2 < c.n ∧
            (row s cell.1).testBit cell.2 = true ∧
            attacks c.rookOnly c.n ((L - 1) / c.n) ((L - 1) % c.n) cell.1 cell.2 = false := by
          intro cell hc
          obtain ⟨h2, h3⟩ := e2 cell hc
          have hlt : cell.1 < (L - 1) / c.n := by
            have : cell.1 ∈ cells1.map Prod.fst := List.mem_map.2 ⟨cell, hc, rfl⟩
            rw [e1] at this
            simpa using this
          have h4 : (row (afterPlace c ((L - 1) / c.n) ((L - 1) % c.n) s) cell.1).testBit
              cell.2 = true := by
            by_cases hp : cell.1 = (L - 1) / c.n - 1
            · rw [hp, hb] at h3
              rw [hp]
              exact (Bool.and_eq_true _ _ ▸ h3).1
            · rwa [hrow _ hp] at h3
          rw [afterPlace_row_lt c _ _ s t (by omega) ht _ hlt,
            testBit_elimRowP _ _ _ _ _ _ _ hj (by omega)] at h4
          simp only [Bool.and_eq_true, decide_eq_true_eq, Bool.not_eq_true'] at h4
          exact ⟨hlt, h2, h4.1, h4.2.2⟩
        refine ⟨?_, fun cell hc => ?_, ?_⟩
        · rw [List.map_cons, e1, range_succ_reverse]
          rfl
        · rcases List.mem_cons.1 hc with rfl | hc
          · exact ⟨hj, hI.2.2.2.2.2.1⟩
          · exact ⟨(hcell cell hc).2.1, (hcell cell hc).2.2.1⟩
        · rw [List.pairwise_cons]
          exact ⟨fun cell hc => ⟨(hcell cell hc).1, (hcell cell hc).2.2.2⟩, e3⟩

theorem attacks_false (rk : Bool) (n i j p q : Nat) (hp : p < i)
    (h : attacks rk n i j p q = false) (hj : j < n) (hq : q < n) :
    j ≠ q ∧ (rk = false → ((i : Int) - p).natAbs ≠ ((j : Int) - q).natAbs) := by
  unfold attacks at h
  cases rk
  · simp only [Bool.not_false, Bool.true_and, Bool.or_eq_false_iff, decide_eq_false_iff_not,
      Bool.and_eq_false_imp, decide_eq_true_eq] at h
    obtain ⟨h1, h2, h3⟩ := h
    refine ⟨fun e => h1 e.symm, fun _ => ?_⟩
    by_cases hd : i - p ≤ j
    · have := h2 hd
      by_cases he : j + (i - p) < n
      · have := h3 he
        omega
      · omega
    · by_cases he : j + (i - p) < n
      · have := h3 he
        omega
      · omega
  · simp only [Bool.not_true, Bool.false_and, Bool.or_false, decide_eq_false_iff_not] at h
    exact ⟨fun e => h e.symm, fun e => absurd e (by simp)⟩

/-- C1 (conflict-freedom, plain variant, unrestricted constructor, `1 ≤ n ≤ 31`):
for every branch sequence that starts at the root produced by `getRoot`, follows
the levels returned by `getChild` and ends with `getChild` returning `-1`, the
cells decoded from the levels of the place branches contain exactly one cell in
each row `0 .. n-1` (and nothing else), no two of them share a column, and in
queen mode no two of them share a diagonal. -/
theorem accepted_conflict_free (rk : Bool) (n : Nat) (hn1 : 1 ≤ n) (hn : n ≤ 31)
    (buf bm : State) (L : Nat) (hb : buf.length = n)
    (hroot : getRoot (Spec.unrestricted rk n) buf = some (bm, L))
    (bs : List Bool) (cells : List (Nat × Nat))
    (h : follow (Spec.unrestricted rk n) bm L bs = some cells) :
    (∀ r, r < n → (cells.map Prod.fst).count r = 1) ∧
    cells.length = n ∧
    (∀ cell, cell ∈ cells → cell.1 < n ∧ cell.2 < n) ∧
    cells.Pairwise (fun a b => a.2 ≠ b.2) ∧
    (rk = false → cells.Pairwise (fun a b =>
      ((a.1 : Int) - b.1).natAbs ≠ ((a.2 : Int) - b.2).natAbs)) := by
  have hv := valid_unrestricted rk n hn1 hn
  have hI := root_inv _ hv buf bm L hb hroot
  obtain ⟨e1, e2, e3⟩ := follow_sound _ hv bs bm L cells hI h
  have hL : L = n * n := by
    obtain ⟨bm1, hg, _, _⟩ := getRoot_spec (Spec.unrestricted rk n) (by show n < 32; omega) buf hb
    rw [hg] at hroot
    simp only [Option.some.injEq, Prod.mk.injEq] at hroot
    exact hroot.2.symm
  have hd : (L - 1) / n + 1 = n := by
    have := (top_decode _ hv).1
    rw [hL]
    show (n * n - 1) / n + 1 = n
    have h2 : (n * n - 1) / n = n - 1 := this
    omega
  have e1' : cells.map Prod.fst = (List.range n).reverse := by
    have : cells.map Prod.fst = (List.range ((L - 1) / n + 1)).reverse := e1
    rwa [hd] at this
  have hcol : ∀ cell, cell ∈ cells → cell.2 < n := fun cell hc => (e2 cell hc).1
  refine ⟨fun r hr => ?_, ?_, fun cell hc => ⟨?_, hcol cell hc⟩, ?_, fun hrk => ?_⟩
  · rw [e1']
    exact List.count_eq_one_of_mem (List.nodup_reverse.2 (List.nodup_range n))
      (List.mem_reverse.2 (List.mem_range.2 hr))
  · have := congrArg List.length e1'
    simpa using this
  · have : cell.1 ∈ cells.map Prod.fst := List.mem_map.2 ⟨cell, hc, rfl⟩
    rw [e1'] at this
    simpa using this
  · refine List.Pairwise.imp_of_mem ?_ e3
    intro a b ha hb1 hab
    exact (attacks_false rk n a.1 a.2 b.1 b.2 hab.1 hab.2 (hcol a ha) (hcol b hb1)).1
  · refine List.Pairwise.imp_of_mem ?_ e3
    intro a b ha hb1 hab
    exact (attacks_false rk n a.1 a.2 b.1 b.2 hab.1 hab.2 (hcol a ha) (hcol b hb1)).2 hrk

/-- Instance of C1: one of the two accepted sequences of the 4-queens diagram. -/
theorem accepted_conflict_free_witness :
    follow (Spec.unrestricted false 4) [15, 15, 15, 15] 16 [false, true, true, true, true] =
        some [(3, 2), (2, 0), (1, 3), (0, 1)] ∧
      ((∀ r, r < 4 → (([(3, 2), (2, 0), (1, 3), (0, 1)] : List (Nat × Nat)).map
          Prod.fst).count r = 1) ∧
       ([(3, 2), (2, 0), (1, 3), (0, 1)] : List (Nat × Nat)).length = 4 ∧
       (∀ cell, cell ∈ ([(3, 2), (2, 0), (1, 3), (0, 1)] : List (Nat × Nat)) →
          cell.1 < 4 ∧ cell.2 < 4) ∧
       ([(3, 2), (2, 0), (1, 3), (0, 1)] : List (Nat × Nat)).Pairwise
          (fun a b => a.2 ≠ b.2) ∧
       (false = false → ([(3, 2), (2, 0), (1, 3), (0, 1)] : List (Nat × Nat)).Pairwise
          (fun a b => ((a.1 : Int) - b.1).natAbs ≠ ((a.2 : Int) - b.2).natAbs))) :=
  ⟨by decide, accepted_conflict_free false 4 (by decide) (by decide) [0, 0, 0, 0]
    [15, 15, 15, 15] 16 rfl (by decide) [false, true, true, true, true]
    [(3, 2), (2, 0), (1, 3), (0, 1)] (by decide)⟩

/-! ### Completeness -/

theorem attacks_of_legal (rk : Bool) (n i p : Nat) (f : Nat → Nat) (hp : p < i) (hi : i < n)
    (hinj : ∀ r1 r2, r1 < n → r2 < n → r1 ≠ r2 → f r1 ≠ f r2)
    (hdiag : rk = false → ∀ r1 r2, r1 < n → r2 < n → r1 ≠ r2 →
      ((r1 : Int) - r2).natAbs ≠ ((f r1 : Int) - f r2).natAbs) :
    attacks rk n i (f i) p (f p) = false := by
  have h1 := hinj i p hi (by omega) (by omega)
  unfold attacks
  cases rk
  · have h2 := hdiag rfl i p hi (by omega) (by omega)
    simp only [Bool.not_false, Bool.true_and, Bool.or_eq_false_iff, decide_eq_false_iff_not,
      Bool.and_eq_false_imp, decide_eq_true_eq]
    refine ⟨fun e => h1 e.symm, fun hd => ?_, fun he => ?_⟩ <;> omega
  · simp only [Bool.not_true, Bool.false_and, Bool.or_false, decide_eq_false_iff_not]
    exact fun e => h1 e.symm

theorem elim_keeps (c : Spec) (i p : Nat) (f : Nat → Nat) (s : State) (hp : p < i)
    (hi : i < c.n) (hn : c.n ≤ 32) (hf : ∀ r, r < c.n → f r < c.n)
    (hinj : ∀ r1 r2, r1 < c.n → r2 < c.n → r1 ≠ r2 → f r1 ≠ f r2)
    (hdiag : c.rookOnly = false → ∀ r1 r2, r1 < c.n → r2 < c.n → r1 ≠ r2 →
      ((r1 : Int) - r2).natAbs ≠ ((f r1 : Int) - f r2).natAbs)
    (hbit : (row s p).testBit (f p) = true) :
    (elimRowP c.rookOnly c.n i (f i) p (row s p)).testBit (f p) = true := by
  rw [testBit_elimRowP _ _ _ _ _ _ _ (hf i hi) hn, hbit,
    attacks_of_legal c.rookOnly c.n i p f hp hi hinj hdiag]
  have := hf p (by omega)
  simp only [Bool.not_false, Bool.and_true, Bool.true_and, decide_eq_true_eq]
  omega

theorem takable_of_legal (c : Spec) (i : Nat) (f : Nat → Nat) (s : State)
    (hi : i < c.n) (hn : c.n ≤ 32) (hf : ∀ r, r < c.n → f r < c.n)
    (hinj : ∀ r1 r2, r1 < c.n → r2 < c.n → r1 ≠ r2 → f r1 ≠ f r2)
    (hdiag : c.rookOnly = false → ∀ r1 r2, r1 < c.n → r2 < c.n → r1 ≠ r2 →
      ((r1 : Int) - r2).natAbs ≠ ((f r1 : Int) - f r2).natAbs)
    (hbit : ∀ p, p ≤ i → (row s p).testBit (f p) = true) :
    ∃ t, trialP c i (f i) i s 0 = some t ∧ i ≤ popcount t ∧ takableP c i (f i) s = true := by
  have hk : ∀ p, p < i →
      (elimRowP c.rookOnly c.n i (f i) p (row s p)).testBit (f p) = true :=
    fun p hp => elim_keeps c i p f s hp hi hn hf hinj hdiag (hbit p (by omega))
  obtain ⟨t, ht⟩ := trialP_isSome c i (f i) i s 0 (fun p hp h0 => by
    have := hk p hp
    rw [h0, Nat.zero_testBit] at this
    exact absurd this (by simp))
  have hpc : i ≤ popcount t := by
    refine popcount_ge t i f (fun p hp => ⟨?_, ?_⟩)
      (fun p1 p2 h1 h2 h3 => hinj p1 p2 (by omega) (by omega) h3)
    · have := hf p (by omega)
      omega
    · exact ((trialP_some c i (f i) i s 0 t ht).2 (f p)).2 (Or.inr ⟨p, hp, hk p hp⟩)
  refine ⟨t, ht, hpc, ?_⟩
  unfold takableP
  rw [hbit i (Nat.le_refl i), ht]
  simpa using hpc

theorem follow_complete (c : Spec) (hv : c.Valid) (htt : c.takeTop = false) (f : Nat → Nat)
    (hf : ∀ r, r < c.n → f r < c.n)
    (hinj : ∀ r1 r2, r1 < c.n → r2 < c.n → r1 ≠ r2 → f r1 ≠ f r2)
    (hdiag : c.rookOnly = false → ∀ r1 r2, r1 < c.n → r2 < c.n → r1 ≠ r2 →
      ((r1 : Int) - r2).natAbs ≠ ((f r1 : Int) - f r2).natAbs) :
    ∀ (L : Nat) (s : State), Inv c s L →
      (∀ p, p ≤ (L - 1) / c.n → (row s p).testBit (f p) = true) →
      f ((L - 1) / c.n) ≤ (L - 1) % c.n →
      ∃ bs, follow c s L bs =
        some ((List.range ((L - 1) / c.n + 1)).reverse.map fun r => (r, f r)) := by
  intro L
  induction L using Nat.strong_induction_on with
  | _ L ih =>
    intro s hI hbit hle
    have hn1 := hv.1
    have hn := hv.2.1
    have hj : (L - 1) % c.n < c.n := Nat.mod_lt _ (by omega)
    have hil := hI.row_lt
    have hlev := hI.level_eq
    by_cases hjf : f ((L - 1) / c.n) = (L - 1) % c.n
    · obtain ⟨s1, r, hg, hres⟩ := place_step c hv s L hI
      obtain ⟨t0, ht0, hpc0, _⟩ :=
        takable_of_legal c ((L - 1) / c.n) f s hil (by omega) hf hinj hdiag hbit
      rw [hjf] at ht0
      have hafter : ∀ p, p ≤ (L - 1) / c.n - 1 → 1 ≤ (L - 1) / c.n →
          (row (afterPlace c ((L - 1) / c.n) ((L - 1) % c.n) s) p).testBit (f p) = true := by
        intro p hp hi1
        rw [afterPlace_row_lt c _ _ s t0 (by have := hI.1; omega) ht0 p (by omega), ← hjf]
        exact elim_keeps c _ p f s (by omega) hil (by omega) hf hinj hdiag (hbit p (by omega))
      rcases hres with ⟨hr, hwhy⟩ | ⟨hr, h0, _⟩ |
        ⟨t, j1, ht, _, hi1, hj1, hr, hl, hrow, htk, hall, hb⟩
      · exfalso
        rcases hwhy with h1 | ⟨t, h1, h2⟩ | ⟨t, h1, hi1, h2⟩
        · rw [ht0] at h1
          exact absurd h1 (by simp)
        · rw [ht0] at h1
          simp only [Option.some.injEq] at h1
          subst h1
          omega
        · obtain ⟨_, _, _, h3⟩ := takable_of_legal c ((L - 1) / c.n - 1) f
            (afterPlace c ((L - 1) / c.n) ((L - 1) % c.n) s) (by omega) (by omega) hf hinj hdiag
            (fun p hp => hafter p hp hi1)
          rw [h2 _ (hf _ (by omega))] at h3
          exact absurd h3 (by simp)
      · subst hr
        refine ⟨[true], ?_⟩
        rw [follow_cons_done c s s1 L true [] hg]
        simp only [if_true, cellOf, h0, Option.some.injEq]
        rw [← hjf, h0]
        rfl
      · subst hr
        have hinv := place_inv c hv s s1 L t j1 hI ht hi1 hj1 hl hrow htk hb
        have hd : (((L - 1) / c.n - 1) * c.n + j1 + 1 - 1) / c.n = (L - 1) / c.n - 1 := by
          rw [Nat.add_sub_cancel]; exact decode_div _ _ _ hj1
        have hm : (((L - 1) / c.n - 1) * c.n + j1 + 1 - 1) % c.n = j1 := by
          rw [Nat.add_sub_cancel]; exact decode_mod _ _ _ hj1
        obtain ⟨_, _, _, h3⟩ := takable_of_legal c ((L - 1) / c.n - 1) f
          (afterPlace c ((L - 1) / c.n) ((L - 1) % c.n) s) (by omega) (by omega) hf hinj hdiag
          (fun p hp => hafter p hp hi1)
        have hfj : f ((L - 1) / c.n - 1) ≤ j1 := by
          by_contra hc
          rw [hall _ (by omega) (hf _ (by omega))] at h3
          exact absurd h3 (by simp)
        have hmul : ((L - 1) / c.n - 1) * c.n + c.n = (L - 1) / c.n * c.n := by
          have : ((L - 1) / c.n - 1) * c.n + c.n = ((L - 1) / c.n - 1 + 1) * c.n := by ring
          rw [this, Nat.sub_add_cancel hi1]
        obtain ⟨bs, hbs⟩ := ih (((L - 1) / c.n - 1) * c.n + j1 + 1) (by omega) s1 hinv
          (by
            rw [hd]
            intro p hp
            by_cases hpe : p = (L - 1) / c.n - 1
            · rw [hpe, hb, hafter _ (Nat.le_refl _) hi1]
              simpa using hfj
            · rw [hrow p hpe]
              exact hafter p hp hi1)
          (by rw [hd, hm]; exact hfj)
        refine ⟨true :: bs, ?_⟩
        rw [follow_cons_level c s s1 L _ true bs hg (by omega), hbs, hd,
          Nat.sub_add_cancel hi1]
        simp only [if_true, Option.map_some', List.singleton_append, Option.some.injEq]
        rw [range_succ_reverse, List.map_cons, cellOf, hjf]
    · have hlt : f ((L - 1) / c.n) < (L - 1) % c.n := by omega
      obtain ⟨s1, r, hg, hl, hrow, hres⟩ := skip_step c hv s L hI
      obtain ⟨_, _, _, h3⟩ :=
        takable_of_legal c ((L - 1) / c.n) f s hil (by omega) hf hinj hdiag hbit
      rcases hres with ⟨hr, hwhy⟩ | ⟨j1, hj1, hr, htk, hall, hb⟩
      · exfalso
        rcases hwhy with h1 | h1
        · rw [htt] at h1
          exact absurd h1.1 (by simp)
        · rw [h1 _ hlt] at h3
          exact absurd h3 (by simp)
      · subst hr
        have hinv := skip_inv c hv s s1 L j1 hI hj1 hl hrow htk hb
        have hd : ((L - 1) / c.n * c.n + j1 + 1 - 1) / c.n = (L - 1) / c.n := by
          rw [Nat.add_sub_cancel]; exact decode_div _ _ _ (by omega)
        have hm : ((L - 1) / c.n * c.n + j1 + 1 - 1) % c.n = j1 := by
          rw [Nat.add_sub_cancel]; exact decode_mod _ _ _ (by omega)
        have hfj : f ((L - 1) / c.n) ≤ j1 := by
          by_contra hc
          rw [hall _ (by omega) hlt] at h3
          exact absurd h3 (by simp)
        obtain ⟨bs, hbs⟩ := ih ((L - 1) / c.n * c.n + j1 + 1) (by omega) s1 hinv
          (by
            rw [hd]
            intro p hp
            by_cases hpe : p = (L - 1) / c.n
            · rw [hpe, hb, hbit _ (Nat.le_refl _)]
              simpa using hfj
            · rw [hrow p hpe]
              exact hbit p hp)
          (by rw [hd, hm]; exact hfj)
        refine ⟨false :: bs, ?_⟩
        rw [follow_cons_level c s s1 L _ false bs hg (by omega), hbs, hd]
        simp

/-- C2 (completeness, plain variant, unrestricted constructor, `1 ≤ n ≤ 31`,
either mode): for every legal complete placement `f` (a column below `n` for
each row, pairwise distinct columns and, in queen mode, pairwise distinct
diagonals) there is a branch sequence from the root that follows the levels
returned by `getChild`, ends with `getChild` returning `-1`, and whose place
branches are taken exactly at the cells `(r, f r)` of the placement. -/
theorem legal_placement_accepted (rk : Bool) (n : Nat) (hn1 : 1 ≤ n) (hn : n ≤ 31)
    (f : Nat → Nat) (hf : ∀ r, r < n → f r < n)
    (hinj : ∀ r1 r2, r1 < n → r2 < n → r1 ≠ r2 → f r1 ≠ f r2)
    (hdiag : rk = false → ∀ r1 r2, r1 < n → r2 < n → r1 ≠ r2 →
      ((r1 : Int) - r2).natAbs ≠ ((f r1 : Int) - f r2).natAbs)
    (buf : State) (hb : buf.length = n) :
    ∃ bm L bs, getRoot (Spec.unrestricted rk n) buf = some (bm, L) ∧
      follow (Spec.unrestricted rk n) bm L bs =
        some ((List.range n).reverse.map fun r => (r, f r)) := by
  have hv := valid_unrestricted rk n hn1 hn
  obtain ⟨bm, hg, hl, hbits⟩ :=
    getRoot_spec (Spec.unrestricted rk n) (by show n < 32; omega) buf hb
  have hI := root_inv _ hv buf bm _ hb hg
  obtain ⟨hd, _, hm⟩ := top_decode _ hv
  have hd' : ((Spec.unrestricted rk n).topLevel - 1) / n = n - 1 := hd
  have hm' : ((Spec.unrestricted rk n).topLevel - 1) % n = n - 1 := hm rfl
  obtain ⟨bs, hbs⟩ := follow_complete _ hv rfl f hf hinj hdiag _ bm hI
    (by
      intro p hp
      have hp' : p ≤ n - 1 := by rw [← hd']; exact hp
      rw [hbits]
      have h1 : p < n := by omega
      have h2 := hf p h1
      simp only [Bool.and_eq_true, decide_eq_true_eq]
      exact ⟨h1, h2⟩)
    (by
      show f (((Spec.unrestricted rk n).topLevel - 1) / n) ≤
        ((Spec.unrestricted rk n).topLevel - 1) % n
      rw [hd', hm']
      have := hf (n - 1) (by omega)
      omega)
  refine ⟨bm, _, bs, hg, ?_⟩
  rw [hbs]
  show some ((List.range (((Spec.unrestricted rk n).topLevel - 1) / n + 1)).reverse.map
    fun r => (r, f r)) = _
  rw [hd', Nat.sub_add_cancel hn1]

/-- Instance of C2: the placement with columns 1, 3, 0, 2 in the rows 0, 1, 2, 3
of the 4-queens board. -/
theorem legal_placement_accepted_witness :
    ∃ bm L bs, getRoot (Spec.unrestricted false 4) [0, 0, 0, 0] = some (bm, L) ∧
      follow (Spec.unrestricted false 4) bm L bs =
        some ((List.range 4).reverse.map fun r => (r, [1, 3, 0, 2].getD r 0)) :=
  legal_placement_accepted false 4 (by decide) (by decide) (fun r => [1, 3, 0, 2].getD r 0)
    (fun r hr => by
      have h : r = 0 ∨ r = 1 ∨ r = 2 ∨ r = 3 := by omega
      rcases h with rfl | rfl | rfl | rfl <;> decide)
    (fun r1 r2 h1 h2 hne => by
      have e1 : r1 = 0 ∨ r1 = 1 ∨ r1 = 2 ∨ r1 = 3 := by omega
      have e2 : r2 = 0 ∨ r2 = 1 ∨ r2 = 2 ∨ r2 = 3 := by omega
      rcases e1 with rfl | rfl | rfl | rfl <;> rcases e2 with rfl | rfl | rfl | rfl <;>
        first | exact absurd rfl hne | decide)
    (fun _ r1 r2 h1 h2 hne => by
      have e1 : r1 = 0 ∨ r1 = 1 ∨ r1 = 2 ∨ r1 = 3 := by omega
      have e2 : r2 = 0 ∨ r2 = 1 ∨ r2 = 2 ∨ r2 = 3 := by omega
      rcases e1 with rfl | rfl | rfl | rfl <;> rcases e2 with rfl | rfl | rfl | rfl <;>
        first | exact absurd rfl hne | decide)
    [0, 0, 0, 0] rfl

/-! ### The plain root -/

theorem eq_replicate_of_rows (s : State) (n v : Nat) (hl : s.length = n)
    (h : ∀ p, p < n → row s p = v) : s = List.replicate n v := by
  apply List.ext_getElem?
  intro p
  by_cases hp : p < n
  · rw [getElem?_eq_row s p (by omega), h p hp, List.getElem?_replicate, if_pos hp]
  · rw [List.getElem?_eq_none (by omega), List.getElem?_replicate, if_neg hp]

theorem getRoot_eq_replicate (c : Spec) (hn : c.n < 32) (buf : State)
    (hb : buf.length = c.n) :
    getRoot c buf = some (List.replicate c.n (2 ^ c.n - 1), c.topLevel) := by
  obtain ⟨bm, hg, hl, hbits⟩ := getRoot_spec c hn buf hb
  rw [hg, eq_replicate_of_rows bm c.n (2 ^ c.n - 1) hl]
  intro p hp
  apply Nat.eq_of_testBit_eq
  intro q
  rw [hbits p q, Nat.testBit_two_pow_sub_one]
  simp [hp]

/-- C11 (plain root): for every `n ≤ 31` and every buffer of `n` bitmaps,
`NQueenZddBase::getRoot` leaves in each of the `n` rows the bitmap `2 ^ n - 1`,
whose set bits are exactly the positions `0 .. n-1`, and returns `n * n` for the
unrestricted constructor and `n * n - firstCol` for the constructor with a
restricted first column `firstCol < n`. -/
theorem getRoot_full_rows (rk : Bool) (n : Nat) (hn : n ≤ 31) (buf : State)
    (hb : buf.length = n) :
    getRoot (Spec.unrestricted rk n) buf = some (List.replicate n (2 ^ n - 1), n * n) ∧
    (∀ f, f < n →
      getRoot (Spec.restricted rk n f) buf = some (List.replicate n (2 ^ n - 1), n * n - f)) ∧
    (∀ p, p < n → row (List.replicate n (2 ^ n - 1)) p = 2 ^ n - 1) ∧
    ∀ q, (2 ^ n - 1).testBit q = true ↔ q < n := by
  refine ⟨getRoot_eq_replicate (Spec.unrestricted rk n) (by show n < 32; omega) buf hb,
    fun f _ => getRoot_eq_replicate (Spec.restricted rk n f) (by show n < 32; omega) buf hb,
    fun p hp => ?_, fun q => ?_⟩
  · simp [row, List.getD_eq_getElem?_getD, List.getElem?_replicate, hp]
  · rw [Nat.testBit_two_pow_sub_one]
    simp

/-- Instance of C11: the roots of the 4-queens diagram, unrestricted and with the
first column restricted. -/
theorem getRoot_full_rows_witness :
    getRoot (Spec.unrestricted false 4) [0, 0, 0, 0] =
        some (List.replicate 4 (2 ^ 4 - 1), 4 * 4) ∧
    (∀ f, f < 4 → getRoot (Spec.restricted false 4 f) [0, 0, 0, 0] =
        some (List.replicate 4 (2 ^ 4 - 1), 4 * 4 - f)) ∧
    (∀ p, p < 4 → row (List.replicate 4 (2 ^ 4 - 1)) p = 2 ^ 4 - 1) ∧
    ∀ q, (2 ^ 4 - 1).testBit q = true ↔ q < 4 :=
  getRoot_full_rows false 4 (by decide) [0, 0, 0, 0] rfl

/-! ### Single calls of the place branch -/

/-- C13 (characterisation of the true terminal, plain variant): for every state
of `n` bitmaps, every level `level ≥ 1` and every branch, `getChild`
returns `-1` if and only if the branch is the place branch, the row of the
level is `0` and the bit of its column is set in row `0` of the input state;
in that case the state is returned unchanged. -/
theorem getChild_done_iff (c : Spec) (hn1 : 1 ≤ c.n) (hn : c.n ≤ 31) (s : State)
    (hs : s.length = c.n) (L : Nat) (hL1 : 1 ≤ L) (b : Bool) :
    ((∃ s1, getChild c s L b = some (s1, -1)) ↔
      (b = true ∧ (L - 1) / c.n = 0 ∧ (row s 0).testBit ((L - 1) % c.n) = true)) ∧
    ∀ s1, getChild c s L b = some (s1, -1) → s1 = s := by
  have hj : (L - 1) % c.n < c.n := Nat.mod_lt _ (by omega)
  have hfwd : ∀ s1, getChild c s L b = some (s1, -1) →
      b = true ∧ (L - 1) / c.n = 0 ∧ (row s 0).testBit ((L - 1) % c.n) = true ∧ s1 = s := by
    intro s1 h
    cases b
    · exfalso
      obtain ⟨_, h⟩ := getChild_skip_some h
      split at h
      · simp at h
      · obtain ⟨_, _, h⟩ := h
        split at h
        · simp at h
        · have := (scan_sub c _ _ _ _ h.2).2.1
          omega
    · obtain ⟨_, _, _, h⟩ := getChild_place_some h
      split at h
      · simp at h
      · rename_i hb
        cases ht : trialP c ((L - 1) / c.n) ((L - 1) % c.n) ((L - 1) / c.n) s 0 with
        | none =>
          simp only [ht, Prod.mk.injEq] at h
          omega
        | some total =>
          simp only [ht] at h
          split at h
          · rename_i h0
            simp only [Prod.mk.injEq] at h
            refine ⟨rfl, h0, ?_, ?_⟩
            · rw [h0] at hb
              simpa using hb
            · rw [h.1, h0]
              rfl
          · split at h
            · simp only [Prod.mk.injEq] at h
              omega
            · have := (scan_sub c _ _ _ _ h).2.1
              omega
  refine ⟨⟨fun ⟨s1, h⟩ => ⟨(hfwd s1 h).1, (hfwd s1 h).2.1, (hfwd s1 h).2.2.1⟩, ?_⟩,
    fun s1 h => (hfwd s1 h).2.2.2⟩
  rintro ⟨rfl, h0, hbit⟩
  refine ⟨s, ?_⟩
  have hL0 : ¬ (L = 0 ∨ c.n = 0) := by omega
  simp only [getChild, hL0, if_false, if_true, h0, getElem?_eq_row s 0 (by omega),
    hasBit_eq _ _ (show (L - 1) % c.n < 32 by omega), hbit, placeLoop, Option.bind_eq_bind,
    Option.some_bind, Option.pure_def, Bool.not_true, Bool.false_eq_true]

/-- Instance of C13: in the 4-queens diagram a place branch in row `0` on an
available column returns `-1`. -/
theorem getChild_done_iff_witness :
    ((∃ s1, getChild (Spec.unrestricted false 4) [2, 0, 0, 0] 2 true = some (s1, -1)) ↔
      (true = true ∧ (2 - 1) / (Spec.unrestricted false 4).n = 0 ∧
        (row [2, 0, 0, 0] 0).testBit ((2 - 1) % (Spec.unrestricted false 4).n) = true)) ∧
    ∀ s1, getChild (Spec.unrestricted false 4) [2, 0, 0, 0] 2 true = some (s1, -1) →
      s1 = [2, 0, 0, 0] :=
  getChild_done_iff (Spec.unrestricted false 4) (by decide) (by decide) [2, 0, 0, 0] rfl 2
    (by decide) true

/-- C14 (placing on an unavailable cell, plain variant): for every state of `n`
bitmaps and every level `1 ≤ level ≤ n * n`, if the bit of the column of the
level is `0` in the row of the level, the place branch of `getChild` returns
`0` and leaves the state as it was. -/
theorem getChild_place_unavailable (c : Spec) (hn1 : 1 ≤ c.n) (hn : c.n ≤ 31) (s : State)
    (hs : s.length = c.n) (L : Nat) (hL1 : 1 ≤ L) (hL : L ≤ c.n * c.n)
    (h : (row s ((L - 1) / c.n)).testBit ((L - 1) % c.n) = false) :
    getChild c s L true = some (s, 0) := by
  have hj : (L - 1) % c.n < c.n := Nat.mod_lt _ (by omega)
  have hi : (L - 1) / c.n < s.length := by
    rw [hs]
    apply Nat.div_lt_of_lt_mul
    omega
  have hL0 : ¬ (L = 0 ∨ c.n = 0) := by omega
  simp only [getChild, hL0, if_false, if_true, getElem?_eq_row s _ hi,
    hasBit_eq _ _ (show (L - 1) % c.n < 32 by omega), h, Option.bind_eq_bind,
    Option.some_bind, Option.pure_def, Bool.not_false]

/-- Instance of C14: column 3 of row 3 is not available in the state reached by
one skip from the root of the 4-queens diagram. -/
theorem getChild_place_unavailable_witness :
    (row [15, 15, 15, 7] ((16 - 1) / (Spec.unrestricted false 4).n)).testBit
        ((16 - 1) % (Spec.unrestricted false 4).n) = false ∧
      getChild (Spec.unrestricted false 4) [15, 15, 15, 7] 16 true =
        some ([15, 15, 15, 7], 0) :=
  ⟨by decide, getChild_place_unavailable (Spec.unrestricted false 4) (by decide) (by decide)
    [15, 15, 15, 7] rfl 16 (by decide) (by decide) (by decide)⟩

/-- C15 (conflict propagation postcondition, plain variant): for every call of
the place branch of `getChild` at the cell `(i, j)` of its level that has a
result other than `0`, in the output state every row `ii < i` has bit `j`
cleared and, in queen mode, bit `j - (i - ii)` cleared when `i - ii ≤ j` and bit
`j + (i - ii)` cleared when `j + (i - ii) < n`; and when the call returns a
non-terminal level, row `i` of the output state is `0`. -/
theorem getChild_place_eliminates (c : Spec) (hn1 : 1 ≤ c.n) (hn : c.n ≤ 31)
    (s s1 : State) (L : Nat) (r : Int) (h : getChild c s L true = some (s1, r))
    (hr : r ≠ 0) :
    (∀ ii, ii < (L - 1) / c.n →
      (row s1 ii).testBit ((L - 1) % c.n) = false ∧
      (c.rookOnly = false →
        ((L - 1) / c.n - ii ≤ (L - 1) % c.n →
          (row s1 ii).testBit ((L - 1) % c.n - ((L - 1) / c.n - ii)) = false) ∧
        ((L - 1) % c.n + ((L - 1) / c.n - ii) < c.n →
          (row s1 ii).testBit ((L - 1) % c.n + ((L - 1) / c.n - ii)) = false))) ∧
    (1 ≤ r → row s1 ((L - 1) / c.n) = 0) := by
  have hj : (L - 1) % c.n < c.n := Nat.mod_lt _ (by omega)
  obtain ⟨_, hi, _, h⟩ := getChild_place_some h
  generalize hie : (L - 1) / c.n = i at *
  generalize hje : (L - 1) % c.n = j at *
  split at h
  · simp only [Prod.mk.injEq] at h
    exact absurd h.2 hr
  · cases ht : trialP c i j i s 0 with
    | none =>
      simp only [ht, Prod.mk.injEq] at h
      exact absurd h.2 hr
    | some total =>
      simp only [ht] at h
      split at h
      · rename_i h0
        simp only [Prod.mk.injEq] at h
        exact ⟨fun ii hii => absurd hii (by omega), fun h1 => absurd h1 (by omega)⟩
      · split at h
        · simp only [Prod.mk.injEq] at h
          exact absurd h.2 hr
        · have hsub : Sub s1 (afterPlace c i j s) := (scan_sub c _ _ _ _ h).1
          have hoff : ∀ p q, (row (afterPlace c i j s) p).testBit q = false →
              (row s1 p).testBit q = false := by
            intro p q hq
            cases h1 : (row s1 p).testBit q
            · rfl
            · rw [hsub.2 p q h1] at hq
              exact absurd hq (by simp)
          refine ⟨fun ii hii => ?_, fun _ => ?_⟩
          · have hrow := afterPlace_row_lt c i j s total (by omega) ht ii hii
            have hbit : ∀ q, attacks c.rookOnly c.n i j ii q = true →
                (row s1 ii).testBit q = false := by
              intro q hq
              apply hoff
              rw [hrow, testBit_elimRowP _ _ _ _ _ _ _ hj (by omega), hq]
              simp
            refine ⟨hbit j (by simp [attacks]), fun hrk => ⟨fun hd => ?_, fun he => ?_⟩⟩
            · apply hbit
              simp [attacks, hrk, hd]
            · apply hbit
              simp [attacks, hrk, he]
          · apply Nat.eq_of_testBit_eq
            intro q
            rw [Nat.zero_testBit]
            apply hoff
            rw [afterPlace_row_self c i j s hi, Nat.zero_testBit]

/-- Instance of C15: the place branch at the root of the 4-queens diagram. -/
theorem getChild_place_eliminates_witness :
    getChild (Spec.unrestricted false 4) [15, 15, 15, 15] 16 true = some ([6, 5, 1, 0], 9) ∧
    ((∀ ii, ii < (16 - 1) / (Spec.unrestricted false 4).n →
      (row [6, 5, 1, 0] ii).testBit ((16 - 1) % (Spec.unrestricted false 4).n) = false ∧
      ((Spec.unrestricted false 4).rookOnly = false →
        ((16 - 1) / (Spec.unrestricted false 4).n - ii ≤
            (16 - 1) % (Spec.unrestricted false 4).n →
          (row [6, 5, 1, 0] ii).testBit ((16 - 1) % (Spec.unrestricted false 4).n -
            ((16 - 1) / (Spec.unrestricted false 4).n - ii)) = false) ∧
        ((16 - 1) % (Spec.unrestricted false 4).n +
            ((16 - 1) / (Spec.unrestricted false 4).n - ii) < (Spec.unrestricted false 4).n →
          (row [6, 5, 1, 0] ii).testBit ((16 - 1) % (Spec.unrestricted false 4).n +
            ((16 - 1) / (Spec.unrestricted false 4).n - ii)) = false))) ∧
    ((1 : Int) ≤ 9 → row [6, 5, 1, 0] ((16 - 1) / (Spec.unrestricted false 4).n) = 0)) :=
  ⟨by decide, getChild_place_eliminates (Spec.unrestricted false 4) (by decide) (by decide)
    [15, 15, 15, 15] [6, 5, 1, 0] 16 9 (by decide) (by decide)⟩

/-! ### Reachable states -/

/-- C18 (validity of the assertion of the skip branch, plain variant, either
constructor, `1 ≤ n ≤ 31`): at every pair `(state, level)` reachable from
`getRoot` the skip branch of `getChild` has a defined result, so no assertion
fails; whenever the branch gets past the restricted top level and row `i` is
non-empty after clearing bit `j`, the column satisfies `j ≥ 1`; and a returned
non-terminal level lies in row `i`, so the scan does not leave the row. -/
theorem skip_assertion_holds (rk : Bool) (n : Nat) (hn1 : 1 ≤ n) (hn : n ≤ 31) (c : Spec)
    (hc : c = Spec.unrestricted rk n ∨ ∃ f, f < n ∧ c = Spec.restricted rk n f)
    (s : State) (L : Nat) (hR : Reach c s L) :
    (∃ s1 r, getChild c s L false = some (s1, r) ∧
      (r = 0 ∨ (1 ≤ r ∧ r < L ∧ (r.toNat - 1) / n = (L - 1) / n))) ∧
    (¬ (c.takeTop = true ∧ L = c.topLevel) →
      clearBitP (row s ((L - 1) / n)) ((L - 1) % n) ≠ 0 → 1 ≤ (L - 1) % n) := by
  have hv : c.Valid := by
    rcases hc with rfl | ⟨f, hf, rfl⟩
    · exact valid_unrestricted rk n hn1 hn
    · exact valid_restricted rk n f hn1 hn hf
  have hcn : c.n = n := by
    rcases hc with rfl | ⟨f, hf, rfl⟩ <;> rfl
  have hI := hR.inv hv
  refine ⟨?_, fun htop hz => ?_⟩
  · obtain ⟨s1, r, hg, hres⟩ := step_inv c hv s L hI false
    refine ⟨s1, r, hg, ?_⟩
    rcases hres with h0 | ⟨_, hb, _⟩ | ⟨h1, h2, _, _, h4⟩
    · exact Or.inl h0
    · exact absurd hb (by simp)
    · rw [hcn] at h4
      exact Or.inr ⟨h1, h2, by simpa using h4⟩
  · obtain ⟨_, _, _, _, _, _, hup, _⟩ := hI
    rw [hcn] at hup
    have hj : (L - 1) % n < n := Nat.mod_lt _ (by omega)
    obtain ⟨q, hq⟩ := Nat.ne_zero_implies_bit_true hz
    rw [testBit_clearBitP _ _ _ (by omega)] at hq
    simp only [Bool.and_eq_true, decide_eq_true_eq, Bool.not_eq_true',
      decide_eq_false_iff_not] at hq
    rcases hup with h | h
    · exact absurd h htop
    · have := h q hq.1
      omega

/-- Instance of C18: the skip branch at the root of the 4-queens diagram. -/
theorem skip_assertion_holds_witness :
    Reach (Spec.unrestricted false 4) [15, 15, 15, 15] 16 ∧
    ((∃ s1 r, getChild (Spec.unrestricted false 4) [15, 15, 15, 15] 16 false = some (s1, r) ∧
      (r = 0 ∨ (1 ≤ r ∧ r < (16 : Nat) ∧ (r.toNat - 1) / 4 = (16 - 1) / 4))) ∧
    (¬ ((Spec.unrestricted false 4).takeTop = true ∧
        16 = (Spec.unrestricted false 4).topLevel) →
      clearBitP (row [15, 15, 15, 15] ((16 - 1) / 4)) ((16 - 1) % 4) ≠ 0 →
        1 ≤ (16 - 1) % 4)) :=
  ⟨Reach.root [0, 0, 0, 0] _ _ rfl (by decide),
   skip_assertion_holds false 4 (by decide) (by decide) (Spec.unrestricted false 4)
    (Or.inl rfl) [15, 15, 15, 15] 16 (Reach.root [0, 0, 0, 0] _ _ rfl (by decide))⟩

/-- C19 (reachable-state invariant, plain variant, unrestricted constructor,
`1 ≤ n ≤ 31`): at every pair `(state, level)` reachable from `getRoot`, with
`(i, j)` the cell of the level, the state has `n` rows and `1 ≤ level ≤ n * n`;
no row has a bit at a position `≥ n`; every row after `i` is `0`; row `i` has
bit `j` set and no bit above `j`; and every row before `i` is non-empty. -/
theorem reachable_state_invariant (rk : Bool) (n : Nat) (hn1 : 1 ≤ n) (hn : n ≤ 31)
    (s : State) (L : Nat) (hR : Reach (Spec.unrestricted rk n) s L) :
    s.length = n ∧ 1 ≤ L ∧ L ≤ n * n ∧
    (∀ p q, (row s p).testBit q = true → q < n) ∧
    (∀ p, (L - 1) / n < p → row s p = 0) ∧
    (row s ((L - 1) / n)).testBit ((L - 1) % n) = true ∧
    (∀ q, (row s ((L - 1) / n)).testBit q = true → q ≤ (L - 1) % n) ∧
    (∀ p, p < (L - 1) / n → row s p ≠ 0) := by
  obtain ⟨h1, h2, h3, h4, h5, h6, h7, h8⟩ := hR.inv (valid_unrestricted rk n hn1 hn)
  refine ⟨h1, h2, h3, h4, h5, h6, ?_, h8⟩
  rcases h7 with h | h
  · exact absurd h.1 (by simp [Spec.unrestricted])
  · exact h

/-- Instance of C19: the state reached by the place branch at the root of the
4-queens diagram. -/
theorem reachable_state_invariant_witness :
    Reach (Spec.unrestricted false 4) [6, 5, 1, 0] 9 ∧
    (([6, 5, 1, 0] : State).length = 4 ∧ 1 ≤ 9 ∧ 9 ≤ 4 * 4 ∧
    (∀ p q, (row [6, 5, 1, 0] p).testBit q = true → q < 4) ∧
    (∀ p, (9 - 1) / 4 < p → row [6, 5, 1, 0] p = 0) ∧
    (row [6, 5, 1, 0] ((9 - 1) / 4)).testBit ((9 - 1) % 4) = true ∧
    (∀ q, (row [6, 5, 1, 0] ((9 - 1) / 4)).testBit q = true → q ≤ (9 - 1) % 4) ∧
    (∀ p, p < (9 - 1) / 4 → row [6, 5, 1, 0] p ≠ 0)) :=
  ⟨Reach.step [15, 15, 15, 15] [6, 5, 1, 0] 16 true 9
      (Reach.root [0, 0, 0, 0] _ _ rfl (by decide)) (by decide) (by decide),
   reachable_state_invariant false 4 (by decide) (by decide) [6, 5, 1, 0] 9
    (Reach.step [15, 15, 15, 15] [6, 5, 1, 0] 16 true 9
      (Reach.root [0, 0, 0, 0] _ _ rfl (by decide)) (by decide) (by decide))⟩

/-! ### The trial of the scan and the place branch -/

theorem getChild_place_eq_head (c : Spec) (s : State) (L : Nat) :
    getChild c s L true =
      if L = 0 ∨ c.n = 0 then none
      else (placeHead c ((L - 1) / c.n) ((L - 1) % c.n) s).bind (placeTail c ((L - 1) / c.n)) := by
  unfold getChild placeHead
  by_cases hL : L = 0 ∨ c.n = 0
  · simp only [hL, if_true]
  · simp only [hL, if_false, if_true, Option.bind_eq_bind, Option.pure_def]
    cases hx : s[(L - 1) / c.n]? with
    | none => rfl
    | some x =>
      simp only [Option.some_bind]
      cases ht : hasBit x ((L - 1) % c.n) with
      | none => rfl
      | some t =>
        simp only [Option.some_bind]
        cases t
        · rfl
        · simp only [Bool.not_true, Bool.false_eq_true, if_false]
          cases hp : placeLoop c ((L - 1) / c.n) ((L - 1) % c.n) ((L - 1) / c.n) s 0 with
          | none => rfl
          | some v =>
            obtain ⟨bm, r⟩ := v
            simp only [Option.some_bind]
            cases r with
            | none => rfl
            | some total =>
              dsimp only
              by_cases h0 : (L - 1) / c.n = 0
              · simp only [h0, if_true, Option.some_bind, placeTail]
              · simp only [h0, if_false]
                by_cases h1 : popcount total < (L - 1) / c.n
                · simp only [h1, if_true, Option.some_bind, placeTail]
                · simp only [h1, if_false]
                  by_cases h2 : (L - 1) / c.n < bm.length
                  · simp only [h2, if_true, Option.some_bind, placeTail]
                  · simp only [h2, if_false, Option.none_bind]

theorem placeHead_eq (c : Spec) (s : State) (i j : Nat) (hi : i < s.length) (hj : j < c.n)
    (hn : c.n ≤ 32) (hbit : (row s i).testBit j = true) :
    placeHead c i j s =
      match trialP c i j i s 0 with
      | none => some (Sum.inl ((placeP c i j i s 0).1, 0))
      | some total =>
        if i = 0 then some (Sum.inl ((placeP c i j i s 0).1, -1))
        else if popcount total < i then some (Sum.inl ((placeP c i j i s 0).1, 0))
        else some (Sum.inr (afterPlace c i j s)) := by
  simp only [placeHead, getElem?_eq_row s i hi, hasBit_eq _ _ (show j < 32 by omega), hbit,
    Bool.not_true, Bool.false_eq_true, if_false, placeLoop_eq c i j hj hn i s 0 (by omega),
    Option.bind_eq_bind, Option.some_bind, Option.pure_def, placeP_length, hi, if_true,
    afterPlace]
  rw [← placeP_snd]

theorem trialLoop_set_ge (c : Spec) (i j : Nat) :
    ∀ (k : Nat) (s : State) (t p y : Nat), k ≤ p →
      trialLoop c i j k (s.set p y) t = trialLoop c i j k s t := by
  intro k
  induction k with
  | zero => intro s t p y _; rfl
  | succ k ih =>
    intro s t p y hk
    have hne : p ≠ k := by omega
    simp only [trialLoop, List.getElem?_set_ne hne, Option.bind_eq_bind, Option.pure_def]
    cases s[k]? with
    | none => rfl
    | some x =>
      simp only [Option.some_bind]
      cases elimRow c.rookOnly c.n i j k x with
      | none => rfl
      | some y1 =>
        simp only [Option.some_bind]
        split
        · rfl
        · exact ih s _ p y (by omega)

theorem placeLoop_of_trialLoop (c : Spec) (i j : Nat) :
    ∀ (k : Nat) (s : State) (t0 t : Nat), trialLoop c i j k s t0 = some (some t) →
      ∃ bm, placeLoop c i j k s t0 = some (bm, some t) ∧ bm.length = s.length := by
  intro k
  induction k with
  | zero =>
    intro s t0 t h
    simp only [trialLoop, Option.some.injEq] at h
    exact ⟨s, by simp [placeLoop, h], rfl⟩
  | succ k ih =>
    intro s t0 t h
    simp only [trialLoop, Option.bind_eq_bind, Option.bind_eq_some, Option.pure_def] at h
    obtain ⟨x, hx, y, hy, h⟩ := h
    by_cases h0 : y = 0
    · simp [h0] at h
    · simp only [h0, if_false] at h
      rw [← trialLoop_set_ge c i j k s _ k y (Nat.le_refl k)] at h
      obtain ⟨bm, hbm, hl⟩ := ih _ _ _ h
      refine ⟨bm, ?_, by rw [hl]; simp⟩
      simp only [placeLoop, hx, hy, h0, if_false, Option.bind_eq_bind, Option.some_bind,
        Option.pure_def]
      exact hbm

theorem placeHead_of_takable (c : Spec) (s : State) (i j : Nat)
    (h : takable c i j s = some true) :
    ∃ v, placeHead c i j s = some v ∧ (∀ s1, v ≠ Sum.inl (s1, 0)) := by
  simp only [takable, Option.bind_eq_bind, Option.bind_eq_some, Option.pure_def] at h
  obtain ⟨x, hx, t, ht, h⟩ := h
  have hi := (getElem?_some_row hx).2
  cases t with
  | false => simp at h
  | true =>
    simp only [if_true, Option.bind_eq_some] at h
    obtain ⟨r, hr, h⟩ := h
    cases r with
    | none => simp at h
    | some total =>
      simp only [Option.some.injEq, decide_eq_true_eq] at h
      obtain ⟨bm, hbm, hl⟩ := placeLoop_of_trialLoop c i j i s 0 total hr
      by_cases h0 : i = 0
      · subst h0
        refine ⟨Sum.inl (bm, -1), ?_, fun s1 => by simp⟩
        simp only [placeHead, hx, ht, hbm, Option.bind_eq_bind, Option.some_bind,
          Option.pure_def, Bool.not_true, Bool.false_eq_true, if_false, if_true]
      · refine ⟨Sum.inr (bm.set i 0), ?_, fun s1 => by simp⟩
        have h1 : ¬ popcount total < i := by omega
        have h2 : i < bm.length := by omega
        simp only [placeHead, hx, ht, hbm, h0, h1, h2, Option.bind_eq_bind, Option.some_bind,
          Option.pure_def, Bool.not_true, Bool.false_eq_true, if_false, if_true]

theorem scan_takable (c : Spec) :
    ∀ (L : Nat) (s s1 : State) (r : Int), scan c L s = some (s1, r) → 1 ≤ r →
      takable c ((r.toNat - 1) / c.n) ((r.toNat - 1) % c.n) s1 = some true := by
  intro L
  induction L with
  | zero => intro s s1 r h; simp [scan] at h
  | succ L ih =>
    intro s s1 r h hr
    unfold scan at h
    split at h
    · exact absurd h (by simp)
    · simp only [Option.bind_eq_bind, Option.bind_eq_some, Option.pure_def] at h
      obtain ⟨stop, hstop, h⟩ := h
      cases stop with
      | true =>
        simp only [if_true, Option.some.injEq, Prod.mk.injEq] at h
        obtain ⟨rfl, rfl⟩ := h
        simpa using hstop
      | false =>
        simp only [Bool.false_eq_true, if_false, Option.bind_eq_some] at h
        obtain ⟨x, _, y, _, h⟩ := h
        split at h
        · simp only [Option.some.injEq, Prod.mk.injEq] at h
          omega
        · exact ih _ _ _ h hr

theorem getChild_takable (c : Spec) (s s1 : State) (L : Nat) (b : Bool) (r : Int)
    (h : getChild c s L b = some (s1, r)) (hr : 1 ≤ r) :
    takable c ((r.toNat - 1) / c.n) ((r.toNat - 1) % c.n) s1 = some true := by
  cases b
  · obtain ⟨_, h⟩ := getChild_skip_some h
    split at h
    · simp only [Prod.mk.injEq] at h
      omega
    · obtain ⟨_, _, h⟩ := h
      split at h
      · simp only [Prod.mk.injEq] at h
        omega
      · exact scan_takable c _ _ _ _ h.2 hr
  · obtain ⟨_, _, _, h⟩ := getChild_place_some h
    split at h
    · simp only [Prod.mk.injEq] at h
      omega
    · split at h
      · simp only [Prod.mk.injEq] at h
        omega
      · split at h
        · simp only [Prod.mk.injEq] at h
          omega
        · split at h
          · simp only [Prod.mk.injEq] at h
            omega
          · exact scan_takable c _ _ _ _ h hr

/-- C16 (the trial of the scan agrees with the place branch, plain variant,
either mode, `n ≤ 31`).  `placeHead` is the place branch up to the start of its
scan and `getChild` on the place branch is `placeHead` followed by the scan.
For every state and every cell `(i, j)` of the board whose bit is set in row
`i`, the trial of the scan and `placeHead` are both defined, and the trial
accepts the cell if and only if `placeHead` does not return `0`; it then
returns `-1` when `i = 0` and otherwise reaches the reset of row `i`.
Consequently, whenever `getChild` returns a non-terminal level with a state,
`placeHead` at that level on that state does not return `0`. -/
theorem trial_agrees_with_place (c : Spec) (hn : c.n ≤ 31) :
    (∀ (s : State) (L : Nat), getChild c s L true =
      if L = 0 ∨ c.n = 0 then none
      else (placeHead c ((L - 1) / c.n) ((L - 1) % c.n) s).bind
        (placeTail c ((L - 1) / c.n))) ∧
    (∀ (s : State) (i j : Nat), i < s.length → j < c.n → (row s i).testBit j = true →
      ∃ tk v, takable c i j s = some tk ∧ placeHead c i j s = some v ∧
        (tk = true ↔ ∀ s1, v ≠ Sum.inl (s1, 0)) ∧
        (tk = true → (i = 0 ∧ v = Sum.inl (s, -1)) ∨ (1 ≤ i ∧ ∃ s2, v = Sum.inr s2))) ∧
    (∀ (s s1 : State) (L : Nat) (b : Bool) (r : Int),
      getChild c s L b = some (s1, r) → 1 ≤ r →
      ∃ v, placeHead c ((r.toNat - 1) / c.n) ((r.toNat - 1) % c.n) s1 = some v ∧
        ∀ s2, v ≠ Sum.inl (s2, 0)) := by
  refine ⟨getChild_place_eq_head c, fun s i j hi hj hbit => ?_, fun s s1 L b r h hr =>
    placeHead_of_takable c s1 _ _ (getChild_takable c s s1 L b r h hr)⟩
  have htk := takable_eq c i j s hi hj (by omega)
  have hph := placeHead_eq c s i j hi hj (by omega) hbit
  unfold takableP at htk
  rw [hbit] at htk
  cases ht : trialP c i j i s 0 with
  | none =>
    rw [ht] at htk hph
    refine ⟨false, _, by simpa using htk, hph, ?_, fun h => absurd h (by simp)⟩
    exact ⟨fun h => absurd h (by simp), fun h => absurd rfl (h _)⟩
  | some total =>
    rw [ht] at htk hph
    dsimp only at htk hph
    by_cases h0 : i = 0
    · subst h0
      rw [if_pos rfl] at hph
      refine ⟨true, _, by simpa using htk, hph, ⟨fun _ s1 => by simp, fun _ => rfl⟩,
        fun _ => Or.inl ⟨rfl, rfl⟩⟩
    · rw [if_neg h0] at hph
      by_cases h1 : popcount total < i
      · rw [if_pos h1] at hph
        refine ⟨false, _, ?_, hph, ?_, fun h => absurd h (by simp)⟩
        · rw [htk]
          simp only [Bool.true_and, Option.some.injEq, decide_eq_false_iff_not]
          omega
        · exact ⟨fun h => absurd h (by simp), fun h => absurd rfl (h _)⟩
      · rw [if_neg h1] at hph
        refine ⟨true, _, ?_, hph, ⟨fun _ s1 => by simp, fun _ => rfl⟩,
          fun _ => Or.inr ⟨by omega, _, rfl⟩⟩
        rw [htk]
        simp only [Bool.true_and, Option.some.injEq, decide_eq_true_eq]
        omega

/-- Instance of C16: the trial at the top cell of the 4-queens root, and the
level returned by the place branch at the root. -/
theorem trial_agrees_with_place_witness :
    (∃ tk v, takable (Spec.unrestricted false 4) 3 3 [15, 15, 15, 15] = some tk ∧
        placeHead (Spec.unrestricted false 4) 3 3 [15, 15, 15, 15] = some v ∧
        (tk = true ↔ ∀ s1, v ≠ Sum.inl (s1, 0)) ∧
        (tk = true → (3 = 0 ∧ v = Sum.inl ([15, 15, 15, 15], -1)) ∨
          (1 ≤ 3 ∧ ∃ s2, v = Sum.inr s2))) ∧
    (∃ v, placeHead (Spec.unrestricted false 4)
        (((9 : Int).toNat - 1) / (Spec.unrestricted false 4).n)
        (((9 : Int).toNat - 1) % (Spec.unrestricted false 4).n) [6, 5, 1, 0] = some v ∧
      ∀ s2, v ≠ Sum.inl (s2, 0)) :=
  ⟨(trial_agrees_with_place (Spec.unrestricted false 4) (by decide)).2.1 [15, 15, 15, 15] 3 3
      (by decide) (by decide) (by decide),
   (trial_agrees_with_place (Spec.unrestricted false 4) (by decide)).2.2 [15, 15, 15, 15]
      [6, 5, 1, 0] 16 true 9 (by decide) (by decide)⟩

theorem fullMask_val (n : Nat) (hn : n < 32) : fullMask n = some (2 ^ n - 1) := by
  obtain ⟨m, hm, hb⟩ := fullMask_eq n hn
  rw [hm]
  congr 1
  apply Nat.eq_of_testBit_eq
  intro q
  rw [hb q, Nat.testBit_two_pow_sub_one]

/-! ### Known values -/

/-- C3 (known values, small queen boards): for `NQueenZdd(n)` the number of
branch sequences from the root that end with `getChild` returning `-1` is `1`
for `n = 1`, `0` for `n = 2` and `n = 3`, and `2` for `n = 4`. -/
theorem queens_small_counts :
    PathCount (Spec.unrestricted false 1) 1 ∧ PathCount (Spec.unrestricted false 2) 0 ∧
      PathCount (Spec.unrestricted false 3) 0 ∧ PathCount (Spec.unrestricted false 4) 2 :=
  ⟨pathCount_of_rootPaths _ _ (by decide!), pathCount_of_rootPaths _ _ (by decide!),
   pathCount_of_rootPaths _ _ (by decide!), pathCount_of_rootPaths _ _ (by decide!)⟩

/-! The tree of branch sequences of the 8-queens diagram is explored in parts:
`queens8_` followed by the choices made from the root (`s` for the skip branch,
`p` for the place branch) counts the accepted sequences that start with these
choices. -/

theorem queens8_ssssssss :
    PathsWith queens8 [false, false, false, false, false, false, false, false] 0 :=
  pathsWith_leaf _ 65 _ _ (by decide!)

theorem queens8_ssssssspsss :
    PathsWith queens8 [false, false, false, false, false, false, false, true, false, false, false]
      1 :=
  pathsWith_leaf _ 65 _ _ (by decide!)

theorem queens8_ssssssspssp :
    PathsWith queens8 [false, false, false, false, false, false, false, true, false, false, true]
      1 :=
  pathsWith_leaf _ 65 _ _ (by decide!)

theorem queens8_ssssssspss :
    PathsWith queens8 [false, false, false, false, false, false, false, true, false, false] 2 :=
  PathsWith.split _ _ 1 1 queens8_ssssssspsss queens8_ssssssspssp (by decide)

theorem queens8_ssssssspsp :
    PathsWith queens8 [false, false, false, false, false, false, false, true, false, true] 2 :=
  pathsWith_leaf _ 65 _ _ (by decide!)

theorem queens8_sssssssps :
    PathsWith queens8 [false, false, false, false, false, false, false, true, false] 4 :=
  PathsWith.split _ _ 2 2 queens8_ssssssspss queens8_ssssssspsp (by decide)

theorem queens8_ssssssspp :
    PathsWith queens8 [false, false, false, false, false, false, false, true, true] 0 :=
  pathsWith_leaf _ 65 _ _ (by decide!)

theorem queens8_sssssssp :
    PathsWith queens8 [false, false, false, false, false, false, false, true] 4 :=
  PathsWith.split _ _ 4 0 queens8_sssssssps queens8_ssssssspp (by decide)

theorem queens8_sssssss :
    PathsWith queens8 [false, false, false, false, false, false, false] 4 :=
  PathsWith.split _ _ 0 4 queens8_ssssssss queens8_sssssssp (by decide)

theorem queens8_sssssspssss :
    PathsWith queens8 [false, false, false, false, false, false, true, false, false, false, false]
      1 :=
  pathsWith_leaf _ 65 _ _ (by decide!)

theorem queens8_sssssspsssp :
    PathsWith queens8 [false, false, false, false, false, false, true, false, false, false, true]
      2 :=
  pathsWith_leaf _ 65 _ _ (by decide!)

theorem queens8_sssssspsss :
    PathsWith queens8 [false, false, false, false, false, false, true, false, false, false] 3 :=
  PathsWith.split _ _ 1 2 queens8_sssssspssss queens8_sssssspsssp (by decide)

theorem queens8_sssssspssp :
    PathsWith queens8 [false, false, false, false, false, false, true, false, false, true] 2 :=
  pathsWith_leaf _ 65 _ _ (by decide!)

theorem queens8_sssssspss :
    PathsWith queens8 [false, false, false, false, false, false, true, false, false] 5 :=
  PathsWith.split _ _ 3 2 queens8_sssssspsss queens8_sssssspssp (by decide)

theorem queens8_sssssspsp :
    PathsWith queens8 [false, false, false, false, false, false, true, false, true] 2 :=
  pathsWith_leaf _ 65 _ _ (by decide!)

theorem queens8_ssssssps :
    PathsWith queens8 [false, false, false, false, false, false, true, false] 7 :=
  PathsWith.split _ _ 5 2 queens8_sssssspss queens8_sssssspsp (by decide)

theorem queens8_sssssspp :
    PathsWith queens8 [false, false, false, false, false, false, true, true] 1 :=
  pathsWith_leaf _ 65 _ _ (by decide!)

theorem queens8_ssssssp :
    PathsWith queens8 [false, false, false, false, false, false, true] 8 :=
  PathsWith.split _ _ 7 1 queens8_ssssssps queens8_sssssspp (by decide)

theorem queens8_ssssss :
    PathsWith queens8 [false, false, false, false, false, false] 12 :=
  PathsWith.split _ _ 4 8 queens8_sssssss queens8_ssssssp (by decide)

theorem queens8_ssssspssss :
    PathsWith queens8 [false, false, false, false, false, true, false, false, false, false] 1 :=
  pathsWith_leaf _ 65 _ _ (by decide!)

theorem queens8_ssssspsssp :
    PathsWith queens8 [false, false, false, false, false, true, false, false, false, true] 4 :=
  pathsWith_leaf _ 65 _ _ (by decide!)

theorem queens8_ssssspsss :
    PathsWith queens8 [false, false, false, false, false, true, false, false, false] 5 :=
  PathsWith.split _ _ 1 4 queens8_ssssspssss queens8_ssssspsssp (by decide)

theorem queens8_ssssspssp :
    PathsWith queens8 [false, false, false, false, false, true, false, false, true] 8 :=
  pathsWith_leaf _ 65 _ _ (by decide!)

theorem queens8_ssssspss :
    PathsWith queens8 [false, false, false, false, false, true, false, false] 13 :=
  PathsWith.split _ _ 5 8 queens8_ssssspsss queens8_ssssspssp (by decide)

theorem queens8_ssssspsp :
    PathsWith queens8 [false, false, false, false, false, true, false, true] 2 :=
  pathsWith_leaf _ 65 _ _ (by decide!)

theorem queens8_sssssps :
    PathsWith queens8 [false, false, false, false, false, true, false] 15 :=
  PathsWith.split _ _ 13 2 queens8_ssssspss queens8_ssssspsp (by decide)

theorem queens8_ssssspp :
    PathsWith queens8 [false, false, false, false, false, true, true] 1 :=
  pathsWith_leaf _ 65 _ _ (by decide!)

theorem queens8_sssssp :
    PathsWith queens8 [false, false, false, false, false, true] 16 :=
  PathsWith.split _ _ 15 1 queens8_sssssps queens8_ssssspp (by decide)

theorem queens8_sssss :
    PathsWith queens8 [false, false, false, false, false] 28 :=
  PathsWith.split _ _ 12 16 queens8_ssssss queens8_sssssp (by decide)

theorem queens8_sssspssss :
    PathsWith queens8 [false, false, false, false, true, false, false, false, false] 2 :=
  pathsWith_leaf _ 65 _ _ (by decide!)

theorem queens8_sssspsssp :
    PathsWith queens8 [false, false, false, false, true, false, false, false, true] 6 :=
  pathsWith_leaf _ 65 _ _ (by decide!)

theorem queens8_sssspsss :
    PathsWith queens8 [false, false, false, false, true, false, false, false] 8 :=
  PathsWith.split _ _ 2 6 queens8_sssspssss queens8_sssspsssp (by decide)

theorem queens8_sssspssp :
    PathsWith queens8 [false, false, false, false, true, false, false, true] 3 :=
  pathsWith_leaf _ 65 _ _ (by decide!)

theorem queens8_sssspss :
    PathsWith queens8 [false, false, false, false, true, false, false] 11 :=
  PathsWith.split _ _ 8 3 queens8_sssspsss queens8_sssspssp (by decide)

theorem queens8_sssspsp :
    PathsWith queens8 [false, false, false, false, true, false, true] 4 :=
  pathsWith_leaf _ 65 _ _ (by decide!)

theorem queens8_ssssps :
    PathsWith queens8 [false, false, false, false, true, false] 15 :=
  PathsWith.split _ _ 11 4 queens8_sssspss queens8_sssspsp (by decide)

theorem queens8_sssspp :
    PathsWith queens8 [false, false, false, false, true, true] 3 :=
  pathsWith_leaf _ 65 _ _ (by decide!)

theorem queens8_ssssp :
    PathsWith queens8 [false, false, false, false, true] 18 :=
  PathsWith.split _ _ 15 3 queens8_ssssps queens8_sssspp (by decide)

theorem queens8_ssss :
    PathsWith queens8 [false, false, false, false] 46 :=
  PathsWith.split _ _ 28 18 queens8_sssss queens8_ssssp (by decide)

theorem queens8_ssspssss :
    PathsWith queens8 [false, false, false, true, false, false, false, false] 3 :=
  pathsWith_leaf _ 65 _ _ (by decide!)

theorem queens8_ssspsssp :
    PathsWith queens8 [false, false, false, true, false, false, false, true] 4 :=
  pathsWith_leaf _ 65 _ _ (by decide!)

theorem queens8_ssspsss :
    PathsWith queens8 [false, false, false, true, false, false, false] 7 :=
  PathsWith.split _ _ 3 4 queens8_ssspssss queens8_ssspsssp (by decide)

theorem queens8_ssspssp :
    PathsWith queens8 [false, false, false, true, false, false, true] 3 :=
  pathsWith_leaf _ 65 _ _ (by decide!)

theorem queens8_ssspss :
    PathsWith queens8 [false, false, false, true, false, false] 10 :=
  PathsWith.split _ _ 7 3 queens8_ssspsss queens8_ssspssp (by decide)

theorem queens8_ssspsp :
    PathsWith queens8 [false, false, false, true, false, true] 6 :=
  pathsWith_leaf _ 65 _ _ (by decide!)

theorem queens8_sssps :
    PathsWith queens8 [false, false, false, true, false] 16 :=
  PathsWith.split _ _ 10 6 queens8_ssspss queens8_ssspsp (by decide)

theorem queens8_ssspp :
    PathsWith queens8 [false, false, false, true, true] 2 :=
  pathsWith_leaf _ 65 _ _ (by decide!)

theorem queens8_sssp :
    PathsWith queens8 [false, false, false, true] 18 :=
  PathsWith.split _ _ 16 2 queens8_sssps queens8_ssspp (by decide)

theorem queens8_sss :
    PathsWith queens8 [false, false, false] 64 :=
  PathsWith.split _ _ 46 18 queens8_ssss queens8_sssp (by decide)

theorem queens8_sspsss :
    PathsWith queens8 [false, false, true, false, false, false] 3 :=
  pathsWith_leaf _ 65 _ _ (by decide!)

theorem queens8_sspssp :
    PathsWith queens8 [false, false, true, false, false, true] 8 :=
  pathsWith_leaf _ 65 _ _ (by decide!)

theorem queens8_sspss :
    PathsWith queens8 [false, false, true, false, false] 11 :=
  PathsWith.split _ _ 3 8 queens8_sspsss queens8_sspssp (by decide)

theorem queens8_sspsp :
    PathsWith queens8 [false, false, true, false, true] 4 :=
  pathsWith_leaf _ 65 _ _ (by decide!)

theorem queens8_ssps :
    PathsWith queens8 [false, false, true, false] 15 :=
  PathsWith.split _ _ 11 4 queens8_sspss queens8_sspsp (by decide)

theorem queens8_sspp :
    PathsWith queens8 [false, false, true, true] 1 :=
  pathsWith_leaf _ 65 _ _ (by decide!)

theorem queens8_ssp :
    PathsWith queens8 [false, false, true] 16 :=
  PathsWith.split _ _ 15 1 queens8_ssps queens8_sspp (by decide)

theorem queens8_ss :
    PathsWith queens8 [false, false] 80 :=
  PathsWith.split _ _ 64 16 queens8_sss queens8_ssp (by decide)

theorem queens8_spssss :
    PathsWith queens8 [false, true, false, false, false, false] 1 :=
  pathsWith_leaf _ 65 _ _ (by decide!)

theorem queens8_spsssp :
    PathsWith queens8 [false, true, false, false, false, true] 2 :=
  pathsWith_leaf _ 65 _ _ (by decide!)

theorem queens8_spsss :
    PathsWith queens8 [false, true, false, false, false] 3 :=
  PathsWith.split _ _ 1 2 queens8_spssss queens8_spsssp (by decide)

theorem queens8_spssp :
    PathsWith queens8 [false, true, false, false, true] 2 :=
  pathsWith_leaf _ 65 _ _ (by decide!)

theorem queens8_spss :
    PathsWith queens8 [false, true, false, false] 5 :=
  PathsWith.split _ _ 3 2 queens8_spsss queens8_spssp (by decide)

theorem queens8_spsp :
    PathsWith queens8 [false, true, false, true] 2 :=
  pathsWith_leaf _ 65 _ _ (by decide!)

theorem queens8_sps :
    PathsWith queens8 [false, true, false] 7 :=
  PathsWith.split _ _ 5 2 queens8_spss queens8_spsp (by decide)

theorem queens8_spp :
    PathsWith queens8 [false, true, true] 1 :=
  pathsWith_leaf _ 65 _ _ (by decide!)

theorem queens8_sp :
    PathsWith queens8 [false, true] 8 :=
  PathsWith.split _ _ 7 1 queens8_sps queens8_spp (by decide)

theorem queens8_s :
    PathsWith queens8 [false] 88 :=
  PathsWith.split _ _ 80 8 queens8_ss queens8_sp (by decide)

theorem queens8_pssss :
    PathsWith queens8 [true, false, false, false, false] 2 :=
  pathsWith_leaf _ 65 _ _ (by decide!)

theorem queens8_psssp :
    PathsWith queens8 [true, false, false, false, true] 1 :=
  pathsWith_leaf _ 65 _ _ (by decide!)

theorem queens8_psss :
    PathsWith queens8 [true, false, false, false] 3 :=
  PathsWith.split _ _ 2 1 queens8_pssss queens8_psssp (by decide)

theorem queens8_pssp :
    PathsWith queens8 [true, false, false, true] 1 :=
  pathsWith_leaf _ 65 _ _ (by decide!)

theorem queens8_pss :
    PathsWith queens8 [true, false, false] 4 :=
  PathsWith.split _ _ 3 1 queens8_psss queens8_pssp (by decide)

theorem queens8_psp :
    PathsWith queens8 [true, false, true] 0 :=
  pathsWith_leaf _ 65 _ _ (by decide!)

theorem queens8_ps :
    PathsWith queens8 [true, false] 4 :=
  PathsWith.split _ _ 4 0 queens8_pss queens8_psp (by decide)

theorem queens8_pp :
    PathsWith queens8 [true, true] 0 :=
  pathsWith_leaf _ 65 _ _ (by decide!)

theorem queens8_p :
    PathsWith queens8 [true] 4 :=
  PathsWith.split _ _ 4 0 queens8_ps queens8_pp (by decide)

theorem queens8_root :
    PathsWith queens8 [] 92 :=
  PathsWith.split _ _ 88 4 queens8_s queens8_p (by decide)


/-- C4 (known value, 8 queens): for `NQueenZdd(8)` the number of branch
sequences from the root that end with `getChild` returning `-1` is exactly 92. -/
theorem queens_eight_count : PathCount (Spec.unrestricted false 8) 92 :=
  PathsWith.root queens8_root

/-- C5 (known values, rook mode, `n = 4`): `NRookZdd(4)` has 24 accepted branch
sequences; for every `firstCol` in `0..3`, `NRookZdd(4, firstCol)` has root
level `16 - firstCol`, its skip branch at the root returns `0` with the state
unchanged, and it has 6 accepted branch sequences. -/
theorem rooks_four_counts :
    PathCount (Spec.unrestricted true 4) 24 ∧
    (getRoot (Spec.restricted true 4 0) [0, 0, 0, 0] = some ([15, 15, 15, 15], 16) ∧
      getChild (Spec.restricted true 4 0) [15, 15, 15, 15] 16 false =
        some ([15, 15, 15, 15], 0) ∧
      PathCount (Spec.restricted true 4 0) 6) ∧
    (getRoot (Spec.restricted true 4 1) [0, 0, 0, 0] = some ([15, 15, 15, 15], 15) ∧
      getChild (Spec.restricted true 4 1) [15, 15, 15, 15] 15 false =
        some ([15, 15, 15, 15], 0) ∧
      PathCount (Spec.restricted true 4 1) 6) ∧
    (getRoot (Spec.restricted true 4 2) [0, 0, 0, 0] = some ([15, 15, 15, 15], 14) ∧
      getChild (Spec.restricted true 4 2) [15, 15, 15, 15] 14 false =
        some ([15, 15, 15, 15], 0) ∧
      PathCount (Spec.restricted true 4 2) 6) ∧
    (getRoot (Spec.restricted true 4 3) [0, 0, 0, 0] = some ([15, 15, 15, 15], 13) ∧
      getChild (Spec.restricted true 4 3) [15, 15, 15, 15] 13 false =
        some ([15, 15, 15, 15], 0) ∧
      PathCount (Spec.restricted true 4 3) 6) :=
  ⟨pathCount_of_rootPaths _ _ (by decide!),
   ⟨by decide, by decide, pathCount_of_rootPaths _ _ (by decide!)⟩,
   ⟨by decide, by decide, pathCount_of_rootPaths _ _ (by decide!)⟩,
   ⟨by decide, by decide, pathCount_of_rootPaths _ _ (by decide!)⟩,
   ⟨by decide, by decide, pathCount_of_rootPaths _ _ (by decide!)⟩⟩


end NQueen

namespace ColoredNQueen

open NQueen

/-! ### Monotonicity of the coloured variant -/

theorem sub_set_of_getElem (s : State) (i x y : Nat) (hx : s[i]? = some x)
    (h : ∀ q, y.testBit q = true → x.testBit q = true) : Sub (s.set i y) s := by
  obtain ⟨rfl, _⟩ := getElem?_some_row hx
  exact Sub.set s i y h

theorem coloredPlaceLoop_sub (c : Spec) (i j k : Nat) :
    ∀ (ii : Nat) (s s1 : State) (t : Nat) (r : Option Nat),
      placeLoop c i j k ii s t = some (s1, r) → Sub s1 s := by
  intro ii
  induction ii with
  | zero =>
    intro s s1 t r h
    simp only [placeLoop, Option.some.injEq, Prod.mk.injEq] at h
    rw [← h.1]
    exact Sub.refl s
  | succ ii ih =>
    intro s s1 t r h
    simp only [placeLoop, Option.bind_eq_bind, Option.bind_eq_some, Option.pure_def] at h
    obtain ⟨x, hx, y, hy, h⟩ := h
    have hs : Sub (s.set (ii * c.n + k) y) s :=
      sub_set_of_getElem s _ x y hx (fun q hq => by
        rw [elimRow_some hy] at hq
        exact testBit_elimRowP_imp _ _ _ _ _ _ _ hq)
    split at h
    · simp only [Option.some.injEq, Prod.mk.injEq] at h
      rw [← h.1]
      exact hs
    · exact (ih _ _ _ _ h).trans hs

theorem clearSiblings_sub (c : Spec) (i j : Nat) :
    ∀ (kk : Nat) (s s1 : State), clearSiblings c i j kk s = some s1 → Sub s1 s := by
  intro kk
  induction kk with
  | zero =>
    intro s s1 h
    simp only [clearSiblings, Option.some.injEq] at h
    rw [← h]
    exact Sub.refl s
  | succ kk ih =>
    intro s s1 h
    simp only [clearSiblings, Option.bind_eq_bind, Option.bind_eq_some] at h
    obtain ⟨x, hx, y, hy, h⟩ := h
    have hs : Sub (s.set (i * c.n + kk) y) s :=
      sub_set_of_getElem s _ x y hx (fun q hq => by
        rw [(clearBit_some hy).1] at hq
        exact testBit_clearBitP_imp _ _ _ hq)
    exact (ih _ _ h).trans hs

theorem coloredScan_sub (c : Spec) :
    ∀ (L : Nat) (s s1 : State) (r : Int), scan c L s = some (s1, r) → Sub s1 s := by
  intro L
  induction L with
  | zero => intro s s1 r h; simp [scan] at h
  | succ L ih =>
    intro s s1 r h
    unfold scan at h
    split at h
    · exact absurd h (by simp)
    · simp only [Option.bind_eq_bind, Option.bind_eq_some, Option.pure_def] at h
      obtain ⟨stop, _, h⟩ := h
      split at h
      · simp only [Option.some.injEq, Prod.mk.injEq] at h
        rw [← h.1]
        exact Sub.refl s
      · simp only [Option.bind_eq_some] at h
        obtain ⟨x, hx, y, hy, h⟩ := h
        have hs : Sub (s.set ((L - 1) / c.m * c.n + (L - 1) % c.m % c.n) y) s :=
          sub_set_of_getElem s _ x y hx (fun q hq => by
            rw [(clearBit_some hy).1] at hq
            exact testBit_clearBitP_imp _ _ _ hq)
        split at h
        · simp only [Option.some.injEq, Prod.mk.injEq] at h
          rw [← h.1]
          exact hs
        · exact (ih _ _ _ h).trans hs

/-- C7, as the code has it (monotonicity of the coloured variant up to the
marker of a resolved slot): whenever a call of
`ColoredNQueenZddBase::getChild` has a result, the state keeps its length and
every bit set in a bitmap of the output state was set in the same bitmap of the
input state, except possibly bit `n - 1` of the bitmap of the (row, colour)
slot of the level on the place branch, where the code stores `bit(n - 1)`. -/
theorem colored_bits_kept_except_marker (c : Spec) (s s1 : State) (L : Nat) (b : Bool)
    (r : Int) (h : getChild c s L b = some (s1, r)) :
    s1.length = s.length ∧
      ∀ p q, (row s1 p).testBit q = true →
        (row s p).testBit q = true ∨
          (b = true ∧ p = (L - 1) / c.m * c.n + (L - 1) % c.m % c.n ∧ q = c.n - 1) := by
  unfold getChild at h
  split at h
  · exact absurd h (by simp)
  · cases b
    · simp only [Bool.false_eq_true, if_false, Option.bind_eq_bind, Option.bind_eq_some,
        Option.pure_def] at h
      obtain ⟨x, hx, y, hy, h⟩ := h
      have hs : Sub (s.set ((L - 1) / c.m * c.n + (L - 1) % c.m % c.n) y) s :=
        sub_set_of_getElem s _ x y hx (fun q hq => by
          rw [(clearBit_some hy).1] at hq
          exact testBit_clearBitP_imp _ _ _ hq)
      have hsub : Sub s1 s := by
        split at h
        · simp only [Option.some.injEq, Prod.mk.injEq] at h
          rw [← h.1]
          exact hs
        · split at h
          · exact absurd h (by simp)
          · exact (coloredScan_sub c _ _ _ _ h).trans hs
      exact ⟨hsub.1, fun p q hq => Or.inl (hsub.2 p q hq)⟩
    · simp only [if_true, Option.bind_eq_bind, Option.bind_eq_some, Option.pure_def] at h
      obtain ⟨x, hx, t, ht, h⟩ := h
      split at h
      · simp only [Option.some.injEq, Prod.mk.injEq] at h
        rw [← h.1]
        exact ⟨rfl, fun p q hq => Or.inl hq⟩
      · simp only [Option.bind_eq_some] at h
        obtain ⟨⟨s2, r2⟩, hp, h⟩ := h
        have hs2 := coloredPlaceLoop_sub c _ _ _ _ _ _ _ _ hp
        have hfin : ∀ s0, s0 = s2 → r = 0 ∨ r = -1 → s1 = s0 →
            s1.length = s.length ∧ ∀ p q, (row s1 p).testBit q = true →
              (row s p).testBit q = true ∨
                (true = true ∧ p = (L - 1) / c.m * c.n + (L - 1) % c.m % c.n ∧
                  q = c.n - 1) := by
          intro s0 h0 _ h1
          rw [h1, h0]
          exact ⟨hs2.1, fun p q hq => Or.inl (hs2.2 p q hq)⟩
        cases r2 with
        | none =>
          simp only [Option.some.injEq, Prod.mk.injEq] at h
          exact hfin s2 rfl (Or.inl h.2.symm) h.1.symm
        | some total =>
          dsimp only at h
          split at h
          · simp only [Option.some.injEq, Prod.mk.injEq] at h
            exact hfin s2 rfl (Or.inl h.2.symm) h.1.symm
          · split at h
            · simp only [Option.some.injEq, Prod.mk.injEq] at h
              exact hfin s2 rfl (Or.inr h.2.symm) h.1.symm
            · simp only [Option.bind_eq_some] at h
              obtain ⟨v, hv, h⟩ := h
              split at h
              · simp only [Option.bind_eq_some] at h
                obtain ⟨s3, h3, h⟩ := h
                have hs3 := clearSiblings_sub c _ _ _ _ _ h3
                have hs4 := (coloredScan_sub c _ _ _ _ h).trans hs3
                have hv1 : v = 1 <<< (c.n - 1) := by
                  unfold bit at hv
                  split at hv
                  · simpa using hv.symm
                  · exact absurd hv (by simp)
                refine ⟨by rw [hs4.1, List.length_set, hs2.1], fun p q hq => ?_⟩
                have h5 := hs4.2 p q hq
                by_cases hpe : p = (L - 1) / c.m * c.n + (L - 1) % c.m % c.n
                · rw [hpe] at h5
                  rw [row_set_self _ _ _ (by assumption), hv1, Nat.one_shiftLeft,
                    Nat.testBit_two_pow] at h5
                  exact Or.inr ⟨rfl, hpe, (of_decide_eq_true h5).symm⟩
                · rw [row_set_ne _ _ _ _ hpe] at h5
                  exact Or.inl (hs2.2 p q h5)
              · exact absurd h (by simp)

/-- Instance of C7 as amended: the second place branch of the coloured 2-rooks
diagram. -/
theorem colored_bits_kept_except_marker_witness :
    getChild ⟨true, 2⟩ [3, 1, 1, 2] 5 true = some ([2, 1, 2, 2], 3) ∧
      ([2, 1, 2, 2] : State).length = ([3, 1, 1, 2] : State).length ∧
      ∀ p q, (row [2, 1, 2, 2] p).testBit q = true →
        (row [3, 1, 1, 2] p).testBit q = true ∨
          (true = true ∧ p = (5 - 1) / (Spec.m ⟨true, 2⟩) * 2 +
            (5 - 1) % (Spec.m ⟨true, 2⟩) % 2 ∧ q = 2 - 1) :=
  ⟨by decide, colored_bits_kept_except_marker ⟨true, 2⟩ [3, 1, 1, 2] [2, 1, 2, 2] 5 true 3
    (by decide)⟩

/-- C7 fails as stated: in the coloured 2-rooks diagram the state `[3, 1, 1, 2]`
at level 5 is reached from the root by one place branch; the place branch at
level 5, whose slot (row 1, colour 0) is the bitmap of index 2, turns that
bitmap from `1` into `2`, so its bit 1, which was `0`, becomes `1`. -/
theorem colored_place_sets_cleared_bit :
    getRoot ⟨true, 2⟩ [0, 0, 0, 0] = some ([3, 3, 1, 2], 8) ∧
    getChild ⟨true, 2⟩ [3, 3, 1, 2] 8 true = some ([3, 1, 1, 2], 5) ∧
    getChild ⟨true, 2⟩ [3, 1, 1, 2] 5 true = some ([2, 1, 2, 2], 3) ∧
    (row [3, 1, 1, 2] 2).testBit 1 = false ∧ (row [2, 1, 2, 2] 2).testBit 1 = true := by
  decide

/-! ### The coloured root -/

theorem seedRows_spec (c : Spec) :
    ∀ (k : Nat) (bm : State), k ≤ 32 → c.m - c.n + k ≤ bm.length →
      ∃ bm1, seedRows c k bm = some bm1 ∧ bm1.length = bm.length ∧
        ∀ p, row bm1 p =
          if c.m - c.n ≤ p ∧ p < c.m - c.n + k then 2 ^ (p - (c.m - c.n)) else row bm p := by
  intro k
  induction k with
  | zero =>
    intro bm _ _
    refine ⟨bm, rfl, rfl, fun p => ?_⟩
    rw [if_neg (by omega)]
  | succ k ih =>
    intro bm hk hl
    obtain ⟨bm1, h1, h2, h3⟩ := ih (bm.set (c.m - c.n + k) (1 <<< k)) (by omega)
      (by simp; omega)
    refine ⟨bm1, ?_, by rw [h2]; simp, fun p => ?_⟩
    · simp only [seedRows, bit, show k < 32 by omega, if_true, Option.bind_eq_bind,
        Option.some_bind, show c.m - c.n + k < bm.length by omega]
      exact h1
    · rw [h3 p]
      by_cases hp : p = c.m - c.n + k
      · rw [if_neg (by omega), if_pos (by omega), hp, row_set_self _ _ _ (by omega),
          Nat.one_shiftLeft, Nat.add_sub_cancel_left]
      · rw [row_set_ne _ _ _ _ hp]
        by_cases hq : c.m - c.n ≤ p ∧ p < c.m - c.n + k
        · rw [if_pos hq, if_pos (by omega)]
        · rw [if_neg hq, if_neg (by omega)]

theorem fillDown_spec (v : Nat) :
    ∀ (k : Nat) (bm : State), k ≤ bm.length →
      ∃ bm1, fillDown v k bm = some bm1 ∧ bm1.length = bm.length ∧
        ∀ p, row bm1 p = if p < k then v else row bm p := by
  intro k
  induction k with
  | zero =>
    intro bm _
    exact ⟨bm, rfl, rfl, fun p => by rw [if_neg (by omega)]⟩
  | succ k ih =>
    intro bm hk
    obtain ⟨bm1, h1, h2, h3⟩ := ih (bm.set k v) (by simp; omega)
    refine ⟨bm1, ?_, by rw [h2]; simp, fun p => ?_⟩
    · simp only [fillDown, show k < bm.length by omega, if_true]
      exact h1
    · rw [h3 p]
      by_cases hp : p = k
      · rw [if_neg (by omega), if_pos (by omega), hp, row_set_self _ _ _ (by omega)]
      · rw [row_set_ne _ _ _ _ hp]
        by_cases hq : p < k
        · rw [if_pos hq, if_pos (by omega)]
        · rw [if_neg hq, if_neg (by omega)]

theorem coloredRoot_rows (c : Spec) (hn : c.n ≤ 31) (buf : State) (hb : buf.length = c.m) :
    ∃ bm, getRoot c buf = some (bm, c.topLevel) ∧ bm.length = c.m ∧
      ∀ p, p < c.m →
        row bm p = if p < c.m - c.n then 2 ^ c.n - 1 else 2 ^ (p - (c.m - c.n)) := by
  have hmn : c.n ≤ c.m ∨ c.n = 0 := by
    by_cases h0 : c.n = 0
    · exact Or.inr h0
    · exact Or.inl (Nat.le_mul_of_pos_left c.n (by omega))
  have hle : c.m - c.n + c.n ≤ buf.length := by
    rcases hmn with h | h
    · omega
    · have : c.m = 0 := by simp [Spec.m, h]
      omega
  obtain ⟨bm1, h1, hl1, hr1⟩ := seedRows_spec c c.n buf (by omega) hle
  obtain ⟨bm2, h2, hl2, hr2⟩ := fillDown_spec (2 ^ c.n - 1) (c.m - c.n) bm1 (by omega)
  refine ⟨bm2, ?_, by omega, fun p hp => ?_⟩
  · simp only [getRoot, fullMask_val c.n (by omega), h1, h2, Option.bind_eq_bind,
      Option.some_bind, Option.pure_def]
  · rw [hr2 p]
    by_cases hq : p < c.m - c.n
    · rw [if_pos hq, if_pos hq]
    · rw [if_neg hq, if_neg hq, hr1 p, if_pos (by omega)]

/-- C12 (coloured root): for every `1 ≤ n ≤ 31` and every buffer of `n * n`
bitmaps, `ColoredNQueenZddBase::getRoot` returns the level `n * n * n` and
leaves a state of `n * n` bitmaps, indexed by `row * n + colour`, in which the
bitmap of each colour `k < n` of the top row `n - 1` is `2 ^ k`, with exactly
the single bit `k` set, and every bitmap of the rows `0 .. n-2` is `2 ^ n - 1`,
with exactly the bits `0 .. n-1` set. -/
theorem coloredRoot_seeded (rk : Bool) (n : Nat) (hn1 : 1 ≤ n) (hn : n ≤ 31) (buf : State)
    (hb : buf.length = n * n) :
    ∃ bm, getRoot ⟨rk, n⟩ buf = some (bm, n * n * n) ∧ bm.length = n * n ∧
      (∀ k, k < n → row bm ((n - 1) * n + k) = 2 ^ k ∧
        ∀ q, (row bm ((n - 1) * n + k)).testBit q = true ↔ q = k) ∧
      (∀ i k, i < n - 1 → k < n → row bm (i * n + k) = 2 ^ n - 1 ∧
        ∀ q, (row bm (i * n + k)).testBit q = true ↔ q < n) := by
  obtain ⟨bm, hg, hl, hrow⟩ := coloredRoot_rows ⟨rk, n⟩ hn buf hb
  have hm : (Spec.m ⟨rk, n⟩) = n * n := rfl
  have hsub : n * n - n = (n - 1) * n := by
    rw [Nat.sub_mul, Nat.one_mul]
  have hmul : (n - 1) * n + n = n * n := by
    have : (n - 1) * n + n = (n - 1 + 1) * n := by ring
    rw [this, Nat.sub_add_cancel hn1]
  refine ⟨bm, hg, hl, fun k hk => ?_, fun i k hi hk => ?_⟩
  · have h1 := hrow ((n - 1) * n + k) (by rw [hm]; omega)
    rw [hm, hsub, if_neg (by omega), Nat.add_sub_cancel_left] at h1
    refine ⟨h1, fun q => ?_⟩
    rw [h1, Nat.testBit_two_pow]
    simp [eq_comm]
  · have hlt : i * n + k < (n - 1) * n := by
      have : i * n + n ≤ (n - 1) * n := by
        have h2 : (i + 1) * n ≤ (n - 1) * n := Nat.mul_le_mul_right n (by omega)
        have h3 : (i + 1) * n = i * n + n := by ring
        omega
      omega
    have h1 := hrow (i * n + k) (by rw [hm]; omega)
    rw [hm, hsub, if_pos hlt] at h1
    refine ⟨h1, fun q => ?_⟩
    rw [h1, Nat.testBit_two_pow_sub_one]
    simp

/-- Instance of C12: the root of the coloured 3-board diagram. -/
theorem coloredRoot_seeded_witness :
    ∃ bm, getRoot ⟨true, 3⟩ [0, 0, 0, 0, 0, 0, 0, 0, 0] = some (bm, 3 * 3 * 3) ∧
      bm.length = 3 * 3 ∧
      (∀ k, k < 3 → row bm ((3 - 1) * 3 + k) = 2 ^ k ∧
        ∀ q, (row bm ((3 - 1) * 3 + k)).testBit q = true ↔ q = k) ∧
      (∀ i k, i < 3 - 1 → k < 3 → row bm (i * 3 + k) = 2 ^ 3 - 1 ∧
        ∀ q, (row bm (i * 3 + k)).testBit q = true ↔ q < 3) :=
  coloredRoot_seeded true 3 (by decide) (by decide) [0, 0, 0, 0, 0, 0, 0, 0, 0] rfl

/-! ### Sibling clearing in the coloured variant -/

theorem testBit_false_of_sub {s1 s : State} (h : Sub s1 s) (p q : Nat)
    (hq : (row s p).testBit q = false) : (row s1 p).testBit q = false := by
  cases h1 : (row s1 p).testBit q
  · rfl
  · rw [h.2 p q h1] at hq
    exact absurd hq (by simp)

theorem testBit_set_clearBit (s : State) (p x y j : Nat) (hx : s[p]? = some x)
    (hy : clearBit x j = some y) : (row (s.set p y) p).testBit j = false := by
  obtain ⟨_, hp⟩ := getElem?_some_row hx
  obtain ⟨rfl, hj⟩ := clearBit_some hy
  rw [row_set_self _ _ _ hp, testBit_clearBitP _ _ _ hj]
  simp

theorem coloredScan_clears (c : Spec) :
    ∀ (L : Nat) (s s1 : State) (r : Int), scan c L s = some (s1, r) → 1 ≤ r →
      r < L ∧ ∀ l : Nat, r < (l : Int) → l < L →
        (row s1 ((l - 1) / c.m * c.n + (l - 1) % c.m % c.n)).testBit
          ((l - 1) % c.m / c.n) = false := by
  intro L
  induction L with
  | zero => intro s s1 r h; simp [scan] at h
  | succ L ih =>
    intro s s1 r h hr
    have hs := coloredScan_sub c _ _ _ _ h
    unfold scan at h
    split at h
    · exact absurd h (by simp)
    · simp only [Option.bind_eq_bind, Option.bind_eq_some, Option.pure_def] at h
      obtain ⟨stop, _, h⟩ := h
      split at h
      · simp only [Option.some.injEq, Prod.mk.injEq] at h
        obtain ⟨rfl, rfl⟩ := h
        exact ⟨by omega, fun l h1 h2 => absurd h1 (by omega)⟩
      · simp only [Option.bind_eq_some] at h
        obtain ⟨x, hx, y, hy, h⟩ := h
        split at h
        · simp only [Option.some.injEq, Prod.mk.injEq] at h
          omega
        · obtain ⟨h1, h2⟩ := ih _ _ _ h hr
          refine ⟨by omega, fun l hl1 hl2 => ?_⟩
          by_cases hl : l = L
          · rw [hl]
            exact testBit_false_of_sub (coloredScan_sub c _ _ _ _ h) _ _
              (testBit_set_clearBit s _ x y _ hx hy)
          · exact h2 l hl1 (by omega)

theorem clearSiblings_clears (c : Spec) (i j : Nat) :
    ∀ (kk : Nat) (s s1 : State), clearSiblings c i j kk s = some s1 →
      ∀ k1, k1 < kk → (row s1 (i * c.n + k1)).testBit j = false := by
  intro kk
  induction kk with
  | zero => intro s s1 _ k1 hk; omega
  | succ kk ih =>
    intro s s1 h k1 hk
    simp only [clearSiblings, Option.bind_eq_bind, Option.bind_eq_some] at h
    obtain ⟨x, hx, y, hy, h⟩ := h
    by_cases hk1 : k1 = kk
    · rw [hk1]
      exact testBit_false_of_sub (clearSiblings_sub c i j _ _ _ h) _ _
        (testBit_set_clearBit s _ x y j hx hy)
    · exact ih _ _ h k1 (by omega)

theorem dec3 (n i j k : Nat) (hj : j < n) (hk : k < n) :
    (i * (n * n) + j * n + k) / (n * n) = i ∧
    (i * (n * n) + j * n + k) % (n * n) / n = j ∧
    (i * (n * n) + j * n + k) % (n * n) % n = k := by
  have h1 : j * n + k < n * n := by
    have : j * n + n ≤ n * n := by
      have h2 : (j + 1) * n ≤ n * n := Nat.mul_le_mul_right n (by omega)
      have h3 : (j + 1) * n = j * n + n := by ring
      omega
    omega
  have e : i * (n * n) + j * n + k = i * (n * n) + (j * n + k) := by ring
  rw [e, decode_div _ _ _ h1, decode_mod _ _ _ h1, decode_div _ _ _ hk, decode_mod _ _ _ hk]
  exact ⟨rfl, rfl, rfl⟩

theorem enc3 (n x : Nat) (hn : 0 < n) :
    x = x / (n * n) * (n * n) + x % (n * n) / n * n + x % (n * n) % n ∧
    x % (n * n) / n < n ∧ x % (n * n) % n < n := by
  have h1 := Nat.div_add_mod x (n * n)
  have h2 := Nat.div_add_mod (x % (n * n)) n
  have h3 : x % (n * n) < n * n := Nat.mod_lt _ (Nat.mul_pos hn hn)
  refine ⟨?_, Nat.div_lt_of_lt_mul h3, Nat.mod_lt _ hn⟩
  rw [Nat.mul_comm (n * n) (x / (n * n))] at h1
  rw [Nat.mul_comm n (x % (n * n) / n)] at h2
  omega

theorem coloredSkip_inv {c : Spec} {s s1 : State} {L : Nat} {r : Int}
    (h : getChild c s L false = some (s1, r)) (hr : 1 ≤ r) :
    1 ≤ L ∧ 1 ≤ c.n ∧ ∃ x y, s[(L - 1) / c.m * c.n + (L - 1) % c.m % c.n]? = some x ∧
      clearBit x ((L - 1) % c.m / c.n) = some y ∧
      scan c L (s.set ((L - 1) / c.m * c.n + (L - 1) % c.m % c.n) y) = some (s1, r) := by
  unfold getChild at h
  split at h
  · exact absurd h (by simp)
  · rename_i hL
    simp only [Bool.false_eq_true, if_false, Option.bind_eq_bind, Option.bind_eq_some,
      Option.pure_def] at h
    obtain ⟨x, hx, y, hy, h⟩ := h
    refine ⟨by omega, by omega, x, y, hx, hy, ?_⟩
    split at h
    · simp only [Option.some.injEq, Prod.mk.injEq] at h
      omega
    · split at h
      · exact absurd h (by simp)
      · exact h

theorem coloredPlace_inv {c : Spec} {s s1 : State} {L : Nat} {r : Int}
    (h : getChild c s L true = some (s1, r)) (hr : 1 ≤ r) :
    1 ≤ L ∧ 1 ≤ c.n ∧ ∃ x s2 total s3,
      s[(L - 1) / c.m * c.n + (L - 1) % c.m % c.n]? = some x ∧
      hasBit x ((L - 1) % c.m / c.n) = some true ∧
      placeLoop c ((L - 1) / c.m) ((L - 1) % c.m / c.n) ((L - 1) % c.m % c.n)
        ((L - 1) / c.m) s 0 = some (s2, some total) ∧
      (L - 1) / c.m * c.n + (L - 1) % c.m % c.n < s2.length ∧
      clearSiblings c ((L - 1) / c.m) ((L - 1) % c.m / c.n) ((L - 1) % c.m % c.n)
        (s2.set ((L - 1) / c.m * c.n + (L - 1) % c.m % c.n) (1 <<< (c.n - 1))) = some s3 ∧
      scan c L s3 = some (s1, r) := by
  unfold getChild at h
  split at h
  · exact absurd h (by simp)
  · rename_i hL
    simp only [if_true, Option.bind_eq_bind, Option.bind_eq_some, Option.pure_def] at h
    obtain ⟨x, hx, t, ht, h⟩ := h
    refine ⟨by omega, by omega, x, ?_⟩
    cases t with
    | false =>
      simp only [Bool.not_false, if_true, Option.some.injEq, Prod.mk.injEq] at h
      omega
    | true =>
      simp only [Bool.not_true, Bool.false_eq_true, if_false, Option.bind_eq_some] at h
      obtain ⟨⟨s2, r2⟩, hp, h⟩ := h
      cases r2 with
      | none =>
        simp only [Option.some.injEq, Prod.mk.injEq] at h
        omega
      | some total =>
        dsimp only at h
        split at h
        · simp only [Option.some.injEq, Prod.mk.injEq] at h
          omega
        · split at h
          · simp only [Option.some.injEq, Prod.mk.injEq] at h
            omega
          · simp only [Option.bind_eq_some] at h
            obtain ⟨v, hv, h⟩ := h
            have hv1 : v = 1 <<< (c.n - 1) := by
              unfold bit at hv
              split at hv
              · simpa using hv.symm
              · exact absurd hv (by simp)
            subst hv1
            split at h
            · rename_i hlen
              simp only [Option.bind_eq_some] at h
              obtain ⟨s3, h3, h⟩ := h
              exact ⟨s2, total, s3, hx, ht, hp, hlen, h3, h⟩
            · exact absurd h (by simp)

theorem coloredStep_bits {c : Spec} {s s1 : State} {L : Nat} {b : Bool} {r : Int}
    (h : getChild c s L b = some (s1, r)) (hr : 1 ≤ r) (p q : Nat)
    (hq : (row s1 p).testBit q = true)
    (hp : p ≠ (L - 1) / c.m * c.n + (L - 1) % c.m % c.n) : (row s p).testBit q = true := by
  cases b
  · obtain ⟨_, _, x, y, hx, hy, hsc⟩ := coloredSkip_inv h hr
    have h1 := (coloredScan_sub c _ _ _ _ hsc).2 p q hq
    rwa [row_set_ne _ _ _ _ hp] at h1
  · obtain ⟨_, _, x, s2, total, s3, hx, ht, hpl, hlen, h3, hsc⟩ := coloredPlace_inv h hr
    have h1 := (clearSiblings_sub c _ _ _ _ _ h3).2 p q
      ((coloredScan_sub c _ _ _ _ hsc).2 p q hq)
    rw [row_set_ne _ _ _ _ hp] at h1
    exact (coloredPlaceLoop_sub c _ _ _ _ _ _ _ _ hpl).2 p q h1

theorem coloredStep_passed {c : Spec} {s s1 : State} {L : Nat} {b : Bool} {r : Int}
    (h : getChild c s L b = some (s1, r)) (hr : 1 ≤ r) :
    r < L ∧
    (∀ l : Nat, r < (l : Int) → l < L →
      (row s1 ((l - 1) / c.m * c.n + (l - 1) % c.m % c.n)).testBit
        ((l - 1) % c.m / c.n) = false) ∧
    (b = false → (row s1 ((L - 1) / c.m * c.n + (L - 1) % c.m % c.n)).testBit
        ((L - 1) % c.m / c.n) = false) ∧
    (b = true → (row s ((L - 1) / c.m * c.n + (L - 1) % c.m % c.n)).testBit
        ((L - 1) % c.m / c.n) = true ∧
      ∀ k1, k1 < (L - 1) % c.m % c.n →
        (row s1 ((L - 1) / c.m * c.n + k1)).testBit ((L - 1) % c.m / c.n) = false) := by
  cases b
  · obtain ⟨_, _, x, y, hx, hy, hsc⟩ := coloredSkip_inv h hr
    obtain ⟨h1, h2⟩ := coloredScan_clears c _ _ _ _ hsc hr
    refine ⟨h1, h2, fun _ => ?_, fun hb => absurd hb (by simp)⟩
    exact testBit_false_of_sub (coloredScan_sub c _ _ _ _ hsc) _ _
      (testBit_set_clearBit s _ x y _ hx hy)
  · obtain ⟨_, _, x, s2, total, s3, hx, ht, hpl, hlen, h3, hsc⟩ := coloredPlace_inv h hr
    obtain ⟨h1, h2⟩ := coloredScan_clears c _ _ _ _ hsc hr
    refine ⟨h1, h2, fun hb => absurd hb (by simp), fun _ => ⟨?_, fun k1 hk1 => ?_⟩⟩
    · obtain ⟨rfl, _⟩ := getElem?_some_row hx
      obtain ⟨ht1, _⟩ := hasBit_some ht
      exact ht1.symm
    · exact testBit_false_of_sub (coloredScan_sub c _ _ _ _ hsc) _ _
        (clearSiblings_clears c _ _ _ _ _ h3 k1 hk1)

theorem dec3_inj (n i j k i1 j1 k1 : Nat) (hj : j < n) (hk : k < n) (hj1 : j1 < n)
    (hk1 : k1 < n) (e : i * (n * n) + j * n + k = i1 * (n * n) + j1 * n + k1) :
    i = i1 ∧ j = j1 ∧ k = k1 := by
  obtain ⟨a1, a2, a3⟩ := dec3 n i j k hj hk
  obtain ⟨b1, b2, b3⟩ := dec3 n i1 j1 k1 hj1 hk1
  rw [e] at a1 a2 a3
  exact ⟨a1.symm.trans b1, a2.symm.trans b2, a3.symm.trans b3⟩

theorem passed_step {c : Spec} {s s1 : State} {L : Nat} {b : Bool} {r : Int}
    (hP : Passed c s L) (h : getChild c s L b = some (s1, r)) (hr : 1 ≤ r) :
    Passed c s1 r.toNat := by
  obtain ⟨hrL, hF1, hF2s, hF2p⟩ := coloredStep_passed h hr
  have hbits := fun p q => coloredStep_bits h hr p q
  have hpos : 1 ≤ L ∧ 1 ≤ c.n := by
    cases b
    · exact ⟨(coloredSkip_inv h hr).1, (coloredSkip_inv h hr).2.1⟩
    · exact ⟨(coloredPlace_inv h hr).1, (coloredPlace_inv h hr).2.1⟩
  obtain ⟨R, rfl⟩ := Int.eq_ofNat_of_zero_le (show 0 ≤ r by omega)
  rw [Int.toNat_ofNat]
  have hR1 : 1 ≤ R := by omega
  have hRL : R < L := by omega
  obtain ⟨eL, hjL, hkL⟩ := enc3 c.n (L - 1) (by omega)
  obtain ⟨eR, hjR, hkR⟩ := enc3 c.n (R - 1) (by omega)
  simp only [Passed, Spec.m] at hP ⊢
  simp only [Spec.m] at hF1 hF2s hF2p hbits
  generalize (L - 1) / (c.n * c.n) = i at *
  generalize (L - 1) % (c.n * c.n) / c.n = j at *
  generalize (L - 1) % (c.n * c.n) % c.n = k at *
  generalize (R - 1) / (c.n * c.n) = i1 at *
  generalize (R - 1) % (c.n * c.n) / c.n = j1 at *
  generalize (R - 1) % (c.n * c.n) % c.n = k1 at *
  intro a k2 ha hk2 hk2n hset
  obtain ⟨d1, d2, d3⟩ := dec3 c.n i1 j1 k2 hjR hk2n
  have hl2 : i1 * (c.n * c.n) + j1 * c.n + k2 + 1 - 1 = i1 * (c.n * c.n) + j1 * c.n + k2 :=
    Nat.add_sub_cancel _ _
  rcases Nat.lt_trichotomy (i1 * (c.n * c.n) + j1 * c.n + k2 + 1) L with hlt | heq | hgt
  · have h1 := hF1 (i1 * (c.n * c.n) + j1 * c.n + k2 + 1) (by omega) hlt
    rw [hl2, d1, d2, d3, hset] at h1
    exact absurd h1 (by simp)
  · obtain ⟨e1, e2, e3⟩ := dec3_inj c.n i j k i1 j1 k2 hjL hkL hjR hk2n (by omega)
    subst e1 e2 e3
    cases b
    · rw [hF2s rfl] at hset
      exact absurd hset (by simp)
    · exact (hF2p rfl).2 a (by omega)
  · have hk3 : k1 + (L - R) < c.n := by omega
    obtain ⟨e1, e2, e3⟩ := dec3_inj c.n i j k i1 j1 (k1 + (L - R)) hjL hkL hjR hk3 (by omega)
    subst e1 e2 e3
    have hs2 := hbits _ _ hset (by omega)
    have hs1 := hP a k2 (by omega) (by omega) hk2n hs2
    cases h1 : (row s1 (i * c.n + a)).testBit j
    · rfl
    · rw [hbits _ _ h1 (by omega)] at hs1
      exact absurd hs1 (by simp)

theorem passed_root (c : Spec) (hn1 : 1 ≤ c.n) (buf bm : State) (L : Nat)
    (h : getRoot c buf = some (bm, L)) : Passed c bm L := by
  have hL : L = c.topLevel := by
    simp only [getRoot, Option.bind_eq_bind, Option.bind_eq_some, Option.pure_def,
      Option.some.injEq, Prod.mk.injEq] at h
    obtain ⟨_, _, _, _, _, _, _, h⟩ := h
    exact h.symm
  have hmul : (c.n - 1) * (c.n * c.n) + c.n * c.n = c.n * c.n * c.n := by
    have : (c.n - 1) * (c.n * c.n) + c.n * c.n = (c.n - 1 + 1) * (c.n * c.n) := by ring
    rw [this, Nat.sub_add_cancel hn1]
    ring
  have hmul2 : (c.n - 1) * c.n + c.n = c.n * c.n := by
    have : (c.n - 1) * c.n + c.n = (c.n - 1 + 1) * c.n := by ring
    rw [this, Nat.sub_add_cancel hn1]
  have hpos : 0 < c.n * c.n := Nat.mul_pos (by omega) (by omega)
  obtain ⟨_, _, d3⟩ := dec3 c.n (c.n - 1) (c.n - 1) (c.n - 1) (by omega) (by omega)
  have e : L - 1 = (c.n - 1) * (c.n * c.n) + (c.n - 1) * c.n + (c.n - 1) := by
    rw [hL, Spec.topLevel]
    omega
  intro k1 k2 _ hk2 hk2n
  simp only [Spec.m, e, d3] at hk2
  omega

theorem Reach.passed {c : Spec} (hn1 : 1 ≤ c.n) {s : State} {L : Nat} (h : Reach c s L) :
    Passed c s L := by
  induction h with
  | root buf bm level _ hg => exact passed_root c hn1 buf bm level hg
  | step bm bm1 level b r _ hg hr ih => exact passed_step ih hg hr

/-- C17 (coloured sibling clearing): at every pair `(state, level)` reachable
from `getRoot`, for every call of the place branch of
`ColoredNQueenZddBase::getChild` at the cell `(i, j, k)` of the level that
returns a non-terminal level, column `j` is cleared in the output bitmap of
every other colour `k1 ≠ k` of row `i` (bitmap index `i * n + k1`): the lower
colours by the sibling loop, the higher colours at the earlier levels of the
same cell. -/
theorem colored_siblings_cleared (c : Spec) (s s1 : State) (L : Nat) (r : Int)
    (hR : Reach c s L) (h : getChild c s L true = some (s1, r)) (hr : 1 ≤ r) :
    ∀ k1, k1 < c.n → k1 ≠ (L - 1) % c.m % c.n →
      (row s1 ((L - 1) / c.m * c.n + k1)).testBit ((L - 1) % c.m / c.n) = false := by
  obtain ⟨_, _, _, hF2p⟩ := coloredStep_passed h hr
  obtain ⟨hset, hlow⟩ := hF2p rfl
  intro k1 hk1 hne
  by_cases hlt : k1 < (L - 1) % c.m % c.n
  · exact hlow k1 hlt
  · have hP := hR.passed (coloredPlace_inv h hr).2.1
    cases h1 : (row s1 ((L - 1) / c.m * c.n + k1)).testBit ((L - 1) % c.m / c.n)
    · rfl
    · have h2 := coloredStep_bits h hr _ _ h1 (by omega)
      have h3 := hP ((L - 1) % c.m % c.n) k1 (Nat.le_refl _) (by omega) hk1 h2
      rw [hset] at h3
      exact absurd h3 (by simp)

/-- The state reached from the root of the coloured 3-rooks diagram by three
place branches, at level 17, that is at row 1, column 2, colour 1. -/
theorem colored_reach_three_places :
    Reach ⟨true, 3⟩ [6, 5, 3, 6, 5, 3, 4, 4, 4] 17 :=
  Reach.step [7, 5, 3, 7, 5, 3, 1, 4, 4] _ 19 true 17
    (Reach.step [7, 7, 3, 7, 7, 3, 1, 2, 4] _ 23 true 19
      (Reach.step [7, 7, 7, 7, 7, 7, 1, 2, 4] _ 27 true 23
        (Reach.root [0, 0, 0, 0, 0, 0, 0, 0, 0] _ _ rfl (by decide))
        (by decide) (by decide))
      (by decide) (by decide))
    (by decide) (by decide)

/-- The state reached from the root of the coloured 2-rooks diagram by one place
branch, at level 5, that is at row 1, column 0, colour 0. -/
theorem colored_reach_one_place : Reach ⟨true, 2⟩ [3, 1, 1, 2] 5 :=
  Reach.step [3, 3, 1, 2] _ 8 true 5
    (Reach.root [0, 0, 0, 0] _ _ rfl (by decide)) (by decide) (by decide)

/-- Instance of C17.  In the coloured 3-rooks diagram the place branch at level
17 (row 1, column 2, colour 1) returns level 15; the lower colour 0 of row 1,
whose bitmap `6` offered column 2, has it cleared by the sibling loop (bitmap
`2`), and the higher colour 2 does not offer it.  In the coloured 2-rooks
diagram the place branch at level 5 (row 1, column 0, colour 0) returns level 3
and the higher colour 1 does not offer column 0. -/
theorem colored_siblings_cleared_witness :
    (getChild ⟨true, 3⟩ [6, 5, 3, 6, 5, 3, 4, 4, 4] 17 true =
        some ([6, 1, 3, 2, 4, 3, 4, 4, 4], 15) ∧
      (row [6, 5, 3, 6, 5, 3, 4, 4, 4] 3).testBit 2 = true ∧
      ∀ k1, k1 < 3 → k1 ≠ (17 - 1) % (Spec.m ⟨true, 3⟩) % 3 →
        (row [6, 1, 3, 2, 4, 3, 4, 4, 4] ((17 - 1) / (Spec.m ⟨true, 3⟩) * 3 + k1)).testBit
          ((17 - 1) % (Spec.m ⟨true, 3⟩) / 3) = false) ∧
    (getChild ⟨true, 2⟩ [3, 1, 1, 2] 5 true = some ([2, 1, 2, 2], 3) ∧
      ∀ k1, k1 < 2 → k1 ≠ (5 - 1) % (Spec.m ⟨true, 2⟩) % 2 →
        (row [2, 1, 2, 2] ((5 - 1) / (Spec.m ⟨true, 2⟩) * 2 + k1)).testBit
          ((5 - 1) % (Spec.m ⟨true, 2⟩) / 2) = false) :=
  ⟨⟨by decide, by decide,
    colored_siblings_cleared ⟨true, 3⟩ [6, 5, 3, 6, 5, 3, 4, 4, 4]
      [6, 1, 3, 2, 4, 3, 4, 4, 4] 17 15 colored_reach_three_places (by decide) (by decide)⟩,
   ⟨by decide,
    colored_siblings_cleared ⟨true, 2⟩ [3, 1, 1, 2] [2, 1, 2, 2] 5 3
      colored_reach_one_place (by decide) (by decide)⟩⟩

end ColoredNQueen
